import Mathlib

/-!
A verification development for the colony crate: a stable-handle element
pool built from a jump-counting skipfield, an intrusive doubly linked
free-list threaded through the unoccupied slots, and pluggable guards
(none / flag / generation) for handle validation.

The definitions below are a shallow embedding of the sources:
  * src/skipfield.rs  (SkipfieldPtr with one-byte cells and spill words)
  * src/guard.rs      (NoGuard, FlagGuard, GenerationGuard)
  * src/index_opt.rs  (IndexOpt, modelled as Option Nat)
  * src/lib.rs        (Colony: insert, remove, get, reserve, clear)
  * src/iter.rs       (RawIter)
Machine integers (usize, u64, u32, u8) are modelled as Nat with the
overflow and truncation points made explicit where the code checks them.
Memory is modelled functionally: the slot array is a function from
indices, and the skipfield is a function from Int positions (position -1
and positions at or past the touched prefix are the zero sentinels).
-/

set_option maxHeartbeats 1600000

namespace ColonySpec

/-- isize::MAX on the 64-bit targets the crate is written for
(src/lib.rs MAX_CAPACITY). -/
def MAX_CAPACITY : Nat := 2 ^ 63 - 1

/-- src/guard.rs COLONY_ID_BITS. -/
def COLONY_ID_BITS : Nat := 44

/-- src/guard.rs MAX_COLONY_ID = 2^44 - 1. -/
def MAX_COLONY_ID : Nat := 2 ^ COLONY_ID_BITS - 1

/-- src/guard.rs GENERATION_BITS = 64 - 44. -/
def GENERATION_BITS : Nat := 20

/-- src/guard.rs MAX_GENERATION = 2^20 - 1, the reserved retirement
sentinel of the per-slot generation counter. -/
def MAX_GENERATION : Nat := 2 ^ GENERATION_BITS - 1

/-! ## Skipfield (src/skipfield.rs)

Cells are one byte; a value below 255 is stored directly, and 255 is an
escape marker sending reads to a spill word chosen by the access
direction.  The source derives the spill word's address by rounding the
cell's address to a machine-word boundary on the chosen side; those
bytes overlap interior cells of the same long skipblock, whose residue
is never read.  The embedding abstracts that address arithmetic to one
spill slot per cell and direction. -/

/-- The two access directions of src/skipfield.rs (LEFT = -1, RIGHT = 1). -/
inductive Dir where
  | left
  | right
deriving DecidableEq

/-- Skipfield state: byte cells plus the per-direction spill words. -/
structure Skipfield where
  cell : Int → Nat
  spillL : Int → Nat
  spillR : Int → Nat

/-- The spill word for a cell in a given direction. -/
def sfSpill (d : Dir) (sf : Skipfield) (i : Int) : Nat :=
  match d with
  | .left => sf.spillL i
  | .right => sf.spillR i

/-- SkipfieldPtr::read: the cell if below 255, else the spill word on the
side chosen by the direction. -/
def sfRead (d : Dir) (sf : Skipfield) (i : Int) : Nat :=
  if sf.cell i < 255 then sf.cell i else sfSpill d sf i

/-- SkipfieldPtr::write: store directly if below 255, else store the 255
escape and put the value in the spill word on the chosen side. -/
def sfWrite (d : Dir) (sf : Skipfield) (i : Int) (v : Nat) : Skipfield :=
  if v < 255 then
    { sf with cell := fun j => if j = i then v else sf.cell j }
  else
    match d with
    | .left =>
        { cell := fun j => if j = i then 255 else sf.cell j
          spillL := fun j => if j = i then v else sf.spillL j
          spillR := sf.spillR }
    | .right =>
        { cell := fun j => if j = i then 255 else sf.cell j
          spillL := sf.spillL
          spillR := fun j => if j = i then v else sf.spillR j }

/-- SkipfieldPtr::skip: merge the (in-bounds, currently unskipped) index
with the adjacent skipblocks and return the merged block's endpoints.
usize subtraction index - left is Nat subtraction, as in the source. -/
def sfSkip (sf : Skipfield) (index : Nat) : (Nat × Nat) × Skipfield :=
  let left := sfRead .left sf ((index : Int) - 1)
  let right := sfRead .right sf ((index : Int) + 1)
  let size := left + right + 1
  let start := index - left
  let stop := index + right
  let sf1 := sfWrite .right sf (start : Int) size
  let sf2 := sfWrite .left sf1 (stop : Int) size
  ((start, stop), sf2)

/-- SkipfieldPtr::unskip_leftmost: shrink the skipblock headed at index
by one on the left. -/
def sfUnskipLeftmost (sf : Skipfield) (index : Nat) : Skipfield :=
  let oldSize := sfRead .right sf (index : Int)
  let sf1 := sfWrite .right sf (index : Int) 0
  let newSize := oldSize - 1
  if 0 < newSize then
    let sf2 := sfWrite .right sf1 ((index : Int) + 1) newSize
    sfWrite .left sf2 ((index : Int) + oldSize - 1) newSize
  else sf1

/-! ## Guards (src/guard.rs)

The Guard trait is modelled as a bundle of the capability set.  The
process-global colony-id counter of GenerationGuard is threaded through
the operations as an explicit Nat (drawId takes the counter and yields
the issued id and the new counter, or none when the draw would panic).
occState is the per-slot occupied-state predicate used by the coherence
invariants; it is not part of the source trait. -/

structure GuardSig where
  G : Type
  Id : Type
  Handle : Type
  gnew : G
  sentinelId : Id
  drawId : Nat → Option (Id × Nat)
  mkHandle : G → Nat → Id → Handle
  extractIndex : Handle → Nat
  gfill : G → G
  gempty : G → G × Bool
  gcheck : G → Handle → Id → Bool
  occState : G → Prop

/-- The generation part of a packed generation word
(Generation::generation: state & ((1 << 20) - 1)). -/
def genPart (state : Nat) : Nat := state % 2 ^ GENERATION_BITS

/-- The colony-id part of a packed generation word
(Generation::colony_id: state >> 20). -/
def colonyIdPart (state : Nat) : Nat := state / 2 ^ GENERATION_BITS

/-- Generation::new: (colony_id << GENERATION_BITS) | generation. -/
def genEncode (colonyId generation : Nat) : Nat :=
  Nat.lor (colonyId * 2 ^ GENERATION_BITS) generation

/-- The Handle type of GenerationGuard: an index plus the packed
generation word. -/
structure GenHandle where
  index : Nat
  state : Nat
deriving DecidableEq

/-- GenerationGuard: per-slot state is the u32 generation counter (even
when occupied, odd when empty); handles carry the packed pool id and
counter; ids are drawn from the global counter, whose draw panics past
MAX_COLONY_ID (fetch_update returns the pre-increment value). -/
def generationSig : GuardSig where
  G := Nat
  Id := Nat
  Handle := GenHandle
  gnew := 0
  sentinelId := 0
  drawId := fun k => if k + 1 ≤ MAX_COLONY_ID then some (k, k + 1) else none
  mkHandle := fun g index id => ⟨index, genEncode id g⟩
  extractIndex := fun h => h.index
  gfill := fun g => g + 1
  gempty := fun g => (g + 1, decide (g + 1 ≠ MAX_GENERATION))
  gcheck := fun g h id => decide (id = colonyIdPart h.state) && decide (g = genPart h.state)
  occState := fun g => g % 2 = 0

/-- FlagGuard: per-slot state is the occupied flag; handles are bare
indices; check returns the flag. -/
def flagSig : GuardSig where
  G := Bool
  Id := Unit
  Handle := Nat
  gnew := true
  sentinelId := ()
  drawId := fun k => some ((), k)
  mkHandle := fun _ index _ => index
  extractIndex := fun h => h
  gfill := fun _ => true
  gempty := fun _ => (false, true)
  gcheck := fun g _ _ => g
  occState := fun g => g = true

/-- NoGuard: zero-sized state, handles are bare indices, empty always
permits reuse.  It is not a CheckedGuard; gcheck and occState are
placeholders that no theorem relies on. -/
def noGuardSig : GuardSig where
  G := Unit
  Id := Unit
  Handle := Nat
  gnew := ()
  sentinelId := ()
  drawId := fun k => some ((), k)
  mkHandle := fun _ index _ => index
  extractIndex := fun h => h
  gfill := fun _ => ()
  gempty := fun _ => ((), true)
  gcheck := fun _ _ _ => true
  occState := fun _ => False

/-! ## Slots and the colony (src/lib.rs)

The payload union of a slot is modelled as a sum; reading the wrong arm
is undefined behaviour in the source and yields a default value here
(those reads are shown unreachable under the invariants).  Writing a
free-list link through an occupied payload likewise never happens in a
consistent state and is modelled as a no-op. -/

/-- The SlotInner union: an occupied value, or the Unoccupied free-list
node holding the prev and next links (IndexOpt pairs). -/
inductive Payload (T : Type) where
  | occupied (v : T)
  | unoccupied (prev next : Option Nat)

/-- A slot: the guard state paired with the payload union. -/
structure MSlot (S : GuardSig) (T : Type) where
  g : S.G
  payload : Payload T

/-- The colony state.  slots is only meaningful on [0, touched); the
skipfield is meaningful on [-1, touched] with zero sentinels outside. -/
structure Colony (S : GuardSig) (T : Type) where
  slots : Nat → MSlot S T
  sf : Skipfield
  capacity : Nat
  touched : Nat
  len : Nat
  nextFree : Option Nat
  id : S.Id

variable {S : GuardSig} {T : Type}

/-- Reading the occupied arm of the payload union; default on the wrong
arm (undefined behaviour in the source). -/
def occValueD [Inhabited T] (p : Payload T) : T :=
  match p with
  | .occupied v => v
  | .unoccupied _ _ => default

/-- Whether the slot at an index holds an occupied payload. -/
def isOcc (c : Colony S T) (j : Nat) : Bool :=
  match (c.slots j).payload with
  | .occupied _ => true
  | .unoccupied _ _ => false

/-- The prev link of an unoccupied slot (none on the wrong union arm). -/
def slotPrev (c : Colony S T) (j : Nat) : Option Nat :=
  match (c.slots j).payload with
  | .unoccupied p _ => p
  | .occupied _ => none

/-- The next link of an unoccupied slot (none on the wrong union arm). -/
def slotNext (c : Colony S T) (j : Nat) : Option Nat :=
  match (c.slots j).payload with
  | .unoccupied _ n => n
  | .occupied _ => none

/-- Overwrite the slot at an index. -/
def setSlot (c : Colony S T) (j : Nat) (s : MSlot S T) : Colony S T :=
  { c with slots := fun m => if m = j then s else c.slots m }

/-- Overwrite the payload at an index, keeping the guard state. -/
def setPayload (c : Colony S T) (j : Nat) (p : Payload T) : Colony S T :=
  setSlot c j ⟨(c.slots j).g, p⟩

/-- Write the prev link of the unoccupied slot at an index (no-op on an
occupied payload, where the source write would be undefined). -/
def setPrev (c : Colony S T) (j : Nat) (x : Option Nat) : Colony S T :=
  match (c.slots j).payload with
  | .unoccupied _ n => setPayload c j (.unoccupied x n)
  | .occupied _ => c

/-- Write the next link of the unoccupied slot at an index. -/
def setNext (c : Colony S T) (j : Nat) (x : Option Nat) : Colony S T :=
  match (c.slots j).payload with
  | .unoccupied p _ => setPayload c j (.unoccupied p x)
  | .occupied _ => c

/-- Colony::remove_skipblock_from_skiplist: splice the chain segment
from start through stop out of the free-list. -/
def removeSkipblockFromSkiplist (c : Colony S T) (start stop : Nat) : Colony S T :=
  let prev := slotPrev c start
  let next := slotNext c stop
  let c1 :=
    match prev with
    | some p => setNext c p next
    | none => { c with nextFree := next }
  match next with
  | some n => setPrev c1 n prev
  | none => c1

/-- Colony::add_skipblock_to_skiplist: push the chain segment from start
through stop onto the front of the free-list. -/
def addSkipblockToSkiplist (c : Colony S T) (start stop : Nat) : Colony S T :=
  let c1 := setPrev c start none
  let c2 := setNext c1 stop c1.nextFree
  let c3 :=
    match c2.nextFree with
    | some oldHead => setPrev c2 oldHead (some stop)
    | none => c2
  { c3 with nextFree := some start }

/-- Colony::stitch_only_left: splice the vacated index right after its
left neighbour index - 1 in the free-list. -/
def stitchOnlyLeft (c : Colony S T) (index : Nat) : Colony S T :=
  let next := slotNext c (index - 1)
  let c1 := setNext c (index - 1) (some index)
  let c2 :=
    match next with
    | some n => setPrev c1 n (some index)
    | none => c1
  setPayload c2 index (.unoccupied (some (index - 1)) next)

/-- Colony::stitch_only_right: splice the vacated index right before its
right neighbour index + 1 in the free-list, adjusting the root when the
neighbour was the list head. -/
def stitchOnlyRight (c : Colony S T) (index : Nat) : Colony S T :=
  let prev := slotPrev c (index + 1)
  let c1 := setPrev c (index + 1) (some index)
  let c2 :=
    match prev with
    | some p => setNext c1 p (some index)
    | none => { c1 with nextFree := some index }
  setPayload c2 index (.unoccupied prev (some (index + 1)))

/-- Colony::stitch_left_and_right: remove the two adjacent segments from
the free-list, push the merged segment to the front, and thread the
vacated index between its neighbours. -/
def stitchLeftAndRight (c : Colony S T) (index start stop : Nat) : Colony S T :=
  let c1 := removeSkipblockFromSkiplist c start (index - 1)
  let c2 := removeSkipblockFromSkiplist c1 (index + 1) stop
  let c3 := addSkipblockToSkiplist c2 start stop
  let c4 := setNext c3 (index - 1) (some index)
  let c5 := setPrev c4 (index + 1) (some index)
  setPayload c5 index (.unoccupied (some (index - 1)) (some (index + 1)))

/-- Colony::remove_unchecked: empty the slot, merge the skipfield, and
if the guard permitted reuse stitch the free-list by adjacency case;
finally decrement len and return the value. -/
def removeUnchecked [Inhabited T] (c : Colony S T) (index : Nat) : T × Colony S T :=
  let slot := c.slots index
  let v := occValueD slot.payload
  let er := S.gempty slot.g
  let c1 := setSlot c index ⟨er.1, .unoccupied none none⟩
  let se := sfSkip c1.sf index
  let start := se.1.1
  let stop := se.1.2
  let c2 := { c1 with sf := se.2 }
  let c3 :=
    if er.2 then
      if start = index then
        if stop = index then addSkipblockToSkiplist c2 index index
        else stitchOnlyRight c2 index
      else
        if stop = index then stitchOnlyLeft c2 index
        else stitchLeftAndRight c2 index start stop
    else c2
  (v, { c3 with len := c3.len - 1 })

/-- Colony::insert_into_free: unskip the head of the first skipblock,
unlink it from the free-list, fill it, and mint the handle from the
freshly filled guard and the colony id. -/
def insertIntoFree [Inhabited T] (c : Colony S T) (free : Nat) (v : T) :
    Colony S T × S.Handle :=
  let c1 := { c with sf := sfUnskipLeftmost c.sf free }
  let c2 := removeSkipblockFromSkiplist c1 free free
  let c3 := { c2 with len := c2.len + 1 }
  let g1 := S.gfill (c3.slots free).g
  let c4 := setSlot c3 free ⟨g1, .occupied v⟩
  (c4, S.mkHandle g1 free c3.id)

/-- Colony::insert_at_end_unchecked: write a fresh occupied slot at
touched and mint the handle from the fresh guard state. -/
def insertAtEndUnchecked (c : Colony S T) (v : T) : Colony S T × S.Handle :=
  let slot : MSlot S T := ⟨S.gnew, .occupied v⟩
  let handle := S.mkHandle slot.g c.touched c.id
  let c1 := setSlot c c.touched slot
  ({ c1 with touched := c1.touched + 1, len := c1.len + 1 }, handle)

/-- Colony::MIN_NON_ZERO_CAP, selected by the element size in bytes. -/
def minNonZeroCap (sizeT : Nat) : Nat :=
  if sizeT = 1 then 8 else if sizeT ≤ 1024 then 4 else 1

/-- The skipfield after Colony::resize: cells [-1, touched] are copied
and the rest of the fresh allocation's cells are zeroed; spill residue
is carried along (in the source it lives in the copied interior-cell
bytes).  Cells past the new capacity are never read; zero stands for
their junk. -/
def resizeSf (sf : Skipfield) (touched : Nat) : Skipfield :=
  { sf with cell := fun i => if i ≤ (touched : Int) then sf.cell i else 0 }

/-- Colony::do_reserve: panic (none) when len + additional reaches
isize::MAX (the source filters new_cap < MAX_CAPACITY, and a usize
overflow of the checked_add lands in the same case); draw a fresh colony
id when growing from capacity zero; grow to the maximum of the request,
twice the old capacity and the minimum bucket. -/
def doReserve (sizeT : Nat) (c : Colony S T) (k : Nat) (additional : Nat) :
    Option (Colony S T × Nat) :=
  let newCap0 := c.len + additional
  if MAX_CAPACITY ≤ newCap0 then none
  else
    let drawn : Option (Option S.Id × Nat) :=
      if c.capacity = 0 then (S.drawId k).map (fun p => (some p.1, p.2))
      else some (none, k)
    drawn.bind fun di =>
      let newCap1 := max newCap0 (c.capacity * 2)
      let newCap := max newCap1 (minNonZeroCap sizeT)
      let c1 := { c with capacity := newCap, sf := resizeSf c.sf c.touched }
      let c2 :=
        match di.1 with
        | some i => { c1 with id := i }
        | none => c1
      some (c2, di.2)

/-- Colony::reserve: a no-op when the spare capacity already covers the
request. -/
def reserveOp (sizeT : Nat) (c : Colony S T) (k : Nat) (additional : Nat) :
    Option (Colony S T × Nat) :=
  if c.capacity - c.len < additional then doReserve sizeT c k additional
  else some (c, k)

/-- Colony::insert: reuse the free-list head when there is one, else
append at touched, reserving first when full. -/
def insertOp [Inhabited T] (sizeT : Nat) (c : Colony S T) (k : Nat) (v : T) :
    Option (Colony S T × Nat × S.Handle) :=
  match c.nextFree with
  | some free =>
      let r := insertIntoFree c free v
      some (r.1, k, r.2)
  | none =>
      if c.len = c.capacity then
        (reserveOp sizeT c k 1).map fun ck =>
          let r := insertAtEndUnchecked ck.1 v
          (r.1, ck.2, r.2)
      else
        let r := insertAtEndUnchecked c v
        some (r.1, k, r.2)

/-- The skipfield after Colony::clear: cells [0, touched) are zeroed by
write_bytes; the sentinels and the spill residue are untouched. -/
def clearSf (sf : Skipfield) (touched : Nat) : Skipfield :=
  { sf with cell := fun i => if 0 ≤ i ∧ i < (touched : Int) then 0 else sf.cell i }

/-- Colony::clear: run destructors (pure here), zero the touched
skipfield prefix, re-mint the colony id, and reset len, touched and the
free-list root; capacity and the slot array are kept. -/
def clearOp (c : Colony S T) (k : Nat) : Option (Colony S T × Nat) :=
  (S.drawId k).map fun ik =>
    ({ c with sf := clearSf c.sf c.touched, id := ik.1, len := 0, touched := 0,
              nextFree := none }, ik.2)

/-- Colony::get: none past touched, none when the guard check fails,
else the occupied arm of the payload. -/
def getOp [Inhabited T] (c : Colony S T) (h : S.Handle) : Option T :=
  let index := S.extractIndex h
  if c.touched ≤ index then none
  else if S.gcheck (c.slots index).g h c.id then
    some (occValueD (c.slots index).payload)
  else none

/-- Colony::remove (checked): none past touched or on a failed check,
leaving the colony untouched; else remove_unchecked. -/
def removeOp [Inhabited T] (c : Colony S T) (h : S.Handle) : Option T × Colony S T :=
  let index := S.extractIndex h
  if c.touched ≤ index then (none, c)
  else if S.gcheck (c.slots index).g h c.id then
    let r := removeUnchecked c index
    (some r.1, r.2)
  else (none, c)

/-- Colony::default: no allocation, zero sentinels for the skipfield,
the sentinel colony id.  Slot contents below are the model's stand-in
for uninitialized memory. -/
def initColony (S : GuardSig) (T : Type) [Inhabited T] : Colony S T :=
  { slots := fun _ => ⟨S.gnew, .unoccupied none none⟩
    sf := ⟨fun _ => 0, fun _ => 0, fun _ => 0⟩
    capacity := 0
    touched := 0
    len := 0
    nextFree := none
    id := S.sentinelId }

/-! ## Iterator (src/iter.rs)

RawIter copies the colony's element and skipfield pointers, a current
index and the remaining count - and nothing else; in particular it holds
no colony id.  Items are modelled as the visited index paired with the
value (the handle minting of the source is examined separately). -/

/-- The RawIter state: exactly the four fields of the source struct. -/
structure RawIter (S : GuardSig) (T : Type) where
  sf : Skipfield
  slots : Nat → MSlot S T
  index : Nat
  len : Nat

/-- RawIter::new. -/
def rawIterInit (c : Colony S T) : RawIter S T :=
  ⟨c.sf, c.slots, 0, c.len⟩

/-- RawIter::next: none when the remaining count is zero; else advance
by the rightward skip count at the cursor, emit the slot there, then
step once past it. -/
def iterStep [Inhabited T] (s : RawIter S T) : Option ((Nat × T) × RawIter S T) :=
  if s.len = 0 then none
  else
    let off := sfRead .right s.sf (s.index : Int)
    let i := s.index + off
    let v := occValueD (s.slots i).payload
    some ((i, v), { s with index := i + 1, len := s.len - 1 })

/-- Run the iterator for at most the given number of steps. -/
def iterRunFuel [Inhabited T] : Nat → RawIter S T → List (Nat × T)
  | 0, _ => []
  | fuel + 1, s =>
      match iterStep s with
      | none => []
      | some is => is.1 :: iterRunFuel fuel is.2

/-- A full run of the iterator (its remaining count bounds its yields). -/
def iterRun [Inhabited T] (s : RawIter S T) : List (Nat × T) :=
  iterRunFuel s.len s

/-- Follow next links from an optional index, with fuel. -/
def chaseFrom (c : Colony S T) : Nat → Option Nat → List Nat
  | 0, _ => []
  | _, none => []
  | fuel + 1, some j => j :: chaseFrom c fuel (slotNext c j)

/-- The indices on the free-list, root first (fuel touched + 1 suffices
in any consistent state). -/
def freeIndices (c : Colony S T) : List Nat :=
  chaseFrom c (c.touched + 1) c.nextFree

/-- Whether an index is the head slot of its skipblock: unoccupied, at
position zero or with an occupied left neighbour. -/
def isHeadB (c : Colony S T) (j : Nat) : Bool :=
  !isOcc c j && (j == 0 || isOcc c (j - 1))

/-! ## Operation steps and reachability

A step is one externally triggered mutation: an insert, a removal of an
occupied index (the elementary operation under every checked or
unchecked removal that removes), a reserve, or a clear.  StepR is
faithful to the source: a removal requires only an occupied in-bounds
index, whether or not the guard permitted reuse.  StepRNoRetire is the
restricted relation whose removals additionally carry the reuse
permission: for FlagGuard and NoGuard that is every removal, and for
GenerationGuard it excludes exactly the generation-exhaustion
retirements (reaching one needs about half a million removals of a
single slot).  The free-list invariant holds only along StepRNoRetire;
past a retirement it genuinely fails (see the iteration
counterexample). -/

inductive StepR (S : GuardSig) (T : Type) [Inhabited T] (sizeT : Nat) :
    Colony S T × Nat → Colony S T × Nat → Prop where
  | insert {c k v c1 k1 h} : insertOp sizeT c k v = some (c1, k1, h) →
      StepR S T sizeT (c, k) (c1, k1)
  | remove {c k i} : i < c.touched → isOcc c i = true →
      StepR S T sizeT (c, k) ((removeUnchecked c i).2, k)
  | reserve {c k a c1 k1} : reserveOp sizeT c k a = some (c1, k1) →
      StepR S T sizeT (c, k) (c1, k1)
  | clear {c k c1 k1} : clearOp c k = some (c1, k1) →
      StepR S T sizeT (c, k) (c1, k1)

/-- The restricted step relation: as StepR, but removals carry the side
condition that the guard permitted reuse (no generation-exhaustion
retirement happens). -/
inductive StepRNoRetire (S : GuardSig) (T : Type) [Inhabited T] (sizeT : Nat) :
    Colony S T × Nat → Colony S T × Nat → Prop where
  | insert {c k v c1 k1 h} : insertOp sizeT c k v = some (c1, k1, h) →
      StepRNoRetire S T sizeT (c, k) (c1, k1)
  | remove {c k i} : i < c.touched → isOcc c i = true →
      (S.gempty (c.slots i).g).2 = true →
      StepRNoRetire S T sizeT (c, k) ((removeUnchecked c i).2, k)
  | reserve {c k a c1 k1} : reserveOp sizeT c k a = some (c1, k1) →
      StepRNoRetire S T sizeT (c, k) (c1, k1)
  | clear {c k c1 k1} : clearOp c k = some (c1, k1) →
      StepRNoRetire S T sizeT (c, k) (c1, k1)

/-- Reachability from a fresh colony by any operation sequence, with
the global id counter starting at k0. -/
def Reach (S : GuardSig) (T : Type) [Inhabited T] (sizeT k0 : Nat)
    (w : Colony S T × Nat) : Prop :=
  Relation.ReflTransGen (StepR S T sizeT) (initColony S T, k0) w

/-- Reachability from a fresh colony by operation sequences whose every
removal had reuse permission (no retirement). -/
def ReachNoRetire (S : GuardSig) (T : Type) [Inhabited T] (sizeT k0 : Nat)
    (w : Colony S T × Nat) : Prop :=
  Relation.ReflTransGen (StepRNoRetire S T sizeT) (initColony S T, k0) w

/-! ## The structural invariant

The invariant is indexed by the skipblocks listed in free-list order.
Each entry (s, e) is a maximal unoccupied run; the free-list visits the
members of each block contiguously in ascending order, block after
block, rooted at nextFree. -/

/-- The member indices of a block, ascending. -/
def blockIndices (b : Nat × Nat) : List Nat := List.range' b.1 (b.2 + 1 - b.1)

/-- The free-list order induced by a block list: each block's members in
ascending order, blocks in list order. -/
def chainOf (blocks : List (Nat × Nat)) : List Nat := blocks.flatMap blockIndices

/-- Membership of an index in a block. -/
def inBlock (j : Nat) (b : Nat × Nat) : Prop := b.1 ≤ j ∧ j ≤ b.2

/-- Two list neighbours of the doubly linked free-list point at each
other. -/
def linkRel (c : Colony S T) (a b : Nat) : Prop :=
  slotNext c a = some b ∧ slotPrev c b = some a

/-- The free-list is exactly the doubly linked list over l: rooted at
nextFree, consecutively linked, with none at both outer ends. -/
structure FreeListOk (c : Colony S T) (l : List Nat) : Prop where
  root : c.nextFree = l.head?
  chain : List.Chain' (linkRel c) l
  headPrev : ∀ j ∈ l.head?, slotPrev c j = none
  lastNext : ∀ j ∈ l.getLast?, slotNext c j = none

/-- The colony invariant, with the skipblocks listed in free-list
order. -/
structure InvH (c : Colony S T) (blocks : List (Nat × Nat)) : Prop where
  blocksLe : ∀ b ∈ blocks, b.1 ≤ b.2 ∧ b.2 < c.touched
  cover : ∀ j, j < c.touched → (isOcc c j = false ↔ ∃ b ∈ blocks, inBlock j b)
  maxLeft : ∀ b ∈ blocks, b.1 = 0 ∨ isOcc c (b.1 - 1) = true
  maxRight : ∀ b ∈ blocks, b.2 + 1 = c.touched ∨ isOcc c (b.2 + 1) = true
  nodup : (chainOf blocks).Nodup
  sfEnds : ∀ b ∈ blocks, sfRead .right c.sf (b.1 : Int) = b.2 + 1 - b.1 ∧
      sfRead .left c.sf (b.2 : Int) = b.2 + 1 - b.1
  sfOcc : ∀ j, j < c.touched → isOcc c j = true → c.sf.cell (j : Int) = 0
  sfOut : ∀ i : Int, (i < 0 ∨ (c.touched : Int) ≤ i) → c.sf.cell i = 0
  flOk : FreeListOk c (chainOf blocks)
  lenEq : c.len + (chainOf blocks).length = c.touched
  capOk : c.touched ≤ c.capacity

/-! ## Basic skipfield lemmas -/

theorem sfWrite_cell_same (d : Dir) (sf : Skipfield) (i : Int) (v : Nat) :
    (sfWrite d sf i v).cell i = if v < 255 then v else 255 := by
  unfold sfWrite
  by_cases h : v < 255 <;> cases d <;> simp [h]

theorem sfWrite_cell_other (d : Dir) (sf : Skipfield) {i j : Int} (v : Nat)
    (h : j ≠ i) : (sfWrite d sf i v).cell j = sf.cell j := by
  unfold sfWrite
  by_cases hv : v < 255 <;> cases d <;> simp [hv, h]

theorem sfWrite_spill_other (d d' : Dir) (sf : Skipfield) {i j : Int} (v : Nat)
    (h : j ≠ i) : sfSpill d' (sfWrite d sf i v) j = sfSpill d' sf j := by
  unfold sfWrite sfSpill
  by_cases hv : v < 255 <;> cases d <;> cases d' <;> simp [hv, h]

theorem sfRead_write_same (d : Dir) (sf : Skipfield) (i : Int) (v : Nat) :
    sfRead d (sfWrite d sf i v) i = v := by
  unfold sfRead sfWrite
  by_cases hv : v < 255
  · simp [hv]
  · cases d <;> simp [hv, sfSpill]

theorem sfRead_write_small (d d' : Dir) (sf : Skipfield) (i : Int) {v : Nat}
    (hv : v < 255) : sfRead d' (sfWrite d sf i v) i = v := by
  unfold sfRead sfWrite
  simp [hv]

theorem sfRead_write_other (d d' : Dir) (sf : Skipfield) {i j : Int} (v : Nat)
    (h : j ≠ i) : sfRead d' (sfWrite d sf i v) j = sfRead d' sf j := by
  unfold sfRead
  rw [sfWrite_cell_other d sf v h, sfWrite_spill_other d d' sf v h]

theorem sfRead_of_cell_zero (d : Dir) (sf : Skipfield) {i : Int}
    (h : sf.cell i = 0) : sfRead d sf i = 0 := by
  unfold sfRead
  simp [h]

/-- After sfSkip, the rightward read at the merged start yields the
merged size. -/
theorem sfSkip_read_start (sf : Skipfield) (index : Nat) :
    sfRead .right (sfSkip sf index).2
      ((index - sfRead .left sf ((index : Int) - 1) : Nat) : Int) =
    sfRead .left sf ((index : Int) - 1) + sfRead .right sf ((index : Int) + 1) + 1 := by
  set L := sfRead .left sf ((index : Int) - 1) with hL
  set R := sfRead .right sf ((index : Int) + 1) with hR
  show sfRead .right
    (sfWrite .left (sfWrite .right sf ((index - L : Nat) : Int) (L + R + 1))
      ((index + R : Nat) : Int) (L + R + 1)) ((index - L : Nat) : Int) = L + R + 1
  by_cases h : ((index - L : Nat) : Int) = ((index + R : Nat) : Int)
  · rw [h]
    by_cases hv : L + R + 1 < 255
    · rw [sfRead_write_small _ _ _ _ hv]
    · unfold sfRead sfWrite sfSpill
      simp [hv]
  · rw [sfRead_write_other _ _ _ _ h, sfRead_write_same]

/-- After sfSkip, the leftward read at the merged stop yields the merged
size. -/
theorem sfSkip_read_stop (sf : Skipfield) (index : Nat) :
    sfRead .left (sfSkip sf index).2
      ((index + sfRead .right sf ((index : Int) + 1) : Nat) : Int) =
    sfRead .left sf ((index : Int) - 1) + sfRead .right sf ((index : Int) + 1) + 1 := by
  exact sfRead_write_same _ _ _ _

/-- sfSkip changes nothing away from the two merged endpoints. -/
theorem sfSkip_read_other (sf : Skipfield) (index : Nat) (d : Dir) {j : Int}
    (h1 : j ≠ ((index - sfRead .left sf ((index : Int) - 1) : Nat) : Int))
    (h2 : j ≠ ((index + sfRead .right sf ((index : Int) + 1) : Nat) : Int)) :
    sfRead d (sfSkip sf index).2 j = sfRead d sf j := by
  show sfRead d
    (sfWrite .left (sfWrite .right sf _ _) _ _) j = sfRead d sf j
  rw [sfRead_write_other _ _ _ _ h2, sfRead_write_other _ _ _ _ h1]

/-- sfSkip leaves cells away from the two merged endpoints unchanged. -/
theorem sfSkip_cell_other (sf : Skipfield) (index : Nat) {j : Int}
    (h1 : j ≠ ((index - sfRead .left sf ((index : Int) - 1) : Nat) : Int))
    (h2 : j ≠ ((index + sfRead .right sf ((index : Int) + 1) : Nat) : Int)) :
    (sfSkip sf index).2.cell j = sf.cell j := by
  show (sfWrite .left (sfWrite .right sf _ _) _ _).cell j = sf.cell j
  rw [sfWrite_cell_other _ _ _ h2, sfWrite_cell_other _ _ _ h1]

/-- After sfUnskipLeftmost, the cell at the unskipped index is zero. -/
theorem sfUnskip_cell_index (sf : Skipfield) (index : Nat) :
    (sfUnskipLeftmost sf index).cell (index : Int) = 0 := by
  unfold sfUnskipLeftmost
  set s0 := sfRead .right sf (index : Int) with hs0
  by_cases h : 0 < s0 - 1
  · simp only [h, if_pos]
    rw [sfWrite_cell_other, sfWrite_cell_other, sfWrite_cell_same]
    · simp
    · omega
    · omega
  · simp only [h, if_neg, if_false]
    rw [sfWrite_cell_same]
    simp

/-- After sfUnskipLeftmost on a block of size at least two, the
rightward read at index + 1 yields the shrunk size. -/
theorem sfUnskip_read_next (sf : Skipfield) (index : Nat)
    (h2 : 2 ≤ sfRead .right sf (index : Int)) :
    sfRead .right (sfUnskipLeftmost sf index) ((index : Int) + 1) =
      sfRead .right sf (index : Int) - 1 := by
  unfold sfUnskipLeftmost
  set s0 := sfRead .right sf (index : Int) with hs0
  have h : 0 < s0 - 1 := by omega
  simp only [h, if_pos]
  by_cases hc : ((index : Int) + s0 - 1) = ((index : Int) + 1)
  · have hv : s0 - 1 < 255 := by omega
    rw [hc, sfRead_write_small _ _ _ _ hv]
  · rw [sfRead_write_other _ _ _ _ (by omega : ((index : Int) + 1) ≠ ((index : Int) + s0 - 1)),
      sfRead_write_same]

/-- After sfUnskipLeftmost on a block of size at least two, the leftward
read at the old stop yields the shrunk size. -/
theorem sfUnskip_read_last (sf : Skipfield) (index : Nat)
    (h2 : 2 ≤ sfRead .right sf (index : Int)) :
    sfRead .left (sfUnskipLeftmost sf index)
      ((index : Int) + sfRead .right sf (index : Int) - 1) =
      sfRead .right sf (index : Int) - 1 := by
  unfold sfUnskipLeftmost
  set s0 := sfRead .right sf (index : Int) with hs0
  have h : 0 < s0 - 1 := by omega
  simp only [h, if_pos]
  rw [sfRead_write_same]

/-- sfUnskipLeftmost changes nothing away from the head, the new head
and the old stop. -/
theorem sfUnskip_read_other (sf : Skipfield) (index : Nat) (d : Dir) {j : Int}
    (h0 : j ≠ (index : Int)) (h1 : j ≠ (index : Int) + 1)
    (h2 : j ≠ (index : Int) + sfRead .right sf (index : Int) - 1) :
    sfRead d (sfUnskipLeftmost sf index) j = sfRead d sf j := by
  unfold sfUnskipLeftmost
  set s0 := sfRead .right sf (index : Int) with hs0
  by_cases h : 0 < s0 - 1
  · simp only [h, if_pos]
    rw [sfRead_write_other _ _ _ _ h2, sfRead_write_other _ _ _ _ h1,
      sfRead_write_other _ _ _ _ h0]
  · simp only [h, if_neg, if_false]
    rw [sfRead_write_other _ _ _ _ h0]

/-- Cell framing for sfUnskipLeftmost. -/
theorem sfUnskip_cell_other (sf : Skipfield) (index : Nat) {j : Int}
    (h0 : j ≠ (index : Int)) (h1 : j ≠ (index : Int) + 1)
    (h2 : j ≠ (index : Int) + sfRead .right sf (index : Int) - 1) :
    (sfUnskipLeftmost sf index).cell j = sf.cell j := by
  unfold sfUnskipLeftmost
  set s0 := sfRead .right sf (index : Int) with hs0
  by_cases h : 0 < s0 - 1
  · simp only [h, if_pos]
    rw [sfWrite_cell_other _ _ _ h2, sfWrite_cell_other _ _ _ h1,
      sfWrite_cell_other _ _ _ h0]
  · simp only [h, if_neg, if_false]
    rw [sfWrite_cell_other _ _ _ h0]

/-! ## Framing lemmas for slot updates -/

variable {c : Colony S T}

theorem setSlot_slots_same (c : Colony S T) (i : Nat) (s : MSlot S T) :
    (setSlot c i s).slots i = s := by
  simp [setSlot]

theorem setSlot_slots_other (c : Colony S T) {i j : Nat} (s : MSlot S T)
    (h : j ≠ i) : (setSlot c i s).slots j = c.slots j := by
  simp [setSlot, h]

theorem payload_shape_of_not_occ {i : Nat} (h : isOcc c i = false) :
    ∃ p n, (c.slots i).payload = .unoccupied p n := by
  unfold isOcc at h
  revert h
  cases hp : (c.slots i).payload with
  | occupied v => intro h; simp at h
  | unoccupied p n => intro h; exact ⟨p, n, rfl⟩

theorem payload_shape_of_occ {i : Nat} (h : isOcc c i = true) :
    ∃ v, (c.slots i).payload = .occupied v := by
  unfold isOcc at h
  revert h
  cases hp : (c.slots i).payload with
  | occupied v => intro h; exact ⟨v, rfl⟩
  | unoccupied p n => intro h; simp at h

theorem setPrev_fields (c : Colony S T) (i : Nat) (x : Option Nat) :
    (setPrev c i x).sf = c.sf ∧ (setPrev c i x).capacity = c.capacity ∧
    (setPrev c i x).touched = c.touched ∧ (setPrev c i x).len = c.len ∧
    (setPrev c i x).nextFree = c.nextFree ∧ (setPrev c i x).id = c.id := by
  unfold setPrev
  cases (c.slots i).payload <;> simp [setPayload, setSlot]

theorem setNext_fields (c : Colony S T) (i : Nat) (x : Option Nat) :
    (setNext c i x).sf = c.sf ∧ (setNext c i x).capacity = c.capacity ∧
    (setNext c i x).touched = c.touched ∧ (setNext c i x).len = c.len ∧
    (setNext c i x).nextFree = c.nextFree ∧ (setNext c i x).id = c.id := by
  unfold setNext
  cases (c.slots i).payload <;> simp [setPayload, setSlot]

theorem setPrev_slots_other (c : Colony S T) {i j : Nat} (x : Option Nat)
    (h : j ≠ i) : (setPrev c i x).slots j = c.slots j := by
  unfold setPrev
  cases (c.slots i).payload
  · rfl
  · exact setSlot_slots_other _ _ h

theorem setNext_slots_other (c : Colony S T) {i j : Nat} (x : Option Nat)
    (h : j ≠ i) : (setNext c i x).slots j = c.slots j := by
  unfold setNext
  cases (c.slots i).payload
  · rfl
  · exact setSlot_slots_other _ _ h

theorem isOcc_setPrev (c : Colony S T) (i : Nat) (x : Option Nat) (j : Nat) :
    isOcc (setPrev c i x) j = isOcc c j := by
  unfold setPrev
  cases hp : (c.slots i).payload
  · rfl
  · by_cases h : j = i
    · subst h
      unfold isOcc setPayload
      rw [setSlot_slots_same, hp]
    · unfold isOcc setPayload
      rw [setSlot_slots_other _ _ h]

theorem isOcc_setNext (c : Colony S T) (i : Nat) (x : Option Nat) (j : Nat) :
    isOcc (setNext c i x) j = isOcc c j := by
  unfold setNext
  cases hp : (c.slots i).payload
  · rfl
  · by_cases h : j = i
    · subst h
      unfold isOcc setPayload
      rw [setSlot_slots_same, hp]
    · unfold isOcc setPayload
      rw [setSlot_slots_other _ _ h]

theorem g_setPrev (c : Colony S T) (i : Nat) (x : Option Nat) (j : Nat) :
    ((setPrev c i x).slots j).g = (c.slots j).g := by
  unfold setPrev
  cases (c.slots i).payload
  · rfl
  · by_cases h : j = i
    · subst h
      unfold setPayload
      rw [setSlot_slots_same]
    · unfold setPayload
      rw [setSlot_slots_other _ _ h]

theorem g_setNext (c : Colony S T) (i : Nat) (x : Option Nat) (j : Nat) :
    ((setNext c i x).slots j).g = (c.slots j).g := by
  unfold setNext
  cases (c.slots i).payload
  · rfl
  · by_cases h : j = i
    · subst h
      unfold setPayload
      rw [setSlot_slots_same]
    · unfold setPayload
      rw [setSlot_slots_other _ _ h]

theorem slotPrev_setPrev_same {i : Nat} (x : Option Nat)
    (h : isOcc c i = false) : slotPrev (setPrev c i x) i = x := by
  obtain ⟨p, n, hp⟩ := payload_shape_of_not_occ h
  unfold setPrev
  rw [hp]
  unfold slotPrev setPayload
  rw [setSlot_slots_same]

theorem slotNext_setPrev_same {i : Nat} (x : Option Nat)
    (h : isOcc c i = false) : slotNext (setPrev c i x) i = slotNext c i := by
  obtain ⟨p, n, hp⟩ := payload_shape_of_not_occ h
  unfold setPrev
  rw [hp]
  unfold slotNext setPayload
  rw [setSlot_slots_same, hp]

theorem slotNext_setNext_same {i : Nat} (x : Option Nat)
    (h : isOcc c i = false) : slotNext (setNext c i x) i = x := by
  obtain ⟨p, n, hp⟩ := payload_shape_of_not_occ h
  unfold setNext
  rw [hp]
  unfold slotNext setPayload
  rw [setSlot_slots_same]

theorem slotPrev_setNext_same {i : Nat} (x : Option Nat)
    (h : isOcc c i = false) : slotPrev (setNext c i x) i = slotPrev c i := by
  obtain ⟨p, n, hp⟩ := payload_shape_of_not_occ h
  unfold setNext
  rw [hp]
  unfold slotPrev setPayload
  rw [setSlot_slots_same, hp]

theorem slotPrev_setPrev_other {i j : Nat} (x : Option Nat) (h : j ≠ i) :
    slotPrev (setPrev c i x) j = slotPrev c j := by
  unfold slotPrev
  rw [setPrev_slots_other _ _ h]

theorem slotNext_setPrev_other {i j : Nat} (x : Option Nat) (h : j ≠ i) :
    slotNext (setPrev c i x) j = slotNext c j := by
  unfold slotNext
  rw [setPrev_slots_other _ _ h]

theorem slotPrev_setNext_other {i j : Nat} (x : Option Nat) (h : j ≠ i) :
    slotPrev (setNext c i x) j = slotPrev c j := by
  unfold slotPrev
  rw [setNext_slots_other _ _ h]

theorem slotNext_setNext_other {i j : Nat} (x : Option Nat) (h : j ≠ i) :
    slotNext (setNext c i x) j = slotNext c j := by
  unfold slotNext
  rw [setNext_slots_other _ _ h]

/-! ## Block and chain helpers -/

theorem mem_blockIndices {j : Nat} {b : Nat × Nat} :
    j ∈ blockIndices b ↔ inBlock j b := by
  unfold blockIndices inBlock
  rw [List.mem_range'_1]
  omega

theorem blockIndices_head {b : Nat × Nat} (h : b.1 ≤ b.2) :
    (blockIndices b).head? = some b.1 := by
  unfold blockIndices
  rw [List.head?_range']
  have : b.2 + 1 - b.1 ≠ 0 := by omega
  simp [this]

theorem blockIndices_getLast {b : Nat × Nat} (h : b.1 ≤ b.2) :
    (blockIndices b).getLast? = some b.2 := by
  unfold blockIndices
  have hn : b.2 + 1 - b.1 = 1 + (b.2 - b.1) := by omega
  rw [hn]
  have hap := List.range'_append b.1 (b.2 - b.1) 1 1
  simp only [List.range'] at hap
  rw [← hap, List.getLast?_concat]
  congr 1
  omega

theorem blockIndices_ne_nil {b : Nat × Nat} (h : b.1 ≤ b.2) :
    blockIndices b ≠ [] := by
  unfold blockIndices
  simp [List.range'_eq_nil]
  omega

theorem chainOf_nil : chainOf [] = [] := rfl

theorem chainOf_cons (b : Nat × Nat) (bs : List (Nat × Nat)) :
    chainOf (b :: bs) = blockIndices b ++ chainOf bs := by
  unfold chainOf
  simp

theorem chainOf_append (B1 B2 : List (Nat × Nat)) :
    chainOf (B1 ++ B2) = chainOf B1 ++ chainOf B2 := by
  unfold chainOf
  simp

theorem mem_chainOf {j : Nat} {blocks : List (Nat × Nat)} :
    j ∈ chainOf blocks ↔ ∃ b ∈ blocks, inBlock j b := by
  unfold chainOf
  simp only [List.mem_flatMap]
  constructor
  · rintro ⟨b, hb, hj⟩
    exact ⟨b, hb, mem_blockIndices.1 hj⟩
  · rintro ⟨b, hb, hj⟩
    exact ⟨b, hb, mem_blockIndices.2 hj⟩

/-- Chain' for linkRel transfers to an updated colony as long as the
next links agree away from the last element and the prev links agree
away from the head. -/
theorem chain'_linkRel_mono {c c' : Colony S T} :
    ∀ {l : List Nat}, l.Nodup → List.Chain' (linkRel c) l →
    (∀ a ∈ l, some a ≠ l.getLast? → slotNext c' a = slotNext c a) →
    (∀ b ∈ l, some b ≠ l.head? → slotPrev c' b = slotPrev c b) →
    List.Chain' (linkRel c') l
  | [], _, _, _, _ => List.chain'_nil
  | [_], _, _, _, _ => List.chain'_singleton _
  | a :: b :: t, hnd, hch, hnext, hprev => by
      rw [List.chain'_cons] at hch ⊢
      have hbt : b ∈ a :: b :: t := by simp
      have hat : a ∈ a :: b :: t := by simp
      have hlast : (a :: b :: t).getLast? = (b :: t).getLast? := by
        rw [List.getLast?_cons_cons]
      have haneLast : some a ≠ (a :: b :: t).getLast? := by
        rw [hlast]
        intro hEq
        have : a ∈ b :: t := List.mem_of_mem_getLast? hEq.symm
        simp only [List.nodup_cons] at hnd
        exact hnd.1 this
      have hbneHead : some b ≠ (a :: b :: t).head? := by
        simp only [List.head?_cons]
        intro hEq
        have hba : b = a := by injection hEq
        simp only [List.nodup_cons] at hnd
        subst hba
        exact hnd.1 (by simp)
      refine ⟨⟨?_, ?_⟩, ?_⟩
      · rw [hnext a hat haneLast]; exact hch.1.1
      · rw [hprev b hbt hbneHead]; exact hch.1.2
      · have hnd' : (b :: t).Nodup := (List.nodup_cons.1 hnd).2
        refine chain'_linkRel_mono hnd' hch.2 ?_ ?_
        · intro x hx hxl
          refine hnext x (by simp [hx]) ?_
          rw [hlast]; exact hxl
        · intro x hx hxh
          refine hprev x (by simp [hx]) ?_
          simp only [List.head?_cons]
          intro hEq
          have hxa : x = a := by injection hEq
          simp only [List.nodup_cons] at hnd
          exact hnd.1 (hxa ▸ hx)

/-- Unconditional: setPrev never changes a next link. -/
theorem setPrev_of_occ {i : Nat} (x : Option Nat) (h : isOcc c i = true) :
    setPrev c i x = c := by
  obtain ⟨v, hp⟩ := payload_shape_of_occ h
  unfold setPrev
  rw [hp]

theorem setNext_of_occ {i : Nat} (x : Option Nat) (h : isOcc c i = true) :
    setNext c i x = c := by
  obtain ⟨v, hp⟩ := payload_shape_of_occ h
  unfold setNext
  rw [hp]

theorem slotNext_setPrev (c : Colony S T) (i : Nat) (x : Option Nat) (j : Nat) :
    slotNext (setPrev c i x) j = slotNext c j := by
  by_cases hj : j = i
  · subst hj
    by_cases ho : isOcc c j = true
    · rw [setPrev_of_occ x ho]
    · exact slotNext_setPrev_same x (by simpa using ho)
  · exact slotNext_setPrev_other x hj

theorem slotPrev_setNext (c : Colony S T) (i : Nat) (x : Option Nat) (j : Nat) :
    slotPrev (setNext c i x) j = slotPrev c j := by
  by_cases hj : j = i
  · subst hj
    by_cases ho : isOcc c j = true
    · rw [setNext_of_occ x ho]
    · exact slotPrev_setNext_same x (by simpa using ho)
  · exact slotPrev_setNext_other x hj

/-- Everything except free-list links and the list root is unchanged:
occupancy, guard states, the contents of occupied slots, the skipfield
and the scalar fields. -/
structure LinksOnly (c c1 : Colony S T) : Prop where
  occ : ∀ j, isOcc c1 j = isOcc c j
  gsame : ∀ j, (c1.slots j).g = (c.slots j).g
  occSlot : ∀ j, isOcc c j = true → c1.slots j = c.slots j
  sfSame : c1.sf = c.sf
  touchedSame : c1.touched = c.touched
  lenSame : c1.len = c.len
  capSame : c1.capacity = c.capacity
  idSame : c1.id = c.id

theorem LinksOnly.refl (c : Colony S T) : LinksOnly c c :=
  ⟨fun _ => rfl, fun _ => rfl, fun _ _ => rfl, rfl, rfl, rfl, rfl, rfl⟩

theorem LinksOnly.trans {c c1 c2 : Colony S T} (h1 : LinksOnly c c1)
    (h2 : LinksOnly c1 c2) : LinksOnly c c2 := by
  refine ⟨fun j => (h2.occ j).trans (h1.occ j),
    fun j => (h2.gsame j).trans (h1.gsame j), fun j hj => ?_,
    h2.sfSame.trans h1.sfSame, h2.touchedSame.trans h1.touchedSame,
    h2.lenSame.trans h1.lenSame, h2.capSame.trans h1.capSame,
    h2.idSame.trans h1.idSame⟩
  have hj1 : isOcc c1 j = true := by rw [h1.occ j]; exact hj
  exact (h2.occSlot j hj1).trans (h1.occSlot j hj)

theorem linksOnly_setPrev (c : Colony S T) (i : Nat) (x : Option Nat) :
    LinksOnly c (setPrev c i x) := by
  refine ⟨isOcc_setPrev c i x, g_setPrev c i x, fun j hj => ?_,
    (setPrev_fields c i x).1, (setPrev_fields c i x).2.2.1,
    (setPrev_fields c i x).2.2.2.1, (setPrev_fields c i x).2.1,
    (setPrev_fields c i x).2.2.2.2.2⟩
  by_cases h : j = i
  · subst h; rw [setPrev_of_occ x hj]
  · exact setPrev_slots_other _ _ h

theorem linksOnly_setNext (c : Colony S T) (i : Nat) (x : Option Nat) :
    LinksOnly c (setNext c i x) := by
  refine ⟨isOcc_setNext c i x, g_setNext c i x, fun j hj => ?_,
    (setNext_fields c i x).1, (setNext_fields c i x).2.2.1,
    (setNext_fields c i x).2.2.2.1, (setNext_fields c i x).2.1,
    (setNext_fields c i x).2.2.2.2.2⟩
  by_cases h : j = i
  · subst h; rw [setNext_of_occ x hj]
  · exact setNext_slots_other _ _ h

theorem linksOnly_setNextFree (c : Colony S T) (x : Option Nat) :
    LinksOnly c { c with nextFree := x } :=
  ⟨fun _ => rfl, fun _ => rfl, fun _ _ => rfl, rfl, rfl, rfl, rfl, rfl⟩

theorem head?_append_of_ne_nil {P : List Nat} (X : List Nat) (h : P ≠ []) :
    (P ++ X).head? = P.head? := by
  cases hp : P.head? with
  | none => exact absurd (List.head?_eq_none_iff.1 hp) h
  | some a => rw [List.head?_append, hp]; rfl

theorem getLast?_append_of_ne_nil {Q : List Nat} (X : List Nat) (h : Q ≠ []) :
    (X ++ Q).getLast? = Q.getLast? := by
  cases hq : Q.getLast? with
  | none => exact absurd (List.getLast?_eq_none_iff.1 hq) h
  | some a => rw [List.getLast?_append, hq]; rfl

/-- Splicing out a chain segment: remove_skipblock_from_skiplist applied
to the ends of a segment of the free-list yields the free-list without
that segment, changing only the last-before and first-after links. -/
theorem removeSeg_spec {c : Colony S T} {P A Q : List Nat} {s e : Nat}
    (hOk : FreeListOk c (P ++ A ++ Q))
    (hHead : A.head? = some s) (hLast : A.getLast? = some e)
    (hNodup : (P ++ A ++ Q).Nodup)
    (hUnocc : ∀ j ∈ P ++ A ++ Q, isOcc c j = false) :
    FreeListOk (removeSkipblockFromSkiplist c s e) (P ++ Q) ∧
    LinksOnly c (removeSkipblockFromSkiplist c s e) ∧
    ∀ j, some j ≠ P.getLast? → some j ≠ Q.head? →
      (removeSkipblockFromSkiplist c s e).slots j = c.slots j := by
  have hAnn : A ≠ [] := by
    intro hx
    rw [hx] at hHead
    exact Option.noConfusion hHead
  obtain ⟨hchPA, hchQ, hbPAQ⟩ := List.chain'_append.1 hOk.chain
  have hchain2 : List.Chain' (linkRel c) (P ++ (A ++ Q)) := by
    rw [← List.append_assoc]; exact hOk.chain
  obtain ⟨hchP, hchAQ, hbPA⟩ := List.chain'_append.1 hchain2
  have hheadAQ : (A ++ Q).head? = some s := by
    rw [head?_append_of_ne_nil Q hAnn, hHead]
  have hlastPA : (P ++ A).getLast? = some e := by
    rw [getLast?_append_of_ne_nil P hAnn, hLast]
  have hsA : s ∈ A := List.mem_of_mem_head? hHead
  have heA : e ∈ A := List.mem_of_mem_getLast? hLast
  have hndQ : Q.Nodup := ((List.nodup_append.1 hNodup).2.1)
  have hndPA : (P ++ A).Nodup := (List.nodup_append.1 hNodup).1
  have hndP : P.Nodup := (List.nodup_append.1 hndPA).1
  have hdisPA_Q : (P ++ A).Disjoint Q := (List.nodup_append.1 hNodup).2.2
  have hUnoccP : ∀ j ∈ P, isOcc c j = false := fun j hj =>
    hUnocc j (by simp [hj])
  have hUnoccQ : ∀ j ∈ Q, isOcc c j = false := fun j hj =>
    hUnocc j (by simp [hj])
  have hPrevS : slotPrev c s = P.getLast? := by
    cases hP : P.getLast? with
    | none =>
        have hPnil : P = [] := List.getLast?_eq_none_iff.1 hP
        subst hPnil
        have hh : (([] : List Nat) ++ A ++ Q).head? = some s := by
          simpa using hheadAQ
        exact hOk.headPrev s hh
    | some p =>
        exact (hbPA p hP s hheadAQ).2
  have hNextE : slotNext c e = Q.head? := by
    cases hQ : Q.head? with
    | none =>
        have hQnil : Q = [] := List.head?_eq_none_iff.1 hQ
        subst hQnil
        have hl : (P ++ A ++ ([] : List Nat)).getLast? = some e := by
          simpa using hlastPA
        exact hOk.lastNext e hl
    | some q =>
        exact (hbPAQ e hlastPA q hQ).1
  cases hP : P.getLast? with
  | none =>
    have hPnil : P = [] := List.getLast?_eq_none_iff.1 hP
    subst hPnil
    cases hQ : Q.head? with
    | none =>
      have hQnil : Q = [] := List.head?_eq_none_iff.1 hQ
      subst hQnil
      have hop : removeSkipblockFromSkiplist c s e = { c with nextFree := none } := by
        unfold removeSkipblockFromSkiplist
        rw [hPrevS, hNextE, hP, hQ]
      rw [hop]
      refine ⟨⟨rfl, List.chain'_nil, ?_, ?_⟩, linksOnly_setNextFree c none,
        fun j _ _ => rfl⟩
      · intro j hj; simp [Option.mem_def] at hj
      · intro j hj; simp [Option.mem_def] at hj
    | some q =>
      have hqQ : q ∈ Q := List.mem_of_mem_head? hQ
      have hQnn : Q ≠ [] := by
        intro hx; rw [hx] at hqQ; simp at hqQ
      have hqU : isOcc c q = false := hUnoccQ q hqQ
      have hop : removeSkipblockFromSkiplist c s e =
          setPrev { c with nextFree := some q } q none := by
        unfold removeSkipblockFromSkiplist
        rw [hPrevS, hNextE, hP, hQ]
      rw [hop]
      set cnf : Colony S T := { c with nextFree := some q } with hcnf
      have hqUn : isOcc cnf q = false := hqU
      refine ⟨⟨?_, ?_, ?_, ?_⟩, ?_, ?_⟩
      · rw [(setPrev_fields cnf q none).2.2.2.2.1]
        show some q = (([] : List Nat) ++ Q).head?
        rw [List.nil_append, hQ]
      · show List.Chain' (linkRel (setPrev cnf q none)) ([] ++ Q)
        rw [List.nil_append]
        refine chain'_linkRel_mono hndQ hchQ ?_ ?_
        · intro a _ _
          rw [slotNext_setPrev]
          exact rfl
        · intro b hb hbh
          have hbq : b ≠ q := by
            intro hx; rw [hx, hQ] at hbh; exact hbh rfl
          rw [slotPrev_setPrev_other _ hbq]
          exact rfl
      · intro j hj
        rw [List.nil_append, Option.mem_def, hQ] at hj
        injection hj with hj
        subst hj
        rw [slotPrev_setPrev_same none hqUn]
      · intro j hj
        rw [List.nil_append] at hj
        rw [slotNext_setPrev]
        refine hOk.lastNext j ?_
        have hgl : (([] : List Nat) ++ A ++ Q).getLast? = Q.getLast? := by
          rw [List.nil_append]
          exact getLast?_append_of_ne_nil A hQnn
        rw [hgl]
        exact hj
      · exact LinksOnly.trans (linksOnly_setNextFree c (some q))
          (linksOnly_setPrev cnf q none)
      · intro j _ hjq
        have hjq' : j ≠ q := by
          intro hx; subst hx; exact hjq rfl
        exact setPrev_slots_other _ _ hjq'
  | some p =>
    have hpP : p ∈ P := List.mem_of_mem_getLast? hP
    have hPnn : P ≠ [] := by
      intro hx; rw [hx] at hpP; simp at hpP
    have hPAnn : P ++ A ≠ [] := by
      simp [hPnn]
    have hpU : isOcc c p = false := hUnoccP p hpP
    cases hQ : Q.head? with
    | none =>
      have hQnil : Q = [] := List.head?_eq_none_iff.1 hQ
      subst hQnil
      have hop : removeSkipblockFromSkiplist c s e = setNext c p none := by
        unfold removeSkipblockFromSkiplist
        rw [hPrevS, hNextE, hP, hQ]
      rw [hop]
      refine ⟨⟨?_, ?_, ?_, ?_⟩, linksOnly_setNext c p none, ?_⟩
      · rw [(setNext_fields c p none).2.2.2.2.1, hOk.root]
        simp only [List.append_nil]
        rw [head?_append_of_ne_nil A hPnn]
      · simp only [List.append_nil]
        refine chain'_linkRel_mono hndP hchP ?_ ?_
        · intro a ha hal
          have hap : a ≠ p := by
            intro hx; rw [hx, hP] at hal; exact hal rfl
          rw [slotNext_setNext_other _ hap]
        · intro b _ _
          rw [slotPrev_setNext]
      · intro j hj
        simp only [List.append_nil] at hj
        rw [slotPrev_setNext]
        refine hOk.headPrev j ?_
        simp only [List.append_nil]
        rw [head?_append_of_ne_nil A hPnn]
        exact hj
      · intro j hj
        simp only [List.append_nil] at hj
        rw [Option.mem_def, hP] at hj
        injection hj with hj
        subst hj
        rw [slotNext_setNext_same none hpU]
      · intro j hjp _
        have hjp' : j ≠ p := by
          intro hx; subst hx; exact hjp rfl
        exact setNext_slots_other _ _ hjp'
    | some q =>
      have hqQ : q ∈ Q := List.mem_of_mem_head? hQ
      have hQnn : Q ≠ [] := by
        intro hx; rw [hx] at hqQ; simp at hqQ
      have hqU : isOcc c q = false := hUnoccQ q hqQ
      have hpq : p ≠ q := by
        intro hx
        exact hdisPA_Q (by simp [hpP]) (hx ▸ hqQ)
      have hop : removeSkipblockFromSkiplist c s e =
          setPrev (setNext c p (some q)) q (some p) := by
        unfold removeSkipblockFromSkiplist
        rw [hPrevS, hNextE, hP, hQ]
      rw [hop]
      set c1 : Colony S T := setNext c p (some q) with hc1
      have hqU1 : isOcc c1 q = false := by
        rw [hc1, isOcc_setNext]; exact hqU
      have hpU1 : isOcc c1 p = false := by
        rw [hc1, isOcc_setNext]; exact hpU
      refine ⟨⟨?_, ?_, ?_, ?_⟩, ?_, ?_⟩
      · rw [(setPrev_fields c1 q (some p)).2.2.2.2.1, hc1,
          (setNext_fields c p (some q)).2.2.2.2.1, hOk.root]
        rw [head?_append_of_ne_nil Q hPAnn, head?_append_of_ne_nil A hPnn,
          head?_append_of_ne_nil Q hPnn]
      · rw [List.chain'_append]
        refine ⟨?_, ?_, ?_⟩
        · refine chain'_linkRel_mono hndP hchP ?_ ?_
          · intro a ha hal
            have hap : a ≠ p := by
              intro hx; rw [hx, hP] at hal; exact hal rfl
            rw [slotNext_setPrev, hc1, slotNext_setNext_other _ hap]
          · intro b hb _
            have hbq : b ≠ q := by
              intro hx
              exact hdisPA_Q (by simp [hb]) (hx ▸ hqQ)
            rw [slotPrev_setPrev_other _ hbq, hc1, slotPrev_setNext]
        · refine chain'_linkRel_mono hndQ hchQ ?_ ?_
          · intro a ha _
            have hap : a ≠ p := by
              intro hx
              exact hdisPA_Q (by simp [hpP]) (hx ▸ ha)
            rw [slotNext_setPrev, hc1, slotNext_setNext_other _ hap]
          · intro b hb hbh
            have hbq : b ≠ q := by
              intro hx; rw [hx, hQ] at hbh; exact hbh rfl
            rw [slotPrev_setPrev_other _ hbq, hc1, slotPrev_setNext]
        · intro x hx y hy
          rw [Option.mem_def, hP] at hx
          rw [Option.mem_def, hQ] at hy
          injection hx with hx
          injection hy with hy
          subst hx; subst hy
          constructor
          · rw [slotNext_setPrev, hc1, slotNext_setNext_same (some q) hpU]
          · rw [slotPrev_setPrev_same (some p) hqU1]
      · intro j hj
        rw [head?_append_of_ne_nil Q hPnn] at hj
        have hjP : j ∈ P := List.mem_of_mem_head? hj
        have hjq : j ≠ q := by
          intro hx
          exact hdisPA_Q (by simp [hjP]) (hx ▸ hqQ)
        rw [slotPrev_setPrev_other _ hjq, hc1, slotPrev_setNext]
        refine hOk.headPrev j ?_
        rw [head?_append_of_ne_nil Q hPAnn, head?_append_of_ne_nil A hPnn]
        exact hj
      · intro j hj
        rw [getLast?_append_of_ne_nil P hQnn] at hj
        have hjQ : j ∈ Q := List.mem_of_mem_getLast? hj
        have hjp : j ≠ p := by
          intro hx
          exact hdisPA_Q (by simp [hpP]) (hx ▸ hjQ)
        rw [slotNext_setPrev, hc1, slotNext_setNext_other _ hjp]
        refine hOk.lastNext j ?_
        rw [getLast?_append_of_ne_nil (P ++ A) hQnn]
        exact hj
      · exact LinksOnly.trans (linksOnly_setNext c p (some q))
          (linksOnly_setPrev c1 q (some p))
      · intro j hjp hjq
        have hjp' : j ≠ p := by
          intro hx; subst hx; exact hjp rfl
        have hjq' : j ≠ q := by
          intro hx; subst hx; exact hjq rfl
        rw [setPrev_slots_other _ _ hjq', hc1, setNext_slots_other _ _ hjp']

theorem setPayload_slots_other (c : Colony S T) {i j : Nat} (p : Payload T)
    (h : j ≠ i) : (setPayload c i p).slots j = c.slots j := by
  unfold setPayload
  exact setSlot_slots_other _ _ h

theorem setPayload_fields (c : Colony S T) (i : Nat) (p : Payload T) :
    (setPayload c i p).sf = c.sf ∧ (setPayload c i p).capacity = c.capacity ∧
    (setPayload c i p).touched = c.touched ∧ (setPayload c i p).len = c.len ∧
    (setPayload c i p).nextFree = c.nextFree ∧ (setPayload c i p).id = c.id := by
  unfold setPayload setSlot
  exact ⟨rfl, rfl, rfl, rfl, rfl, rfl⟩

theorem slotNext_setPayload_same (c : Colony S T) (i : Nat) (pp nn : Option Nat) :
    slotNext (setPayload c i (.unoccupied pp nn)) i = nn := by
  unfold slotNext setPayload
  rw [setSlot_slots_same]

theorem slotPrev_setPayload_same (c : Colony S T) (i : Nat) (pp nn : Option Nat) :
    slotPrev (setPayload c i (.unoccupied pp nn)) i = pp := by
  unfold slotPrev setPayload
  rw [setSlot_slots_same]

theorem slotNext_setPayload_other (c : Colony S T) {i j : Nat} (p : Payload T)
    (h : j ≠ i) : slotNext (setPayload c i p) j = slotNext c j := by
  unfold slotNext
  rw [setPayload_slots_other _ _ h]

theorem slotPrev_setPayload_other (c : Colony S T) {i j : Nat} (p : Payload T)
    (h : j ≠ i) : slotPrev (setPayload c i p) j = slotPrev c j := by
  unfold slotPrev
  rw [setPayload_slots_other _ _ h]

theorem isOcc_setPayload_unocc_same (c : Colony S T) (i : Nat) (pp nn : Option Nat) :
    isOcc (setPayload c i (.unoccupied pp nn)) i = false := by
  unfold isOcc setPayload
  rw [setSlot_slots_same]

theorem isOcc_setPayload_other (c : Colony S T) {i j : Nat} (p : Payload T)
    (h : j ≠ i) : isOcc (setPayload c i p) j = isOcc c j := by
  unfold isOcc
  rw [setPayload_slots_other _ _ h]

theorem g_setPayload (c : Colony S T) (i : Nat) (p : Payload T) (j : Nat) :
    ((setPayload c i p).slots j).g = (c.slots j).g := by
  by_cases h : j = i
  · subst h
    unfold setPayload
    rw [setSlot_slots_same]
  · rw [setPayload_slots_other _ _ h]

theorem linksOnly_setPayload_unocc (c : Colony S T) {i : Nat} (pp nn : Option Nat)
    (h : isOcc c i = false) :
    LinksOnly c (setPayload c i (.unoccupied pp nn)) := by
  refine ⟨fun j => ?_, g_setPayload c i _, fun j hj => ?_,
    (setPayload_fields c i _).1, (setPayload_fields c i _).2.2.1,
    (setPayload_fields c i _).2.2.2.1, (setPayload_fields c i _).2.1,
    (setPayload_fields c i _).2.2.2.2.2⟩
  · by_cases hji : j = i
    · subst hji
      rw [isOcc_setPayload_unocc_same, h]
    · exact isOcc_setPayload_other c _ hji
  · have hji : j ≠ i := by
      intro hx; subst hx; rw [hj] at h; exact Bool.noConfusion h
    exact setPayload_slots_other c _ hji

theorem head?_append_cons_congr (P : List Nat) (t : Nat) (X Y : List Nat) :
    (P ++ t :: X).head? = (P ++ t :: Y).head? := by
  cases P with
  | nil => rfl
  | cons a l => rfl

/-- stitch_only_left splices the vacated index right after its left
neighbour, extending that neighbour's segment of the free-list. -/
theorem stitchOnlyLeft_spec {c : Colony S T} {P Q : List Nat} {i : Nat}
    (hOk : FreeListOk c (P ++ (i - 1) :: Q))
    (hNodup : (P ++ (i - 1) :: Q).Nodup)
    (hUnocc : ∀ j ∈ P ++ (i - 1) :: Q, isOcc c j = false)
    (hiU : isOcc c i = false)
    (hiNew : i ∉ P ++ (i - 1) :: Q) :
    FreeListOk (stitchOnlyLeft c i) (P ++ (i - 1) :: i :: Q) ∧
    LinksOnly c (stitchOnlyLeft c i) := by
  have hshape : P ++ (i - 1) :: Q = (P ++ [i - 1]) ++ Q := List.append_cons P (i - 1) Q
  have htU : isOcc c (i - 1) = false := hUnocc (i - 1) (by simp)
  have hit : i ≠ i - 1 := by
    intro hx
    exact hiNew (hx ▸ (by simp : (i - 1) ∈ P ++ (i - 1) :: Q))
  have hiP : i ∉ P := fun hx => hiNew (by simp [hx])
  have hiQ : i ∉ Q := fun hx => hiNew (by simp [hx])
  have hndSplit := List.nodup_append.1 (hshape ▸ hNodup)
  have htQ : (i - 1) ∉ Q := fun hx => hndSplit.2.2 (by simp) hx
  have hndPt : (P ++ [i - 1]).Nodup := hndSplit.1
  have hndQ : Q.Nodup := hndSplit.2.1
  have hdisPQ : ∀ j ∈ P, j ∉ Q := by
    intro j hj hjq
    exact hndSplit.2.2 (by simp [hj]) hjq
  have hchain2 : List.Chain' (linkRel c) ((P ++ [i - 1]) ++ Q) := hshape ▸ hOk.chain
  obtain ⟨hchPt, hchQ, hbnd⟩ := List.chain'_append.1 hchain2
  have hNextT : slotNext c (i - 1) = Q.head? := by
    cases hQ : Q.head? with
    | none =>
        have hQnil : Q = [] := List.head?_eq_none_iff.1 hQ
        subst hQnil
        refine hOk.lastNext (i - 1) ?_
        rw [hshape]
        simp only [List.append_nil]
        rw [List.getLast?_concat]
        exact rfl
    | some q =>
        exact (hbnd (i - 1) (by rw [List.getLast?_concat]; exact rfl) q hQ).1
  have hheadEq : (P ++ (i - 1) :: i :: Q).head? = (P ++ (i - 1) :: Q).head? :=
    head?_append_cons_congr P (i - 1) (i :: Q) Q
  cases hQ : Q.head? with
  | none =>
    have hQnil : Q = [] := List.head?_eq_none_iff.1 hQ
    subst hQnil
    have hop : stitchOnlyLeft c i =
        setPayload (setNext c (i - 1) (some i)) i
          (.unoccupied (some (i - 1)) none) := by
      unfold stitchOnlyLeft
      rw [hNextT]
      rfl
    rw [hop]
    set c1 : Colony S T := setNext c (i - 1) (some i) with hc1
    have hiU1 : isOcc c1 i = false := by rw [hc1, isOcc_setNext]; exact hiU
    have hLinks : LinksOnly c (setPayload c1 i (.unoccupied (some (i - 1)) none)) :=
      LinksOnly.trans (linksOnly_setNext c (i - 1) (some i))
        (linksOnly_setPayload_unocc c1 (some (i - 1)) none hiU1)
    refine ⟨⟨?_, ?_, ?_, ?_⟩, hLinks⟩
    · rw [(setPayload_fields c1 i _).2.2.2.2.1, hc1,
        (setNext_fields c (i - 1) (some i)).2.2.2.2.1, hOk.root, ← hheadEq]
    · rw [List.append_cons P (i - 1) (i :: ([] : List Nat))]
      rw [List.chain'_append]
      refine ⟨?_, List.chain'_singleton i, ?_⟩
      · refine chain'_linkRel_mono hndPt hchPt ?_ ?_
        · intro a ha hal
          have hat : a ≠ i - 1 := by
            intro hx
            rw [List.getLast?_concat] at hal
            exact hal (by rw [hx])
          have hai : a ≠ i := by
            intro hx
            subst hx
            rcases List.mem_append.1 ha with h | h
            · exact hiP h
            · simp at h; exact hit h
          rw [slotNext_setPayload_other _ _ hai, hc1, slotNext_setNext_other _ hat]
        · intro b hb _
          have hbi : b ≠ i := by
            intro hx
            subst hx
            rcases List.mem_append.1 hb with h | h
            · exact hiP h
            · simp at h; exact hit h
          rw [slotPrev_setPayload_other _ _ hbi, hc1, slotPrev_setNext]
      · intro x hx y hy
        rw [List.getLast?_concat, Option.mem_def] at hx
        simp only [List.head?_cons, Option.mem_def] at hy
        injection hx with hx
        injection hy with hy
        subst hx; subst hy
        constructor
        · rw [slotNext_setPayload_other _ _ (Ne.symm hit), hc1,
            slotNext_setNext_same (some i) htU]
        · rw [slotPrev_setPayload_same]
    · intro j hj
      rw [hheadEq] at hj
      have hjmem : j ∈ P ++ (i - 1) :: ([] : List Nat) := List.mem_of_mem_head? hj
      have hji : j ≠ i := by
        intro hx
        subst hx
        exact hiNew hjmem
      rw [slotPrev_setPayload_other _ _ hji, hc1, slotPrev_setNext]
      exact hOk.headPrev j hj
    · intro j hj
      have hlast : (P ++ (i - 1) :: i :: ([] : List Nat)).getLast? = some i := by
        have h1 : (i - 1) :: i :: ([] : List Nat) ≠ [] := by simp
        rw [getLast?_append_of_ne_nil P h1]
        rfl
      rw [hlast, Option.mem_def] at hj
      injection hj with hj
      subst hj
      rw [slotNext_setPayload_same]
  | some q =>
    have hqQ : q ∈ Q := List.mem_of_mem_head? hQ
    have hQnn : Q ≠ [] := by
      intro hx; rw [hx] at hqQ; simp at hqQ
    have hqU : isOcc c q = false := hUnocc q (by simp [hqQ])
    have hqt : q ≠ i - 1 := fun hx => htQ (hx ▸ hqQ)
    have hqi : q ≠ i := fun hx => hiQ (hx ▸ hqQ)
    obtain ⟨Q1, hQ1⟩ : ∃ Q1, Q = q :: Q1 := by
      cases Q with
      | nil => exact absurd hQ (by simp)
      | cons a t =>
          simp only [List.head?_cons] at hQ
          injection hQ with hQ2
          exact ⟨t, by rw [hQ2]⟩
    subst hQ1
    have hop : stitchOnlyLeft c i =
        setPayload (setPrev (setNext c (i - 1) (some i)) q (some i)) i
          (.unoccupied (some (i - 1)) (some q)) := by
      unfold stitchOnlyLeft
      rw [hNextT, hQ]
    rw [hop]
    set c1 : Colony S T := setNext c (i - 1) (some i) with hc1
    have hqU1 : isOcc c1 q = false := by rw [hc1, isOcc_setNext]; exact hqU
    set c2 : Colony S T := setPrev c1 q (some i) with hc2
    have hiU2 : isOcc c2 i = false := by
      rw [hc2, isOcc_setPrev, hc1, isOcc_setNext]; exact hiU
    have hLinks : LinksOnly c (setPayload c2 i (.unoccupied (some (i - 1)) (some q))) :=
      LinksOnly.trans (linksOnly_setNext c (i - 1) (some i))
        (LinksOnly.trans (linksOnly_setPrev c1 q (some i))
          (linksOnly_setPayload_unocc c2 (some (i - 1)) (some q) hiU2))
    refine ⟨⟨?_, ?_, ?_, ?_⟩, hLinks⟩
    · rw [(setPayload_fields c2 i _).2.2.2.2.1, hc2,
        (setPrev_fields c1 q (some i)).2.2.2.2.1, hc1,
        (setNext_fields c (i - 1) (some i)).2.2.2.2.1, hOk.root, ← hheadEq]
    · rw [List.append_cons P (i - 1) (i :: q :: Q1)]
      rw [List.chain'_append]
      refine ⟨?_, ?_, ?_⟩
      · refine chain'_linkRel_mono hndPt hchPt ?_ ?_
        · intro a ha hal
          have hat : a ≠ i - 1 := by
            intro hx
            rw [List.getLast?_concat] at hal
            exact hal (by rw [hx])
          have hai : a ≠ i := by
            intro hx
            subst hx
            rcases List.mem_append.1 ha with h | h
            · exact hiP h
            · simp at h; exact hit h
          rw [slotNext_setPayload_other _ _ hai, hc2, slotNext_setPrev, hc1,
            slotNext_setNext_other _ hat]
        · intro b hb _
          have hbi : b ≠ i := by
            intro hx
            subst hx
            rcases List.mem_append.1 hb with h | h
            · exact hiP h
            · simp at h; exact hit h
          have hbq : b ≠ q := by
            intro hx
            subst hx
            rcases List.mem_append.1 hb with h | h
            · exact hdisPQ b h hqQ
            · simp at h; exact hqt h
          rw [slotPrev_setPayload_other _ _ hbi, hc2,
            slotPrev_setPrev_other _ hbq, hc1, slotPrev_setNext]
      · rw [List.chain'_cons]
        refine ⟨⟨?_, ?_⟩, ?_⟩
        · rw [slotNext_setPayload_same]
        · have hqi' : q ≠ i := hqi
          rw [slotPrev_setPayload_other _ _ hqi', hc2,
            slotPrev_setPrev_same (some i) hqU1]
        · refine chain'_linkRel_mono hndQ hchQ ?_ ?_
          · intro a ha _
            have hai : a ≠ i := fun hx => hiQ (hx ▸ ha)
            have hat : a ≠ i - 1 := fun hx => htQ (hx ▸ ha)
            rw [slotNext_setPayload_other _ _ hai, hc2, slotNext_setPrev, hc1,
              slotNext_setNext_other _ hat]
          · intro b hb hbh
            have hbi : b ≠ i := fun hx => hiQ (hx ▸ hb)
            have hbq : b ≠ q := by
              intro hx; rw [hx, hQ] at hbh; exact hbh rfl
            rw [slotPrev_setPayload_other _ _ hbi, hc2,
              slotPrev_setPrev_other _ hbq, hc1, slotPrev_setNext]
      · intro x hx y hy
        rw [List.getLast?_concat, Option.mem_def] at hx
        simp only [List.head?_cons, Option.mem_def] at hy
        injection hx with hx
        injection hy with hy
        subst hx; subst hy
        constructor
        · rw [slotNext_setPayload_other _ _ (Ne.symm hit), hc2, slotNext_setPrev, hc1,
            slotNext_setNext_same (some i) htU]
        · rw [slotPrev_setPayload_same]
    · intro j hj
      rw [hheadEq] at hj
      have hjmem : j ∈ P ++ (i - 1) :: q :: Q1 := List.mem_of_mem_head? hj
      have hji : j ≠ i := by
        intro hx
        subst hx
        exact hiNew hjmem
      have hjq : j ≠ q := by
        cases P with
        | nil =>
            simp only [List.nil_append, List.head?_cons, Option.mem_def] at hj
            injection hj with hj
            intro hx
            rw [← hj] at hx
            exact hqt hx.symm
        | cons a t =>
            simp only [List.cons_append, List.head?_cons, Option.mem_def] at hj
            injection hj with hj
            intro hx
            rw [← hj] at hx
            exact hdisPQ a (by simp) (hx ▸ hqQ)
      rw [slotPrev_setPayload_other _ _ hji, hc2,
        slotPrev_setPrev_other _ hjq, hc1, slotPrev_setNext]
      exact hOk.headPrev j hj
    · intro j hj
      have hlast : (P ++ (i - 1) :: i :: q :: Q1).getLast? = (q :: Q1).getLast? := by
        have h1 : (i - 1) :: i :: q :: Q1 ≠ [] := by simp
        rw [getLast?_append_of_ne_nil P h1, List.getLast?_cons_cons]
        rfl
      rw [hlast] at hj
      have hjQ : j ∈ q :: Q1 := List.mem_of_mem_getLast? hj
      have hji : j ≠ i := fun hx => hiQ (hx ▸ hjQ)
      have hjt : j ≠ i - 1 := fun hx => htQ (hx ▸ hjQ)
      rw [slotNext_setPayload_other _ _ hji, hc2, slotNext_setPrev, hc1,
        slotNext_setNext_other _ hjt]
      refine hOk.lastNext j ?_
      have hlast2 : (P ++ (i - 1) :: q :: Q1).getLast? = (q :: Q1).getLast? := by
        have h1 : (i - 1) :: q :: Q1 ≠ [] := by simp
        rw [getLast?_append_of_ne_nil P h1]
        rfl
      rw [hlast2]
      exact hj


/-- stitch_only_right splices the vacated index right before its right
neighbour, adjusting the free-list root when that neighbour was the
head. -/
theorem stitchOnlyRight_spec {c : Colony S T} {P Q : List Nat} {i : Nat}
    (hOk : FreeListOk c (P ++ (i + 1) :: Q))
    (hNodup : (P ++ (i + 1) :: Q).Nodup)
    (hUnocc : ∀ j ∈ P ++ (i + 1) :: Q, isOcc c j = false)
    (hiU : isOcc c i = false)
    (hiNew : i ∉ P ++ (i + 1) :: Q) :
    FreeListOk (stitchOnlyRight c i) (P ++ i :: (i + 1) :: Q) ∧
    LinksOnly c (stitchOnlyRight c i) := by
  have hshape : P ++ (i + 1) :: Q = (P ++ [i + 1]) ++ Q := List.append_cons P (i + 1) Q
  have hrU : isOcc c (i + 1) = false := hUnocc (i + 1) (by simp)
  have hir : i ≠ i + 1 := by omega
  have hiP : i ∉ P := fun hx => hiNew (by simp [hx])
  have hiQ : i ∉ Q := fun hx => hiNew (by simp [hx])
  have hndSplit := List.nodup_append.1 (hshape ▸ hNodup)
  have hrQ : (i + 1) ∉ Q := fun hx => hndSplit.2.2 (by simp) hx
  have hrP : (i + 1) ∉ P :=
    fun hx => (List.nodup_append.1 hndSplit.1).2.2 hx (by simp)
  have hndQ : Q.Nodup := hndSplit.2.1
  have hndP : P.Nodup := (List.nodup_append.1 hndSplit.1).1
  have hdisPQ : ∀ j ∈ P, j ∉ Q := by
    intro j hj hjq
    exact hndSplit.2.2 (by simp [hj]) hjq
  have hchain2 : List.Chain' (linkRel c) (P ++ ((i + 1) :: Q)) := hOk.chain
  obtain ⟨hchP, hchRQ, hbnd⟩ := List.chain'_append.1 hchain2
  have hPrevR : slotPrev c (i + 1) = P.getLast? := by
    cases hP : P.getLast? with
    | none =>
        have hPnil : P = [] := List.getLast?_eq_none_iff.1 hP
        subst hPnil
        exact hOk.headPrev (i + 1) rfl
    | some p =>
        exact (hbnd p hP (i + 1) rfl).2
  have hheadEq : ∀ X Y : List Nat, (P ++ (i + 1) :: X).head? = (P ++ (i + 1) :: Y).head? :=
    fun X Y => head?_append_cons_congr P (i + 1) X Y
  cases hP : P.getLast? with
  | none =>
    have hPnil : P = [] := List.getLast?_eq_none_iff.1 hP
    subst hPnil
    have hop : stitchOnlyRight c i =
        setPayload { setPrev c (i + 1) (some i) with nextFree := some i } i
          (.unoccupied none (some (i + 1))) := by
      unfold stitchOnlyRight
      rw [hPrevR]
      rfl
    rw [hop]
    set c1 : Colony S T := setPrev c (i + 1) (some i) with hc1
    set c2 : Colony S T := { c1 with nextFree := some i } with hc2
    have hiU2 : isOcc c2 i = false := by
      rw [hc2]
      show isOcc c1 i = false
      rw [hc1, isOcc_setPrev]
      exact hiU
    have hLinks : LinksOnly c (setPayload c2 i (.unoccupied none (some (i + 1)))) :=
      LinksOnly.trans (linksOnly_setPrev c (i + 1) (some i))
        (LinksOnly.trans (linksOnly_setNextFree c1 (some i))
          (linksOnly_setPayload_unocc c2 none (some (i + 1)) hiU2))
    refine ⟨⟨?_, ?_, ?_, ?_⟩, hLinks⟩
    · exact rfl
    · simp only [List.nil_append]
      rw [List.chain'_cons]
      refine ⟨⟨?_, ?_⟩, ?_⟩
      · rw [slotNext_setPayload_same]
      · rw [slotPrev_setPayload_other _ _ (Ne.symm hir)]
        show slotPrev c1 (i + 1) = some i
        rw [hc1, slotPrev_setPrev_same (some i) hrU]
      · refine chain'_linkRel_mono (by
            simpa using hNodup) (by simpa using hOk.chain) ?_ ?_
        · intro a ha _
          have hai : a ≠ i := by
            intro hx
            subst hx
            exact hiNew (by simpa using ha)
          rw [slotNext_setPayload_other _ _ hai]
          show slotNext c1 a = slotNext c a
          rw [hc1, slotNext_setPrev]
        · intro b hb hbh
          have hbi : b ≠ i := by
            intro hx
            subst hx
            exact hiNew (by simpa using hb)
          have hbr : b ≠ i + 1 := by
            intro hx
            rw [hx] at hbh
            simp at hbh
          rw [slotPrev_setPayload_other _ _ hbi]
          show slotPrev c1 b = slotPrev c b
          rw [hc1, slotPrev_setPrev_other _ hbr]
    · intro j hj
      simp only [List.nil_append, List.head?_cons, Option.mem_def] at hj
      injection hj with hj
      subst hj
      rw [slotPrev_setPayload_same]
    · intro j hj
      simp only [List.nil_append] at hj
      have hlast : ((i : Nat) :: (i + 1) :: Q).getLast? = ((i + 1) :: Q).getLast? := by
        rfl
      rw [hlast] at hj
      have hjmem : j ∈ (i + 1) :: Q := List.mem_of_mem_getLast? hj
      have hji : j ≠ i := by
        intro hx
        subst hx
        exact hiNew (by simpa using hjmem)
      rw [slotNext_setPayload_other _ _ hji]
      show slotNext c1 j = none
      rw [hc1, slotNext_setPrev]
      exact hOk.lastNext j hj
  | some p =>
    have hpP : p ∈ P := List.mem_of_mem_getLast? hP
    have hPnn : P ≠ [] := by
      intro hx; rw [hx] at hpP; simp at hpP
    have hpU : isOcc c p = false := hUnocc p (by simp [hpP])
    have hpi : p ≠ i := fun hx => hiP (hx ▸ hpP)
    have hpr : p ≠ i + 1 := fun hx => hrP (hx ▸ hpP)
    have hop : stitchOnlyRight c i =
        setPayload (setNext (setPrev c (i + 1) (some i)) p (some i)) i
          (.unoccupied (some p) (some (i + 1))) := by
      unfold stitchOnlyRight
      rw [hPrevR, hP]
    rw [hop]
    set c1 : Colony S T := setPrev c (i + 1) (some i) with hc1
    set c2 : Colony S T := setNext c1 p (some i) with hc2
    have hiU2 : isOcc c2 i = false := by
      rw [hc2, isOcc_setNext, hc1, isOcc_setPrev]; exact hiU
    have hpU1 : isOcc c1 p = false := by
      rw [hc1, isOcc_setPrev]; exact hpU
    have hLinks : LinksOnly c (setPayload c2 i (.unoccupied (some p) (some (i + 1)))) :=
      LinksOnly.trans (linksOnly_setPrev c (i + 1) (some i))
        (LinksOnly.trans (linksOnly_setNext c1 p (some i))
          (linksOnly_setPayload_unocc c2 (some p) (some (i + 1)) hiU2))
    refine ⟨⟨?_, ?_, ?_, ?_⟩, hLinks⟩
    · rw [(setPayload_fields c2 i _).2.2.2.2.1, hc2,
        (setNext_fields c1 p (some i)).2.2.2.2.1, hc1,
        (setPrev_fields c (i + 1) (some i)).2.2.2.2.1, hOk.root]
      rw [head?_append_of_ne_nil ((i + 1) :: Q) hPnn,
        head?_append_of_ne_nil (i :: (i + 1) :: Q) hPnn]
    · rw [List.append_cons P i ((i + 1) :: Q)]
      rw [List.chain'_append]
      refine ⟨?_, ?_, ?_⟩
      · rw [List.chain'_append]
        refine ⟨?_, List.chain'_singleton i, ?_⟩
        · refine chain'_linkRel_mono hndP hchP ?_ ?_
          · intro a ha hal
            have hap : a ≠ p := by
              intro hx; rw [hx, hP] at hal; exact hal rfl
            have hai : a ≠ i := fun hx => hiP (hx ▸ ha)
            rw [slotNext_setPayload_other _ _ hai, hc2,
              slotNext_setNext_other _ hap, hc1, slotNext_setPrev]
          · intro b hb _
            have hbi : b ≠ i := fun hx => hiP (hx ▸ hb)
            have hbr : b ≠ i + 1 := fun hx => hrP (hx ▸ hb)
            rw [slotPrev_setPayload_other _ _ hbi, hc2, slotPrev_setNext, hc1,
              slotPrev_setPrev_other _ hbr]
        · intro x hx y hy
          rw [Option.mem_def, hP] at hx
          simp only [List.head?_cons, Option.mem_def] at hy
          injection hx with hx
          injection hy with hy
          subst hx; subst hy
          constructor
          · rw [slotNext_setPayload_other _ _ hpi, hc2,
              slotNext_setNext_same (some i) hpU1]
          · rw [slotPrev_setPayload_same]
      · refine chain'_linkRel_mono (by
            have : ((i + 1) :: Q).Nodup := by
              rw [hshape] at hNodup
              have h2 := List.nodup_append.1 hNodup
              exact List.nodup_cons.2 ⟨hrQ, h2.2.1⟩
            exact this) hchRQ ?_ ?_
        · intro a ha _
          have hai : a ≠ i := by
            intro hx
            subst hx
            exact hiNew (by simp [ha])
          have hap : a ≠ p := by
            intro hx
            rw [hx] at ha
            simp only [List.mem_cons] at ha
            rcases ha with h | h
            · exact hpr h
            · exact hdisPQ p hpP h
          rw [slotNext_setPayload_other _ _ hai, hc2,
            slotNext_setNext_other _ hap, hc1, slotNext_setPrev]
        · intro b hb hbh
          have hbi : b ≠ i := by
            intro hx
            subst hx
            exact hiNew (by simp [hb])
          have hbr : b ≠ i + 1 := by
            intro hx
            rw [hx] at hbh
            simp at hbh
          rw [slotPrev_setPayload_other _ _ hbi, hc2, slotPrev_setNext, hc1,
            slotPrev_setPrev_other _ hbr]
      · intro x hx y hy
        rw [List.getLast?_concat, Option.mem_def] at hx
        simp only [List.head?_cons, Option.mem_def] at hy
        injection hx with hx
        injection hy with hy
        subst hx; subst hy
        constructor
        · rw [slotNext_setPayload_same]
        · rw [slotPrev_setPayload_other _ _ (Ne.symm hir), hc2, slotPrev_setNext,
            hc1, slotPrev_setPrev_same (some i) hrU]
    · intro j hj
      rw [head?_append_of_ne_nil (i :: (i + 1) :: Q) hPnn] at hj
      have hjP : j ∈ P := List.mem_of_mem_head? hj
      have hji : j ≠ i := fun hx => hiP (hx ▸ hjP)
      have hjr : j ≠ i + 1 := fun hx => hrP (hx ▸ hjP)
      rw [slotPrev_setPayload_other _ _ hji, hc2, slotPrev_setNext, hc1,
        slotPrev_setPrev_other _ hjr]
      refine hOk.headPrev j ?_
      rw [head?_append_of_ne_nil ((i + 1) :: Q) hPnn]
      exact hj
    · intro j hj
      have hlast : (P ++ i :: (i + 1) :: Q).getLast? = (P ++ (i + 1) :: Q).getLast? := by
        rw [getLast?_append_of_ne_nil P (by simp : i :: (i + 1) :: Q ≠ []),
          getLast?_append_of_ne_nil P (by simp : (i + 1) :: Q ≠ [])]
        rfl
      rw [hlast] at hj
      have hjmem : j ∈ P ++ (i + 1) :: Q := List.mem_of_mem_getLast? hj
      have hji : j ≠ i := fun hx => hiNew (hx ▸ hjmem)
      have hjp : j ≠ p := by
        intro hx
        subst hx
        cases hQe : Q.getLast? with
        | none =>
            have hQnil : Q = [] := List.getLast?_eq_none_iff.1 hQe
            subst hQnil
            rw [getLast?_append_of_ne_nil P (by simp : (i + 1) :: ([] : List Nat) ≠ [])] at hj
            simp only [Option.mem_def] at hj
            injection hj with hj
            exact hpr hj.symm
        | some z =>
            have hQnn : Q ≠ [] := by
              intro hx; rw [hx] at hQe; exact Option.noConfusion hQe
            rw [getLast?_append_of_ne_nil P (by simp : (i + 1) :: Q ≠ [])] at hj
            have : ((i + 1) :: Q).getLast? = Q.getLast? := by
              cases Q with
              | nil => exact absurd rfl hQnn
              | cons a t => rfl
            rw [this] at hj
            exact hdisPQ j hpP (List.mem_of_mem_getLast? hj)
      rw [slotNext_setPayload_other _ _ hji, hc2,
        slotNext_setNext_other _ hjp, hc1, slotNext_setPrev]
      exact hOk.lastNext j hj


/-- add_skipblock_to_skiplist with a singleton block pushes the vacated
index onto the front of the free-list. -/
theorem addSingleton_spec {c : Colony S T} {m : List Nat} {i : Nat}
    (hOk : FreeListOk c m) (hNodup : m.Nodup)
    (hUnocc : ∀ j ∈ m, isOcc c j = false)
    (hiU : isOcc c i = false) (hiNew : i ∉ m) :
    FreeListOk (addSkipblockToSkiplist c i i) (i :: m) ∧
    LinksOnly c (addSkipblockToSkiplist c i i) := by
  cases hM : m.head? with
  | none =>
    have hMnil : m = [] := List.head?_eq_none_iff.1 hM
    subst hMnil
    have hop : addSkipblockToSkiplist c i i =
        { setNext (setPrev c i none) i none with nextFree := some i } := by
      simp only [addSkipblockToSkiplist]
      rw [(setPrev_fields c i none).2.2.2.2.1, hOk.root,
        (setNext_fields (setPrev c i none) i _).2.2.2.2.1,
        (setPrev_fields c i none).2.2.2.2.1, hOk.root]
      rfl
    rw [hop]
    set c1 : Colony S T := setPrev c i none with hc1
    set c2 : Colony S T := setNext c1 i none with hc2
    have hiU1 : isOcc c1 i = false := by rw [hc1, isOcc_setPrev]; exact hiU
    refine ⟨⟨rfl, List.chain'_singleton i, ?_, ?_⟩, ?_⟩
    · intro j hj
      simp only [List.head?_cons, Option.mem_def] at hj
      injection hj with hj
      subst hj
      show slotPrev c2 i = none
      rw [hc2, slotPrev_setNext, hc1, slotPrev_setPrev_same none hiU]
    · intro j hj
      simp only [Option.mem_def] at hj
      injection hj with hj
      subst hj
      show slotNext c2 i = none
      rw [hc2, slotNext_setNext_same none hiU1]
    · exact LinksOnly.trans (linksOnly_setPrev c i none)
        (LinksOnly.trans (linksOnly_setNext c1 i none)
          (linksOnly_setNextFree c2 (some i)))
  | some oldHead =>
    have hoM : oldHead ∈ m := List.mem_of_mem_head? hM
    have hoU : isOcc c oldHead = false := hUnocc oldHead hoM
    have hio : i ≠ oldHead := fun hx => hiNew (hx ▸ hoM)
    obtain ⟨m1, hm1⟩ : ∃ m1, m = oldHead :: m1 := by
      cases m with
      | nil => exact absurd hM (by simp)
      | cons a t =>
          simp only [List.head?_cons] at hM
          injection hM with hM2
          exact ⟨t, by rw [hM2]⟩
    subst hm1
    have hop : addSkipblockToSkiplist c i i =
        { setPrev (setNext (setPrev c i none) i (some oldHead)) oldHead (some i)
            with nextFree := some i } := by
      simp only [addSkipblockToSkiplist]
      rw [(setPrev_fields c i none).2.2.2.2.1, hOk.root,
        (setNext_fields (setPrev c i none) i _).2.2.2.2.1,
        (setPrev_fields c i none).2.2.2.2.1, hOk.root]
      rfl
    rw [hop]
    set c1 : Colony S T := setPrev c i none with hc1
    set c2 : Colony S T := setNext c1 i (some oldHead) with hc2
    set c3 : Colony S T := setPrev c2 oldHead (some i) with hc3
    have hiU1 : isOcc c1 i = false := by rw [hc1, isOcc_setPrev]; exact hiU
    have hoU2 : isOcc c2 oldHead = false := by
      rw [hc2, isOcc_setNext, hc1, isOcc_setPrev]; exact hoU
    have hLinks : LinksOnly c c3 :=
      LinksOnly.trans (linksOnly_setPrev c i none)
        (LinksOnly.trans (linksOnly_setNext c1 i (some oldHead))
          (linksOnly_setPrev c2 oldHead (some i)))
    refine ⟨⟨rfl, ?_, ?_, ?_⟩, ?_⟩
    · show List.Chain' (linkRel c3) (i :: oldHead :: m1)
      rw [List.chain'_cons]
      refine ⟨⟨?_, ?_⟩, ?_⟩
      · rw [hc3, slotNext_setPrev, hc2, slotNext_setNext_same (some oldHead) hiU1]
      · rw [hc3, slotPrev_setPrev_same (some i) hoU2]
      · refine chain'_linkRel_mono hNodup hOk.chain ?_ ?_
        · intro a ha _
          have hai : a ≠ i := fun hx => hiNew (hx ▸ ha)
          rw [hc3, slotNext_setPrev, hc2, slotNext_setNext_other _ hai, hc1,
            slotNext_setPrev]
        · intro b hb hbh
          have hbi : b ≠ i := fun hx => hiNew (hx ▸ hb)
          have hbo : b ≠ oldHead := by
            intro hx
            rw [hx] at hbh
            simp at hbh
          rw [hc3, slotPrev_setPrev_other _ hbo, hc2, slotPrev_setNext, hc1,
            slotPrev_setPrev_other _ hbi]
    · intro j hj
      simp only [List.head?_cons, Option.mem_def] at hj
      injection hj with hj
      subst hj
      show slotPrev c3 i = none
      rw [hc3, slotPrev_setPrev_other _ hio, hc2, slotPrev_setNext, hc1,
        slotPrev_setPrev_same none hiU]
    · intro j hj
      have hj2 : j ∈ (oldHead :: m1).getLast? := hj
      have hjm : j ∈ oldHead :: m1 := List.mem_of_mem_getLast? hj2
      have hji : j ≠ i := fun hx => hiNew (hx ▸ hjm)
      show slotNext c3 j = none
      rw [hc3, slotNext_setPrev, hc2, slotNext_setNext_other _ hji, hc1,
        slotNext_setPrev]
      exact hOk.lastNext j hj2
    · exact LinksOnly.trans hLinks (linksOnly_setNextFree c3 (some i))

/-- The tail of stitch_left_and_right: pushing the merged segment onto
the free-list front and threading the vacated index between its
neighbours yields the merged chain in front of the remaining list. -/
theorem mergeFront_spec {c2 : Colony S T} {A B m : List Nat} {i s e : Nat}
    (hOk : FreeListOk c2 m)
    (hchA : List.Chain' (linkRel c2) A)
    (hchB : List.Chain' (linkRel c2) B)
    (hAh : A.head? = some s) (hAl : A.getLast? = some (i - 1))
    (hBh : B.head? = some (i + 1)) (hBl : B.getLast? = some e)
    (hNodup : ((A ++ i :: B) ++ m).Nodup)
    (hUnocc : ∀ j ∈ (A ++ i :: B) ++ m, isOcc c2 j = false) :
    FreeListOk (setPayload (setPrev (setNext (addSkipblockToSkiplist c2 s e)
        (i - 1) (some i)) (i + 1) (some i)) i
        (.unoccupied (some (i - 1)) (some (i + 1)))) ((A ++ i :: B) ++ m) ∧
    LinksOnly c2 (setPayload (setPrev (setNext (addSkipblockToSkiplist c2 s e)
        (i - 1) (some i)) (i + 1) (some i)) i
        (.unoccupied (some (i - 1)) (some (i + 1)))) := by
  obtain ⟨B1, hB1⟩ : ∃ B1, B = (i + 1) :: B1 := by
    cases B with
    | nil => exact absurd hBh (by simp)
    | cons a t =>
        simp only [List.head?_cons] at hBh
        injection hBh with hBh2
        exact ⟨t, by rw [hBh2]⟩
  subst hB1
  have hAnn : A ≠ [] := by
    intro hx; rw [hx] at hAh; exact Option.noConfusion hAh
  have hsA : s ∈ A := List.mem_of_mem_head? hAh
  have htA : i - 1 ∈ A := List.mem_of_mem_getLast? hAl
  have heB : e ∈ (i + 1) :: B1 := List.mem_of_mem_getLast? hBl
  have hndSplit := List.nodup_append.1 hNodup
  have hndL := hndSplit.1
  have hndm := hndSplit.2.1
  have hdisLm : ∀ j ∈ A ++ i :: (i + 1) :: B1, j ∉ m := fun j hj => hndSplit.2.2 hj
  have hndL2 := List.nodup_append.1 hndL
  have hndA := hndL2.1
  have hndIB := hndL2.2.1
  have hdisA : ∀ j ∈ A, j ∉ i :: (i + 1) :: B1 := fun j hj => hndL2.2.2 hj
  have hndB : ((i + 1) :: B1).Nodup := (List.nodup_cons.1 hndIB).2
  have hiB : i ∉ (i + 1) :: B1 := (List.nodup_cons.1 hndIB).1
  have hiA : i ∉ A := fun hx => hdisA i hx (by simp)
  have htL : i - 1 ∈ A ++ i :: (i + 1) :: B1 := List.mem_append.2 (Or.inl htA)
  have heL : e ∈ A ++ i :: (i + 1) :: B1 :=
    List.mem_append.2 (Or.inr (List.mem_cons_of_mem i heB))
  have hiL : (i : Nat) ∈ A ++ i :: (i + 1) :: B1 := List.mem_append.2 (Or.inr (by simp))
  have hsL : s ∈ A ++ i :: (i + 1) :: B1 := List.mem_append.2 (Or.inl hsA)
  have hrL : i + 1 ∈ A ++ i :: (i + 1) :: B1 := List.mem_append.2 (Or.inr (by simp))
  have hU : ∀ j ∈ A ++ i :: (i + 1) :: B1, isOcc c2 j = false := fun j hj =>
    hUnocc j (List.mem_append.2 (Or.inl hj))
  have hUm : ∀ j ∈ m, isOcc c2 j = false := fun j hj =>
    hUnocc j (List.mem_append.2 (Or.inr hj))
  have hUs : isOcc c2 s = false := hU s hsL
  have hUt : isOcc c2 (i - 1) = false := hU _ htL
  have hUr : isOcc c2 (i + 1) = false := hU _ hrL
  have hUe : isOcc c2 e = false := hU e heL
  have hUi : isOcc c2 i = false := hU i hiL
  have hti : i - 1 ≠ i := fun hx => hiA (hx ▸ htA)
  have hri : i + 1 ≠ i := by omega
  have hsi : s ≠ i := fun hx => hiA (hx ▸ hsA)
  have hsr : s ≠ i + 1 := fun hx => hdisA s hsA (by simp [hx])
  have hei : e ≠ i := fun hx => hiB (hx ▸ heB)
  have het : e ≠ i - 1 := fun hx => hdisA (i - 1) htA (List.mem_cons_of_mem i (hx ▸ heB))
  set X : Colony S T := addSkipblockToSkiplist c2 s e with hX
  set F : Colony S T := setPayload (setPrev (setNext X (i - 1) (some i))
      (i + 1) (some i)) i
      (Payload.unoccupied (some (i - 1)) (some (i + 1))) with hF
  have hFnextI : slotNext F i = some (i + 1) := by
    rw [hF, slotNext_setPayload_same]
  have hFprevI : slotPrev F i = some (i - 1) := by
    rw [hF, slotPrev_setPayload_same]
  cases hM : m.head? with
  | none =>
    have hMnil : m = [] := List.head?_eq_none_iff.1 hM
    subst hMnil
    have hop : X = { setNext (setPrev c2 s none) e none with nextFree := some s } := by
      rw [hX]
      simp only [addSkipblockToSkiplist]
      rw [(setPrev_fields c2 s none).2.2.2.2.1, hOk.root,
        (setNext_fields (setPrev c2 s none) e _).2.2.2.2.1,
        (setPrev_fields c2 s none).2.2.2.2.1, hOk.root]
      rfl
    have hLiX : LinksOnly c2 X := by
      rw [hop]
      exact LinksOnly.trans (linksOnly_setPrev c2 s none)
        (LinksOnly.trans (linksOnly_setNext (setPrev c2 s none) e none)
          (linksOnly_setNextFree (setNext (setPrev c2 s none) e none) (some s)))
    have hOccX : ∀ j, isOcc X j = isOcc c2 j := hLiX.occ
    have hXnext : ∀ x, x ≠ e → slotNext X x = slotNext c2 x := by
      intro x hxe
      rw [hop]
      show slotNext (setNext (setPrev c2 s none) e none) x = slotNext c2 x
      rw [slotNext_setNext_other _ hxe, slotNext_setPrev]
    have hXnextE : slotNext X e = none := by
      rw [hop]
      show slotNext (setNext (setPrev c2 s none) e none) e = none
      rw [slotNext_setNext_same none (by rw [isOcc_setPrev]; exact hUe)]
    have hXprev : ∀ y, y ≠ s → slotPrev X y = slotPrev c2 y := by
      intro y hys
      rw [hop]
      show slotPrev (setNext (setPrev c2 s none) e none) y = slotPrev c2 y
      rw [slotPrev_setNext, slotPrev_setPrev_other _ hys]
    have hXprevS : slotPrev X s = none := by
      rw [hop]
      show slotPrev (setNext (setPrev c2 s none) e none) s = none
      rw [slotPrev_setNext, slotPrev_setPrev_same none hUs]
    have hXroot : X.nextFree = some s := by rw [hop]
    have hFnext : ∀ x, x ≠ i → x ≠ i - 1 → x ≠ e → slotNext F x = slotNext c2 x := by
      intro x h1 h2 h3
      rw [hF, slotNext_setPayload_other _ _ h1, slotNext_setPrev,
        slotNext_setNext_other _ h2, hXnext x h3]
    have hFprev : ∀ y, y ≠ i → y ≠ i + 1 → y ≠ s → slotPrev F y = slotPrev c2 y := by
      intro y h1 h2 h3
      rw [hF, slotPrev_setPayload_other _ _ h1, slotPrev_setPrev_other _ h2,
        slotPrev_setNext, hXprev y h3]
    have hFnextT : slotNext F (i - 1) = some i := by
      rw [hF, slotNext_setPayload_other _ _ hti, slotNext_setPrev,
        slotNext_setNext_same (some i) (by rw [hOccX]; exact hUt)]
    have hFprevR : slotPrev F (i + 1) = some i := by
      rw [hF, slotPrev_setPayload_other _ _ hri,
        slotPrev_setPrev_same (some i) (by rw [isOcc_setNext, hOccX]; exact hUr)]
    have hFnextE : slotNext F e = none := by
      rw [hF, slotNext_setPayload_other _ _ hei, slotNext_setPrev,
        slotNext_setNext_other _ het, hXnextE]
    have hFprevS : slotPrev F s = none := by
      rw [hF, slotPrev_setPayload_other _ _ hsi, slotPrev_setPrev_other _ hsr,
        slotPrev_setNext, hXprevS]
    have hFroot : F.nextFree = some s := by
      rw [hF, (setPayload_fields _ i _).2.2.2.2.1,
        (setPrev_fields _ (i + 1) (some i)).2.2.2.2.1,
        (setNext_fields X (i - 1) (some i)).2.2.2.2.1, hXroot]
    have hLiF : LinksOnly c2 F := by
      rw [hF]
      exact LinksOnly.trans hLiX
        (LinksOnly.trans (linksOnly_setNext X (i - 1) (some i))
          (LinksOnly.trans
            (linksOnly_setPrev (setNext X (i - 1) (some i)) (i + 1) (some i))
            (linksOnly_setPayload_unocc _ (some (i - 1)) (some (i + 1))
              (by rw [isOcc_setPrev, isOcc_setNext, hOccX]; exact hUi))))
    refine ⟨⟨?_, ?_, ?_, ?_⟩, hLiF⟩
    · rw [hFroot, List.append_nil, head?_append_of_ne_nil _ hAnn, hAh]
    · rw [List.append_nil, List.chain'_append]
      refine ⟨?_, ?_, ?_⟩
      · refine chain'_linkRel_mono hndA hchA ?_ ?_
        · intro a ha hal
          have h2 : a ≠ i - 1 := by
            intro hx; rw [hx, hAl] at hal; exact hal rfl
          have h1 : a ≠ i := fun hx => hiA (hx ▸ ha)
          have h3 : a ≠ e := fun hx =>
            hdisA a ha (by rw [hx]; exact List.mem_cons_of_mem i heB)
          exact hFnext a h1 h2 h3
        · intro b hb hbh
          have h3 : b ≠ s := by
            intro hx; rw [hx, hAh] at hbh; exact hbh rfl
          have h1 : b ≠ i := fun hx => hiA (hx ▸ hb)
          have h2 : b ≠ i + 1 := fun hx => hdisA b hb (by simp [hx])
          exact hFprev b h1 h2 h3
      · rw [List.chain'_cons]
        refine ⟨⟨hFnextI, hFprevR⟩, ?_⟩
        refine chain'_linkRel_mono hndB hchB ?_ ?_
        · intro a ha hal
          have h3 : a ≠ e := by
            intro hx; rw [hx, hBl] at hal; exact hal rfl
          have h1 : a ≠ i := fun hx => hiB (hx ▸ ha)
          have h2 : a ≠ i - 1 := fun hx => hdisA (i - 1) htA (List.mem_cons_of_mem i (hx ▸ ha))
          exact hFnext a h1 h2 h3
        · intro b hb hbh
          have h2 : b ≠ i + 1 := by
            intro hx; rw [hx] at hbh; simp at hbh
          have h1 : b ≠ i := fun hx => hiB (hx ▸ hb)
          have h3 : b ≠ s := fun hx => hdisA s hsA (List.mem_cons_of_mem i (hx ▸ hb))
          exact hFprev b h1 h2 h3
      · intro x hx y hy
        rw [Option.mem_def, hAl] at hx
        simp only [List.head?_cons, Option.mem_def] at hy
        injection hx with hx
        injection hy with hy
        subst hx; subst hy
        exact ⟨hFnextT, hFprevI⟩
    · intro j hj
      rw [List.append_nil, head?_append_of_ne_nil _ hAnn, hAh, Option.mem_def] at hj
      injection hj with hj
      subst hj
      exact hFprevS
    · intro j hj
      rw [List.append_nil] at hj
      have hgl : (A ++ i :: (i + 1) :: B1).getLast? = some e := by
        have h1 : i :: (i + 1) :: B1 ≠ [] := by simp
        rw [getLast?_append_of_ne_nil A h1, List.getLast?_cons_cons]
        exact hBl
      rw [hgl, Option.mem_def] at hj
      injection hj with hj
      subst hj
      exact hFnextE
  | some o =>
    obtain ⟨m1, hm1⟩ : ∃ m1, m = o :: m1 := by
      cases m with
      | nil => exact absurd hM (by simp)
      | cons a t =>
          simp only [List.head?_cons] at hM
          injection hM with hM2
          exact ⟨t, by rw [hM2]⟩
    subst hm1
    have hom : o ∈ o :: m1 := by simp
    have hUo : isOcc c2 o = false := hUm o hom
    have hoL : o ∉ A ++ i :: (i + 1) :: B1 := fun hx => hdisLm o hx hom
    have hop : X = { setPrev (setNext (setPrev c2 s none) e (some o)) o (some e)
        with nextFree := some s } := by
      rw [hX]
      simp only [addSkipblockToSkiplist]
      rw [(setPrev_fields c2 s none).2.2.2.2.1, hOk.root,
        (setNext_fields (setPrev c2 s none) e _).2.2.2.2.1,
        (setPrev_fields c2 s none).2.2.2.2.1, hOk.root]
      rfl
    have hLiX : LinksOnly c2 X := by
      rw [hop]
      exact LinksOnly.trans (linksOnly_setPrev c2 s none)
        (LinksOnly.trans (linksOnly_setNext (setPrev c2 s none) e (some o))
          (LinksOnly.trans
            (linksOnly_setPrev (setNext (setPrev c2 s none) e (some o)) o (some e))
            (linksOnly_setNextFree
              (setPrev (setNext (setPrev c2 s none) e (some o)) o (some e))
              (some s))))
    have hOccX : ∀ j, isOcc X j = isOcc c2 j := hLiX.occ
    have hXnext : ∀ x, x ≠ e → slotNext X x = slotNext c2 x := by
      intro x hxe
      rw [hop]
      show slotNext (setPrev (setNext (setPrev c2 s none) e (some o)) o (some e)) x =
        slotNext c2 x
      rw [slotNext_setPrev, slotNext_setNext_other _ hxe, slotNext_setPrev]
    have hXnextE : slotNext X e = some o := by
      rw [hop]
      show slotNext (setPrev (setNext (setPrev c2 s none) e (some o)) o (some e)) e =
        some o
      rw [slotNext_setPrev, slotNext_setNext_same (some o)
        (by rw [isOcc_setPrev]; exact hUe)]
    have hXprev : ∀ y, y ≠ s → y ≠ o → slotPrev X y = slotPrev c2 y := by
      intro y hys hyo
      rw [hop]
      show slotPrev (setPrev (setNext (setPrev c2 s none) e (some o)) o (some e)) y =
        slotPrev c2 y
      rw [slotPrev_setPrev_other _ hyo, slotPrev_setNext, slotPrev_setPrev_other _ hys]
    have hXprevS : slotPrev X s = none := by
      have hso : s ≠ o := fun hx => hoL (hx ▸ hsL)
      rw [hop]
      show slotPrev (setPrev (setNext (setPrev c2 s none) e (some o)) o (some e)) s =
        none
      rw [slotPrev_setPrev_other _ hso, slotPrev_setNext,
        slotPrev_setPrev_same none hUs]
    have hXprevO : slotPrev X o = some e := by
      rw [hop]
      show slotPrev (setPrev (setNext (setPrev c2 s none) e (some o)) o (some e)) o =
        some e
      rw [slotPrev_setPrev_same (some e)
        (by rw [isOcc_setNext, isOcc_setPrev]; exact hUo)]
    have hXroot : X.nextFree = some s := by rw [hop]
    have hFnext : ∀ x, x ≠ i → x ≠ i - 1 → x ≠ e → slotNext F x = slotNext c2 x := by
      intro x h1 h2 h3
      rw [hF, slotNext_setPayload_other _ _ h1, slotNext_setPrev,
        slotNext_setNext_other _ h2, hXnext x h3]
    have hFprev : ∀ y, y ≠ i → y ≠ i + 1 → y ≠ s → y ≠ o →
        slotPrev F y = slotPrev c2 y := by
      intro y h1 h2 h3 h4
      rw [hF, slotPrev_setPayload_other _ _ h1, slotPrev_setPrev_other _ h2,
        slotPrev_setNext, hXprev y h3 h4]
    have hFnextT : slotNext F (i - 1) = some i := by
      rw [hF, slotNext_setPayload_other _ _ hti, slotNext_setPrev,
        slotNext_setNext_same (some i) (by rw [hOccX]; exact hUt)]
    have hFprevR : slotPrev F (i + 1) = some i := by
      rw [hF, slotPrev_setPayload_other _ _ hri,
        slotPrev_setPrev_same (some i) (by rw [isOcc_setNext, hOccX]; exact hUr)]
    have hFnextE : slotNext F e = some o := by
      rw [hF, slotNext_setPayload_other _ _ hei, slotNext_setPrev,
        slotNext_setNext_other _ het, hXnextE]
    have hFprevS : slotPrev F s = none := by
      rw [hF, slotPrev_setPayload_other _ _ hsi, slotPrev_setPrev_other _ hsr,
        slotPrev_setNext, hXprevS]
    have hFprevO : slotPrev F o = some e := by
      have ho1 : o ≠ i := fun hx => hoL (hx ▸ hiL)
      have ho2 : o ≠ i + 1 := fun hx => hoL (hx ▸ hrL)
      rw [hF, slotPrev_setPayload_other _ _ ho1, slotPrev_setPrev_other _ ho2,
        slotPrev_setNext, hXprevO]
    have hFroot : F.nextFree = some s := by
      rw [hF, (setPayload_fields _ i _).2.2.2.2.1,
        (setPrev_fields _ (i + 1) (some i)).2.2.2.2.1,
        (setNext_fields X (i - 1) (some i)).2.2.2.2.1, hXroot]
    have hLiF : LinksOnly c2 F := by
      rw [hF]
      exact LinksOnly.trans hLiX
        (LinksOnly.trans (linksOnly_setNext X (i - 1) (some i))
          (LinksOnly.trans
            (linksOnly_setPrev (setNext X (i - 1) (some i)) (i + 1) (some i))
            (linksOnly_setPayload_unocc _ (some (i - 1)) (some (i + 1))
              (by rw [isOcc_setPrev, isOcc_setNext, hOccX]; exact hUi))))
    refine ⟨⟨?_, ?_, ?_, ?_⟩, hLiF⟩
    · rw [hFroot, head?_append_of_ne_nil _ (by simp [hAnn] : A ++ i :: (i + 1) :: B1 ≠ []),
        head?_append_of_ne_nil _ hAnn, hAh]
    · rw [List.chain'_append]
      refine ⟨?_, ?_, ?_⟩
      · rw [List.chain'_append]
        refine ⟨?_, ?_, ?_⟩
        · refine chain'_linkRel_mono hndA hchA ?_ ?_
          · intro a ha hal
            have h2 : a ≠ i - 1 := by
              intro hx; rw [hx, hAl] at hal; exact hal rfl
            have h1 : a ≠ i := fun hx => hiA (hx ▸ ha)
            have h3 : a ≠ e := fun hx =>
              hdisA a ha (by rw [hx]; exact List.mem_cons_of_mem i heB)
            exact hFnext a h1 h2 h3
          · intro b hb hbh
            have h3 : b ≠ s := by
              intro hx; rw [hx, hAh] at hbh; exact hbh rfl
            have h1 : b ≠ i := fun hx => hiA (hx ▸ hb)
            have h2 : b ≠ i + 1 := fun hx => hdisA b hb (by simp [hx])
            have h4 : b ≠ o := fun hx => hoL (hx ▸ List.mem_append.2 (Or.inl hb))
            exact hFprev b h1 h2 h3 h4
        · rw [List.chain'_cons]
          refine ⟨⟨hFnextI, hFprevR⟩, ?_⟩
          refine chain'_linkRel_mono hndB hchB ?_ ?_
          · intro a ha hal
            have h3 : a ≠ e := by
              intro hx; rw [hx, hBl] at hal; exact hal rfl
            have h1 : a ≠ i := fun hx => hiB (hx ▸ ha)
            have h2 : a ≠ i - 1 := fun hx => hdisA (i - 1) htA (List.mem_cons_of_mem i (hx ▸ ha))
            exact hFnext a h1 h2 h3
          · intro b hb hbh
            have h2 : b ≠ i + 1 := by
              intro hx; rw [hx] at hbh; simp at hbh
            have h1 : b ≠ i := fun hx => hiB (hx ▸ hb)
            have h3 : b ≠ s := fun hx => hdisA s hsA (List.mem_cons_of_mem i (hx ▸ hb))
            have h4 : b ≠ o := fun hx =>
              hoL (hx ▸ List.mem_append.2 (Or.inr (List.mem_cons_of_mem i hb)))
            exact hFprev b h1 h2 h3 h4
        · intro x hx y hy
          rw [Option.mem_def, hAl] at hx
          simp only [List.head?_cons, Option.mem_def] at hy
          injection hx with hx
          injection hy with hy
          subst hx; subst hy
          exact ⟨hFnextT, hFprevI⟩
      · refine chain'_linkRel_mono hndm hOk.chain ?_ ?_
        · intro a ha _
          have h1 : a ≠ i := fun hx => hdisLm i hiL (hx ▸ ha)
          have h2 : a ≠ i - 1 := fun hx => hdisLm (i - 1) htL (hx ▸ ha)
          have h3 : a ≠ e := fun hx => hdisLm e heL (hx ▸ ha)
          exact hFnext a h1 h2 h3
        · intro b hb hbh
          have h4 : b ≠ o := by
            intro hx; rw [hx] at hbh; simp at hbh
          have h1 : b ≠ i := fun hx => hdisLm i hiL (hx ▸ hb)
          have h2 : b ≠ i + 1 := fun hx => hdisLm (i + 1) hrL (hx ▸ hb)
          have h3 : b ≠ s := fun hx => hdisLm s hsL (hx ▸ hb)
          exact hFprev b h1 h2 h3 h4
      · intro x hx y hy
        have hgl : (A ++ i :: (i + 1) :: B1).getLast? = some e := by
          have h1 : i :: (i + 1) :: B1 ≠ [] := by simp
          rw [getLast?_append_of_ne_nil A h1, List.getLast?_cons_cons]
          exact hBl
        rw [Option.mem_def, hgl] at hx
        simp only [List.head?_cons, Option.mem_def] at hy
        injection hx with hx
        injection hy with hy
        subst hx; subst hy
        exact ⟨hFnextE, hFprevO⟩
    · intro j hj
      rw [head?_append_of_ne_nil _ (by simp [hAnn] : A ++ i :: (i + 1) :: B1 ≠ []),
        head?_append_of_ne_nil _ hAnn, hAh, Option.mem_def] at hj
      injection hj with hj
      subst hj
      exact hFprevS
    · intro j hj
      rw [getLast?_append_of_ne_nil (A ++ i :: (i + 1) :: B1)
        (by simp : o :: m1 ≠ [])] at hj
      have hjm : j ∈ o :: m1 := List.mem_of_mem_getLast? hj
      have h1 : j ≠ i := fun hx => hdisLm i hiL (hx ▸ hjm)
      have h2 : j ≠ i - 1 := fun hx => hdisLm (i - 1) htL (hx ▸ hjm)
      have h3 : j ≠ e := fun hx => hdisLm e heL (hx ▸ hjm)
      rw [hFnext j h1 h2 h3]
      exact hOk.lastNext j hj

theorem slotNext_congr {c c' : Colony S T} {j : Nat}
    (h : c'.slots j = c.slots j) : slotNext c' j = slotNext c j := by
  unfold slotNext
  rw [h]

theorem slotPrev_congr {c c' : Colony S T} {j : Nat}
    (h : c'.slots j = c.slots j) : slotPrev c' j = slotPrev c j := by
  unfold slotPrev
  rw [h]

theorem isOcc_congr {c c' : Colony S T} {j : Nat}
    (h : c'.slots j = c.slots j) : isOcc c' j = isOcc c j := by
  unfold isOcc
  rw [h]

/-- FreeListOk only looks at the root and the slots of the members. -/
theorem freeListOk_congr {c c' : Colony S T} {l : List Nat}
    (hOk : FreeListOk c l) (hnd : l.Nodup)
    (hroot : c'.nextFree = c.nextFree)
    (hslots : ∀ j ∈ l, c'.slots j = c.slots j) : FreeListOk c' l := by
  refine ⟨?_, ?_, ?_, ?_⟩
  · rw [hroot, hOk.root]
  · refine chain'_linkRel_mono hnd hOk.chain ?_ ?_
    · intro a ha _
      exact slotNext_congr (hslots a ha)
    · intro b hb _
      exact slotPrev_congr (hslots b hb)
  · intro j hj
    rw [slotPrev_congr (hslots j (List.mem_of_mem_head? hj))]
    exact hOk.headPrev j hj
  · intro j hj
    rw [slotNext_congr (hslots j (List.mem_of_mem_getLast? hj))]
    exact hOk.lastNext j hj

theorem blockIndices_eq_concat {s e : Nat} (h : s ≤ e) :
    blockIndices (s, e) = List.range' s (e - s) ++ [e] := by
  unfold blockIndices
  simp only
  have h1 : e + 1 - s = (e - s) + 1 := by omega
  rw [h1, List.range'_1_concat]
  have h3 : s + (e - s) = e := by omega
  rw [h3]

theorem blockIndices_split_head {s e : Nat} (h : s ≤ e) :
    blockIndices (s, e) = s :: blockIndices (s + 1, e) := by
  unfold blockIndices
  simp only
  have h1 : e + 1 - s = (e + 1 - (s + 1)) + 1 := by omega
  rw [h1, List.range'_succ]

theorem blockIndices_merge {s i e : Nat} (h1 : 1 ≤ i) (h2 : s ≤ i - 1)
    (h3 : i + 1 ≤ e) :
    blockIndices (s, e) = (blockIndices (s, i - 1) ++ i :: blockIndices (i + 1, e)) := by
  unfold blockIndices
  simp only
  have hb : i - 1 + 1 - s = i - s := by omega
  rw [hb, ← List.range'_succ]
  have hi : List.range' i (e + 1 - (i + 1) + 1) =
      List.range' (s + (i - s)) (e + 1 - (i + 1) + 1) := by
    congr 1
    omega
  rw [hi, List.range'_append_1]
  congr 1
  omega

/-- All members of the blocks of an invariant state are unoccupied and
below touched. -/
theorem InvH.memFacts {c : Colony S T} {blocks : List (Nat × Nat)}
    (hI : InvH c blocks) :
    ∀ j ∈ chainOf blocks, isOcc c j = false ∧ j < c.touched := by
  intro j hj
  obtain ⟨b, hb, hjb⟩ := mem_chainOf.1 hj
  have hle := hI.blocksLe b hb
  have hjt : j < c.touched := by
    have := hjb.2
    omega
  exact ⟨(hI.cover j hjt).2 ⟨b, hb, hjb⟩, hjt⟩

/-- An occupied index is on no block. -/
theorem InvH.occ_not_mem {c : Colony S T} {blocks : List (Nat × Nat)}
    (hI : InvH c blocks) {i : Nat} (hocc : isOcc c i = true) :
    i ∉ chainOf blocks := by
  intro hx
  have := (hI.memFacts i hx).1
  rw [hocc] at this
  exact Bool.noConfusion this

/-- What the skip read left of an occupied index sees: zero when the
left neighbour is occupied or absent, else the size of the left block,
which ends exactly at i - 1. -/
theorem left_neighbor_analysis {c : Colony S T} {blocks : List (Nat × Nat)}
    (hI : InvH c blocks) {i : Nat} (hit : i < c.touched)
    (hocc : isOcc c i = true) :
    (sfRead .left c.sf ((i : Int) - 1) = 0 ∧ (i = 0 ∨ isOcc c (i - 1) = true)) ∨
    (∃ sL, (sL, i - 1) ∈ blocks ∧ 1 ≤ i ∧ sL ≤ i - 1 ∧
      isOcc c (i - 1) = false ∧ sfRead .left c.sf ((i : Int) - 1) = i - sL) := by
  by_cases h0 : i = 0
  · subst h0
    refine Or.inl ⟨?_, Or.inl rfl⟩
    refine sfRead_of_cell_zero _ _ (hI.sfOut _ (Or.inl (by norm_num)))
  · have h1 : 1 ≤ i := Nat.one_le_iff_ne_zero.2 h0
    have hcast : (i : Int) - 1 = ((i - 1 : Nat) : Int) := by omega
    by_cases hlo : isOcc c (i - 1) = true
    · refine Or.inl ⟨?_, Or.inr hlo⟩
      rw [hcast]
      exact sfRead_of_cell_zero _ _ (hI.sfOcc (i - 1) (by omega) hlo)
    · have hlo' : isOcc c (i - 1) = false := by
        cases hx : isOcc c (i - 1)
        · rfl
        · exact absurd hx hlo
      obtain ⟨b, hb, hib⟩ := (hI.cover (i - 1) (by omega)).1 hlo'
      obtain ⟨b1, b2⟩ := b
      have hb2 : b2 = i - 1 := by
        by_contra hne
        have hbi : inBlock i (b1, b2) := by
          unfold inBlock at hib ⊢
          simp only at hib ⊢
          omega
        have := (hI.cover i hit).2 ⟨(b1, b2), hb, hbi⟩
        rw [hocc] at this
        exact Bool.noConfusion this
      subst hb2
      refine Or.inr ⟨b1, hb, h1, hib.1, hlo', ?_⟩
      have hse := (hI.sfEnds (b1, i - 1) hb).2
      simp only at hse
      rw [hcast, hse]
      omega

/-- What the skip read right of an occupied index sees: zero when the
right neighbour is occupied or absent, else the size of the right block,
which starts exactly at i + 1. -/
theorem right_neighbor_analysis {c : Colony S T} {blocks : List (Nat × Nat)}
    (hI : InvH c blocks) {i : Nat} (hit : i < c.touched)
    (hocc : isOcc c i = true) :
    (sfRead .right c.sf ((i : Int) + 1) = 0 ∧
      (i + 1 = c.touched ∨ isOcc c (i + 1) = true)) ∨
    (∃ eR, (i + 1, eR) ∈ blocks ∧ i + 1 ≤ eR ∧
      isOcc c (i + 1) = false ∧ sfRead .right c.sf ((i : Int) + 1) = eR - i) := by
  by_cases ht : i + 1 = c.touched
  · refine Or.inl ⟨?_, Or.inl ht⟩
    refine sfRead_of_cell_zero _ _ (hI.sfOut _ (Or.inr (by omega)))
  · have h1 : i + 1 < c.touched := by omega
    have hcast : (i : Int) + 1 = ((i + 1 : Nat) : Int) := by omega
    by_cases hro : isOcc c (i + 1) = true
    · refine Or.inl ⟨?_, Or.inr hro⟩
      rw [hcast]
      exact sfRead_of_cell_zero _ _ (hI.sfOcc (i + 1) h1 hro)
    · have hro' : isOcc c (i + 1) = false := by
        cases hx : isOcc c (i + 1)
        · rfl
        · exact absurd hx hro
      obtain ⟨b, hb, hib⟩ := (hI.cover (i + 1) h1).1 hro'
      obtain ⟨b1, b2⟩ := b
      have hb1 : b1 = i + 1 := by
        by_contra hne
        have hbi : inBlock i (b1, b2) := by
          unfold inBlock at hib ⊢
          simp only at hib ⊢
          omega
        have := (hI.cover i hit).2 ⟨(b1, b2), hb, hbi⟩
        rw [hocc] at this
        exact Bool.noConfusion this
      subst hb1
      refine Or.inr ⟨b2, hb, hib.2, hro', ?_⟩
      have hse := (hI.sfEnds (i + 1, b2) hb).1
      simp only at hse
      rw [hcast, hse]
      omega

theorem setSlot_fields (c : Colony S T) (j : Nat) (s : MSlot S T) :
    (setSlot c j s).sf = c.sf ∧ (setSlot c j s).capacity = c.capacity ∧
    (setSlot c j s).touched = c.touched ∧ (setSlot c j s).len = c.len ∧
    (setSlot c j s).nextFree = c.nextFree ∧ (setSlot c j s).id = c.id :=
  ⟨rfl, rfl, rfl, rfl, rfl, rfl⟩

theorem sfSkip_fst (sf : Skipfield) (i : Nat) :
    (sfSkip sf i).1 = (i - sfRead .left sf ((i : Int) - 1),
      i + sfRead .right sf ((i : Int) + 1)) := rfl

theorem sfSkip_snd (sf : Skipfield) (i : Nat) :
    (sfSkip sf i).2 = sfWrite .left
      (sfWrite .right sf (((i - sfRead .left sf ((i : Int) - 1)) : Nat) : Int)
        (sfRead .left sf ((i : Int) - 1) + sfRead .right sf ((i : Int) + 1) + 1))
      (((i + sfRead .right sf ((i : Int) + 1)) : Nat) : Int)
      (sfRead .left sf ((i : Int) - 1) + sfRead .right sf ((i : Int) + 1) + 1) := rfl

theorem blockIndices_single (j : Nat) : blockIndices (j, j) = [j] := by
  unfold blockIndices
  simp only
  have h : j + 1 - j = 1 := by omega
  rw [h]
  rfl

/-- The ends of an invariant block are unoccupied members below touched. -/
theorem InvH.ends_facts {c : Colony S T} {blocks : List (Nat × Nat)}
    (hI : InvH c blocks) {b : Nat × Nat} (hb : b ∈ blocks) :
    isOcc c b.1 = false ∧ isOcc c b.2 = false ∧ b.1 ≤ b.2 ∧ b.2 < c.touched := by
  have hle := hI.blocksLe b hb
  have h1 : b.1 ∈ chainOf blocks :=
    mem_chainOf.2 ⟨b, hb, ⟨le_refl _, hle.1⟩⟩
  have h2 : b.2 ∈ chainOf blocks :=
    mem_chainOf.2 ⟨b, hb, ⟨hle.1, le_refl _⟩⟩
  exact ⟨(hI.memFacts b.1 h1).1, (hI.memFacts b.2 h2).1, hle.1, hle.2⟩

/-- A colony holding an occupied index below touched has positive len. -/
theorem InvH.len_pos {c : Colony S T} {blocks : List (Nat × Nat)}
    (hI : InvH c blocks) {i : Nat} (hit : i < c.touched)
    (hocc : isOcc c i = true) : 1 ≤ c.len := by
  by_contra h
  have h0 : c.len = 0 := by omega
  have hlen : (chainOf blocks).length = c.touched := by
    have := hI.lenEq
    omega
  have hsub : chainOf blocks ⊆ (List.range c.touched).erase i := by
    intro j hj
    have hf := hI.memFacts j hj
    have hji : j ≠ i := by
      intro hx
      rw [hx, hocc] at hf
      exact Bool.noConfusion hf.1
    exact (List.mem_erase_of_ne hji).2 (List.mem_range.2 hf.2)
  have hle : (chainOf blocks).length ≤ ((List.range c.touched).erase i).length :=
    (List.subperm_of_subset hI.nodup hsub).length_le
  rw [List.length_erase_of_mem (List.mem_range.2 hit), List.length_range] at hle
  omega

/-- remove_unchecked when neither neighbour is skipped: the vacated
index becomes a fresh singleton skipblock pushed onto the free-list
front. -/
theorem removeCaseA_invH [Inhabited T] {c : Colony S T} {blocks : List (Nat × Nat)}
    (hI : InvH c blocks) {i : Nat} (hit : i < c.touched)
    (hocc : isOcc c i = true)
    (hreuse : (S.gempty (c.slots i).g).2 = true)
    (hL0 : sfRead .left c.sf ((i : Int) - 1) = 0)
    (hLs : i = 0 ∨ isOcc c (i - 1) = true)
    (hR0 : sfRead .right c.sf ((i : Int) + 1) = 0)
    (hRs : i + 1 = c.touched ∨ isOcc c (i + 1) = true) :
    InvH (removeUnchecked c i).2 ((i, i) :: blocks) := by
  set c2 : Colony S T :=
    { setSlot c i ⟨(S.gempty (c.slots i).g).1, Payload.unoccupied none none⟩
      with sf := (sfSkip c.sf i).2 } with hc2
  have hrm : (removeUnchecked c i).2 =
      { addSkipblockToSkiplist c2 i i
        with len := (addSkipblockToSkiplist c2 i i).len - 1 } := by
    rw [hc2]
    simp only [removeUnchecked]
    rw [hreuse]
    rw [show (setSlot c i
      ⟨(S.gempty (c.slots i).g).1, Payload.unoccupied none none⟩).sf = c.sf from rfl]
    rw [sfSkip_fst, hL0, hR0]
    simp only [Nat.sub_zero, Nat.add_zero, eq_self_iff_true, if_true]
  have hsl2 : ∀ j, j ≠ i → c2.slots j = c.slots j := by
    intro j hj
    rw [hc2]
    show (setSlot c i _).slots j = c.slots j
    exact setSlot_slots_other _ _ hj
  have hsl2i : c2.slots i =
      ⟨(S.gempty (c.slots i).g).1, Payload.unoccupied none none⟩ := by
    rw [hc2]
    show (setSlot c i _).slots i = _
    exact setSlot_slots_same _ _ _
  have hocc2i : isOcc c2 i = false := by
    unfold isOcc
    rw [hsl2i]
  have hocc2 : ∀ j, j ≠ i → isOcc c2 j = isOcc c j := fun j hj =>
    isOcc_congr (hsl2 j hj)
  have hnf2 : c2.nextFree = c.nextFree := by rw [hc2]; rfl
  have hsf2 : c2.sf = sfWrite .left (sfWrite .right c.sf (i : Int) 1) (i : Int) 1 := by
    rw [hc2]
    show (sfSkip c.sf i).2 = _
    rw [sfSkip_snd, hL0, hR0]
    norm_num
  have htouched2 : c2.touched = c.touched := by rw [hc2]; rfl
  have hlen2 : c2.len = c.len := by rw [hc2]; rfl
  have hcap2 : c2.capacity = c.capacity := by rw [hc2]; rfl
  have hiNotMem : i ∉ chainOf blocks := hI.occ_not_mem hocc
  have hOk2 : FreeListOk c2 (chainOf blocks) :=
    freeListOk_congr hI.flOk hI.nodup hnf2
      (fun j hj => hsl2 j (fun hx => hiNotMem (hx ▸ hj)))
  have hUn2 : ∀ j ∈ chainOf blocks, isOcc c2 j = false := by
    intro j hj
    have hji : j ≠ i := fun hx => hiNotMem (hx ▸ hj)
    rw [hocc2 j hji]
    exact (hI.memFacts j hj).1
  obtain ⟨hOk3, hLi⟩ := addSingleton_spec hOk2 hI.nodup hUn2 hocc2i hiNotMem
  have hoccF : ∀ j, isOcc (removeUnchecked c i).2 j = isOcc c2 j := by
    intro j
    rw [hrm]
    exact hLi.occ j
  have hsfF : (removeUnchecked c i).2.sf = c2.sf := by
    rw [hrm]
    exact hLi.sfSame
  have htouchF : (removeUnchecked c i).2.touched = c.touched := by
    rw [hrm]
    show (addSkipblockToSkiplist c2 i i).touched = c.touched
    rw [hLi.touchedSame, htouched2]
  have hlenF : (removeUnchecked c i).2.len = c.len - 1 := by
    rw [hrm]
    show (addSkipblockToSkiplist c2 i i).len - 1 = c.len - 1
    rw [hLi.lenSame, hlen2]
  have hcapF : (removeUnchecked c i).2.capacity = c.capacity := by
    rw [hrm]
    show (addSkipblockToSkiplist c2 i i).capacity = c.capacity
    rw [hLi.capSame, hcap2]
  have hchEq : chainOf ((i, i) :: blocks) = i :: chainOf blocks := by
    rw [chainOf_cons, blockIndices_single]
    rfl
  refine ⟨?_, ?_, ?_, ?_, ?_, ?_, ?_, ?_, ?_, ?_, ?_⟩
  · intro b hb
    rcases List.mem_cons.1 hb with hbi | hb'
    · subst hbi
      refine ⟨le_refl i, ?_⟩
      rw [htouchF]
      exact hit
    · have hle := hI.blocksLe b hb'
      refine ⟨hle.1, ?_⟩
      rw [htouchF]
      exact hle.2
  · intro j hj
    rw [htouchF] at hj
    rw [hoccF j]
    by_cases hji : j = i
    · subst hji
      rw [hocc2i]
      exact ⟨fun _ => ⟨(j, j), List.mem_cons_self _ _, ⟨le_refl j, le_refl j⟩⟩,
        fun _ => rfl⟩
    · rw [hocc2 j hji, hI.cover j hj]
      constructor
      · rintro ⟨b, hb, hjb⟩
        exact ⟨b, List.mem_cons_of_mem _ hb, hjb⟩
      · rintro ⟨b, hb, hjb⟩
        rcases List.mem_cons.1 hb with hbi | hb'
        · exfalso
          subst hbi
          unfold inBlock at hjb
          simp only at hjb
          omega
        · exact ⟨b, hb', hjb⟩
  · intro b hb
    rcases List.mem_cons.1 hb with hbi | hb'
    · subst hbi
      simp only
      by_cases h0 : i = 0
      · exact Or.inl h0
      · rcases hLs with h0' | ho
        · exact absurd h0' h0
        · refine Or.inr ?_
          rw [hoccF, hocc2 (i - 1) (by omega)]
          exact ho
    · rcases hI.maxLeft b hb' with h0 | ho
      · exact Or.inl h0
      · have hef := hI.ends_facts hb'
        have hb1pos : 1 ≤ b.1 := by
          by_contra hc0
          have hb10 : b.1 = 0 := by omega
          have h1 := hef.1
          rw [hb10] at h1 ho
          simp only [Nat.zero_sub] at ho
          rw [ho] at h1
          exact Bool.noConfusion h1
        have hb1i : b.1 - 1 ≠ i := by
          intro hx
          have hb1 : b.1 = i + 1 := by omega
          have hunocc : isOcc c (i + 1) = false := by
            rw [← hb1]
            exact hef.1
          rcases hRs with hrt | hro
          · have h1 := hef.2.2.1
            have h2 := hef.2.2.2
            omega
          · rw [hro] at hunocc
            exact Bool.noConfusion hunocc
        refine Or.inr ?_
        rw [hoccF, hocc2 _ hb1i]
        exact ho
  · intro b hb
    rcases List.mem_cons.1 hb with hbi | hb'
    · subst hbi
      simp only
      rcases hRs with hrt | hro
      · refine Or.inl ?_
        rw [htouchF]
        exact hrt
      · refine Or.inr ?_
        rw [hoccF, hocc2 (i + 1) (by omega)]
        exact hro
    · rcases hI.maxRight b hb' with ht | ho
      · refine Or.inl ?_
        rw [htouchF]
        exact ht
      · have hef := hI.ends_facts hb'
        have hb2i : b.2 + 1 ≠ i := by
          intro hx
          have hunocc : isOcc c (i - 1) = false := by
            have hb2 : b.2 = i - 1 := by omega
            rw [← hb2]
            exact hef.2.1
          rcases hLs with h0 | hlo
          · omega
          · rw [hlo] at hunocc
            exact Bool.noConfusion hunocc
        refine Or.inr ?_
        rw [hoccF, hocc2 _ hb2i]
        exact ho
  · rw [hchEq]
    exact List.nodup_cons.2 ⟨hiNotMem, hI.nodup⟩
  · intro b hb
    rcases List.mem_cons.1 hb with hbi | hb'
    · subst hbi
      simp only
      constructor
      · rw [hsfF, hsf2,
          sfRead_write_small .left .right _ _ (by norm_num)]
        omega
      · rw [hsfF, hsf2, sfRead_write_same]
        omega
    · have hse := hI.sfEnds b hb'
      have hef := hI.ends_facts hb'
      have hb1i : b.1 ≠ i := by
        intro hx
        have h1 := hef.1
        rw [hx, hocc] at h1
        exact Bool.noConfusion h1
      have hb2i : b.2 ≠ i := by
        intro hx
        have h1 := hef.2.1
        rw [hx, hocc] at h1
        exact Bool.noConfusion h1
      have hc1 : ((b.1 : Int)) ≠ (i : Int) := by exact_mod_cast hb1i
      have hc2' : ((b.2 : Int)) ≠ (i : Int) := by exact_mod_cast hb2i
      constructor
      · rw [hsfF, hsf2, sfRead_write_other _ _ _ _ hc1,
          sfRead_write_other _ _ _ _ hc1]
        exact hse.1
      · rw [hsfF, hsf2, sfRead_write_other _ _ _ _ hc2',
          sfRead_write_other _ _ _ _ hc2']
        exact hse.2
  · intro j hj hjo
    rw [htouchF] at hj
    rw [hoccF] at hjo
    have hji : j ≠ i := by
      intro hx
      rw [hx, hocc2i] at hjo
      exact Bool.noConfusion hjo
    rw [hocc2 j hji] at hjo
    have hcj : ((j : Int)) ≠ (i : Int) := by exact_mod_cast hji
    rw [hsfF, hsf2, sfWrite_cell_other _ _ _ hcj, sfWrite_cell_other _ _ _ hcj]
    exact hI.sfOcc j hj hjo
  · intro p hp
    rw [htouchF] at hp
    have hpi : p ≠ (i : Int) := by
      rcases hp with h1 | h2
      · intro hx
        rw [hx] at h1
        omega
      · intro hx
        rw [hx] at h2
        omega
    rw [hsfF, hsf2, sfWrite_cell_other _ _ _ hpi, sfWrite_cell_other _ _ _ hpi]
    exact hI.sfOut p hp
  · rw [hchEq]
    refine freeListOk_congr hOk3 (List.nodup_cons.2 ⟨hiNotMem, hI.nodup⟩) ?_ ?_
    · rw [hrm]
    · intro j _
      rw [hrm]
  · rw [hchEq, hlenF, htouchF]
    simp only [List.length_cons]
    have hpos := hI.len_pos hit hocc
    have hle := hI.lenEq
    omega
  · rw [htouchF, hcapF]
    exact hI.capOk

theorem sfSkip_start (sf : Skipfield) (i : Nat) :
    (sfSkip sf i).1.1 = i - sfRead .left sf ((i : Int) - 1) := rfl

theorem sfSkip_stop (sf : Skipfield) (i : Nat) :
    (sfSkip sf i).1.2 = i + sfRead .right sf ((i : Int) + 1) := rfl

/-- In a nodup chain no index of the distinguished block belongs to any
other block of the list. -/
theorem nodup_chain_disjoint {bs1 bs2 : List (Nat × Nat)} {b0 : Nat × Nat}
    (hnd : (chainOf (bs1 ++ b0 :: bs2)).Nodup) {j : Nat}
    (hj : j ∈ blockIndices b0) : ∀ b, b ∈ bs1 ++ bs2 → j ∉ blockIndices b := by
  intro b hb hjb
  rw [chainOf_append, chainOf_cons] at hnd
  obtain ⟨hnd1, hnd2, hdis⟩ := List.nodup_append.1 hnd
  obtain ⟨hndb, hnd3, hdis2⟩ := List.nodup_append.1 hnd2
  rcases List.mem_append.1 hb with h1 | h2
  · exact hdis (mem_chainOf.2 ⟨b, h1, mem_blockIndices.1 hjb⟩)
      (List.mem_append.2 (Or.inl hj))
  · exact hdis2 hj (mem_chainOf.2 ⟨b, h2, mem_blockIndices.1 hjb⟩)

theorem nodup_insert_middle {P Q : List Nat} {x i : Nat}
    (hnd : (P ++ x :: Q).Nodup) (hi : i ∉ P ++ x :: Q) :
    (P ++ x :: i :: Q).Nodup := by
  have h1 : P ++ x :: i :: Q = (P ++ [x]) ++ i :: Q := by simp
  have h2 : (P ++ [x]) ++ Q = P ++ x :: Q := by simp
  rw [h1, List.nodup_middle, List.nodup_cons, h2]
  exact ⟨hi, hnd⟩

/-- remove_unchecked when only the left neighbour is skipped: the left
block grows by one on the right, in place in the free-list. -/
theorem removeCaseB_invH [Inhabited T] {c : Colony S T} {blocks : List (Nat × Nat)}
    (hI : InvH c blocks) {i sL : Nat} (hit : i < c.touched)
    (hocc : isOcc c i = true)
    (hreuse : (S.gempty (c.slots i).g).2 = true)
    (hbL : (sL, i - 1) ∈ blocks) (h1i : 1 ≤ i) (hsLle : sL ≤ i - 1)
    (hLval : sfRead .left c.sf ((i : Int) - 1) = i - sL)
    (hR0 : sfRead .right c.sf ((i : Int) + 1) = 0)
    (hRs : i + 1 = c.touched ∨ isOcc c (i + 1) = true) :
    ∃ blocks', InvH (removeUnchecked c i).2 blocks' := by
  obtain ⟨bs1, bs2, hsplit⟩ := List.append_of_mem hbL
  have hsLlt : sL < i := by omega
  set c2 : Colony S T :=
    { setSlot c i ⟨(S.gempty (c.slots i).g).1, Payload.unoccupied none none⟩
      with sf := (sfSkip c.sf i).2 } with hc2
  have hrm : (removeUnchecked c i).2 =
      { stitchOnlyLeft c2 i with len := (stitchOnlyLeft c2 i).len - 1 } := by
    rw [hc2]
    simp only [removeUnchecked]
    rw [hreuse]
    rw [show (setSlot c i
      ⟨(S.gempty (c.slots i).g).1, Payload.unoccupied none none⟩).sf = c.sf from rfl]
    rw [sfSkip_start, sfSkip_stop, hLval, hR0]
    have hne : ¬(i - (i - sL) = i) := by omega
    rw [if_neg hne]
    simp only [Nat.add_zero, eq_self_iff_true, if_true]
  have hsl2 : ∀ j, j ≠ i → c2.slots j = c.slots j := by
    intro j hj
    rw [hc2]
    show (setSlot c i _).slots j = c.slots j
    exact setSlot_slots_other _ _ hj
  have hsl2i : c2.slots i =
      ⟨(S.gempty (c.slots i).g).1, Payload.unoccupied none none⟩ := by
    rw [hc2]
    show (setSlot c i _).slots i = _
    exact setSlot_slots_same _ _ _
  have hocc2i : isOcc c2 i = false := by
    unfold isOcc
    rw [hsl2i]
  have hocc2 : ∀ j, j ≠ i → isOcc c2 j = isOcc c j := fun j hj =>
    isOcc_congr (hsl2 j hj)
  have hnf2 : c2.nextFree = c.nextFree := by rw [hc2]; rfl
  have hsf2 : c2.sf = sfWrite .left
      (sfWrite .right c.sf ((sL : Nat) : Int) (i - sL + 1))
      ((i : Nat) : Int) (i - sL + 1) := by
    rw [hc2]
    show (sfSkip c.sf i).2 = _
    rw [sfSkip_snd, hLval, hR0]
    simp only [Nat.add_zero]
    rw [show i - (i - sL) = sL from by omega]
  have htouched2 : c2.touched = c.touched := by rw [hc2]; rfl
  have hlen2 : c2.len = c.len := by rw [hc2]; rfl
  have hcap2 : c2.capacity = c.capacity := by rw [hc2]; rfl
  have hiNotMem : i ∉ chainOf blocks := hI.occ_not_mem hocc
  have hrng : blockIndices (sL, i - 1) = List.range' sL (i - 1 - sL) ++ [i - 1] :=
    blockIndices_eq_concat hsLle
  set P : List Nat := chainOf bs1 ++ List.range' sL (i - 1 - sL) with hP
  set Q : List Nat := chainOf bs2 with hQ
  have hlist : chainOf blocks = P ++ (i - 1) :: Q := by
    rw [hP, hQ, hsplit, chainOf_append, chainOf_cons, hrng]
    simp [List.append_assoc]
  have hlist' : chainOf (bs1 ++ (sL, i) :: bs2) = P ++ (i - 1) :: i :: Q := by
    rw [hP, hQ, chainOf_append, chainOf_cons,
      blockIndices_eq_concat (show sL ≤ i by omega)]
    have h1 : List.range' sL (i - sL) = List.range' sL (i - 1 - sL) ++ [i - 1] := by
      rw [show i - sL = (i - 1 - sL) + 1 from by omega, List.range'_1_concat,
        show sL + (i - 1 - sL) = i - 1 from by omega]
    rw [h1]
    simp [List.append_assoc]
  have hOk2 : FreeListOk c2 (P ++ (i - 1) :: Q) := by
    rw [← hlist]
    exact freeListOk_congr hI.flOk hI.nodup hnf2
      (fun j hj => hsl2 j (fun hx => hiNotMem (hx ▸ hj)))
  have hnd : (P ++ (i - 1) :: Q).Nodup := by
    rw [← hlist]
    exact hI.nodup
  have hiNew : i ∉ P ++ (i - 1) :: Q := by
    rw [← hlist]
    exact hiNotMem
  have hUn : ∀ j ∈ P ++ (i - 1) :: Q, isOcc c2 j = false := by
    intro j hj
    rw [← hlist] at hj
    have hji : j ≠ i := fun hx => hiNotMem (hx ▸ hj)
    rw [hocc2 j hji]
    exact (hI.memFacts j hj).1
  obtain ⟨hOkS, hLi⟩ := stitchOnlyLeft_spec hOk2 hnd hUn hocc2i hiNew
  have hoccF : ∀ j, isOcc (removeUnchecked c i).2 j = isOcc c2 j := by
    intro j
    rw [hrm]
    exact hLi.occ j
  have hsfF : (removeUnchecked c i).2.sf = c2.sf := by
    rw [hrm]
    exact hLi.sfSame
  have htouchF : (removeUnchecked c i).2.touched = c.touched := by
    rw [hrm]
    show (stitchOnlyLeft c2 i).touched = c.touched
    rw [hLi.touchedSame, htouched2]
  have hlenF : (removeUnchecked c i).2.len = c.len - 1 := by
    rw [hrm]
    show (stitchOnlyLeft c2 i).len - 1 = c.len - 1
    rw [hLi.lenSame, hlen2]
  have hcapF : (removeUnchecked c i).2.capacity = c.capacity := by
    rw [hrm]
    show (stitchOnlyLeft c2 i).capacity = c.capacity
    rw [hLi.capSame, hcap2]
  have hndSplit : (chainOf (bs1 ++ (sL, i - 1) :: bs2)).Nodup := by
    rw [← hsplit]
    exact hI.nodup
  have hmemOld : ∀ b, b ∈ bs1 ++ bs2 → b ∈ blocks := by
    intro b hb
    rw [hsplit]
    rcases List.mem_append.1 hb with h | h
    · exact List.mem_append.2 (Or.inl h)
    · exact List.mem_append.2 (Or.inr (List.mem_cons_of_mem _ h))
  have hclass : ∀ b, b ∈ bs1 ++ (sL, i) :: bs2 → b = (sL, i) ∨ b ∈ bs1 ++ bs2 := by
    intro b hb
    rcases List.mem_append.1 hb with h1 | h2
    · exact Or.inr (List.mem_append.2 (Or.inl h1))
    · rcases List.mem_cons.1 h2 with hbi | h3
      · exact Or.inl hbi
      · exact Or.inr (List.mem_append.2 (Or.inr h3))
  have hsLun : isOcc c sL = false :=
    (hI.memFacts sL (mem_chainOf.2 ⟨(sL, i - 1), hbL, ⟨le_refl _, hsLle⟩⟩)).1
  have hsLt : sL < c.touched :=
    (hI.memFacts sL (mem_chainOf.2 ⟨(sL, i - 1), hbL, ⟨le_refl _, hsLle⟩⟩)).2
  refine ⟨bs1 ++ (sL, i) :: bs2, ?_, ?_, ?_, ?_, ?_, ?_, ?_, ?_, ?_, ?_, ?_⟩
  · intro b hb
    rcases hclass b hb with hbi | hbm
    · subst hbi
      refine ⟨by omega, ?_⟩
      rw [htouchF]
      exact hit
    · have hle := hI.blocksLe b (hmemOld b hbm)
      refine ⟨hle.1, ?_⟩
      rw [htouchF]
      exact hle.2
  · intro j hj
    rw [htouchF] at hj
    rw [hoccF j]
    by_cases hji : j = i
    · subst hji
      rw [hocc2i]
      refine ⟨fun _ => ⟨(sL, j), ?_, ⟨by omega, le_refl j⟩⟩, fun _ => rfl⟩
      exact List.mem_append.2 (Or.inr (List.mem_cons_self _ _))
    · rw [hocc2 j hji, hI.cover j hj]
      constructor
      · rintro ⟨b, hb, hjb⟩
        rw [hsplit] at hb
        rcases List.mem_append.1 hb with h1 | h2
        · exact ⟨b, List.mem_append.2 (Or.inl h1), hjb⟩
        · rcases List.mem_cons.1 h2 with hbi | h3
          · subst hbi
            refine ⟨(sL, i), List.mem_append.2 (Or.inr (List.mem_cons_self _ _)), ?_⟩
            unfold inBlock at hjb ⊢
            simp only at hjb ⊢
            omega
          · exact ⟨b, List.mem_append.2 (Or.inr (List.mem_cons_of_mem _ h3)), hjb⟩
      · rintro ⟨b, hb, hjb⟩
        rcases hclass b hb with hbi | hbm
        · subst hbi
          refine ⟨(sL, i - 1), hbL, ?_⟩
          unfold inBlock at hjb ⊢
          simp only at hjb ⊢
          omega
        · exact ⟨b, hmemOld b hbm, hjb⟩
  · intro b hb
    rcases hclass b hb with hbi | hbm
    · subst hbi
      simp only
      rcases hI.maxLeft (sL, i - 1) hbL with h0 | ho
      · exact Or.inl h0
      · refine Or.inr ?_
        rw [hoccF, hocc2 _ (show sL - 1 ≠ i by omega)]
        exact ho
    · rcases hI.maxLeft b (hmemOld b hbm) with h0 | ho
      · exact Or.inl h0
      · have hef := hI.ends_facts (hmemOld b hbm)
        have hb1pos : 1 ≤ b.1 := by
          by_contra hc0
          have hb10 : b.1 = 0 := by omega
          have h1 := hef.1
          rw [hb10] at h1 ho
          simp only [Nat.zero_sub] at ho
          rw [ho] at h1
          exact Bool.noConfusion h1
        have hb1i : b.1 - 1 ≠ i := by
          intro hx
          have hb1 : b.1 = i + 1 := by omega
          have hunocc : isOcc c (i + 1) = false := by
            rw [← hb1]
            exact hef.1
          rcases hRs with hrt | hro
          · have h1 := hef.2.2.1
            have h2 := hef.2.2.2
            omega
          · rw [hro] at hunocc
            exact Bool.noConfusion hunocc
        refine Or.inr ?_
        rw [hoccF, hocc2 _ hb1i]
        exact ho
  · intro b hb
    rcases hclass b hb with hbi | hbm
    · subst hbi
      simp only
      rcases hRs with hrt | hro
      · refine Or.inl ?_
        rw [htouchF]
        exact hrt
      · refine Or.inr ?_
        rw [hoccF, hocc2 (i + 1) (by omega)]
        exact hro
    · rcases hI.maxRight b (hmemOld b hbm) with ht | ho
      · refine Or.inl ?_
        rw [htouchF]
        exact ht
      · have hef := hI.ends_facts (hmemOld b hbm)
        have hb2i : b.2 + 1 ≠ i := by
          intro hx
          have hb2 : b.2 = i - 1 := by omega
          have hdis := nodup_chain_disjoint hndSplit
            (mem_blockIndices.2 (show inBlock (i - 1) (sL, i - 1) from
              ⟨hsLle, le_refl _⟩)) b hbm
          apply hdis
          refine mem_blockIndices.2 ?_
          unfold inBlock
          have hle := hI.blocksLe b (hmemOld b hbm)
          omega
        refine Or.inr ?_
        rw [hoccF, hocc2 _ hb2i]
        exact ho
  · rw [hlist']
    exact nodup_insert_middle hnd hiNew
  · intro b hb
    rcases hclass b hb with hbi | hbm
    · subst hbi
      simp only
      constructor
      · have hcsL : ((sL : Nat) : Int) ≠ ((i : Nat) : Int) := by
          exact_mod_cast (show sL ≠ i by omega)
        rw [hsfF, hsf2, sfRead_write_other _ _ _ _ hcsL, sfRead_write_same]
        omega
      · rw [hsfF, hsf2, sfRead_write_same]
        omega
    · have hse := hI.sfEnds b (hmemOld b hbm)
      have hef := hI.ends_facts (hmemOld b hbm)
      have hle := hI.blocksLe b (hmemOld b hbm)
      have hb1i : b.1 ≠ i := by
        intro hx
        have h1 := hef.1
        rw [hx, hocc] at h1
        exact Bool.noConfusion h1
      have hb2i : b.2 ≠ i := by
        intro hx
        have h1 := hef.2.1
        rw [hx, hocc] at h1
        exact Bool.noConfusion h1
      have hdis := nodup_chain_disjoint hndSplit
        (mem_blockIndices.2 (show inBlock sL (sL, i - 1) from ⟨le_refl _, hsLle⟩))
      have hb1s : b.1 ≠ sL := by
        intro hx
        exact hdis b hbm (mem_blockIndices.2 (by unfold inBlock; omega))
      have hb2s : b.2 ≠ sL := by
        intro hx
        exact hdis b hbm (mem_blockIndices.2 (by unfold inBlock; omega))
      have hc1i : ((b.1 : Nat) : Int) ≠ ((i : Nat) : Int) := by exact_mod_cast hb1i
      have hc2i : ((b.2 : Nat) : Int) ≠ ((i : Nat) : Int) := by exact_mod_cast hb2i
      have hc1s : ((b.1 : Nat) : Int) ≠ ((sL : Nat) : Int) := by exact_mod_cast hb1s
      have hc2s : ((b.2 : Nat) : Int) ≠ ((sL : Nat) : Int) := by exact_mod_cast hb2s
      constructor
      · rw [hsfF, hsf2, sfRead_write_other _ _ _ _ hc1i,
          sfRead_write_other _ _ _ _ hc1s]
        exact hse.1
      · rw [hsfF, hsf2, sfRead_write_other _ _ _ _ hc2i,
          sfRead_write_other _ _ _ _ hc2s]
        exact hse.2
  · intro j hj hjo
    rw [htouchF] at hj
    rw [hoccF] at hjo
    have hji : j ≠ i := by
      intro hx
      rw [hx, hocc2i] at hjo
      exact Bool.noConfusion hjo
    rw [hocc2 j hji] at hjo
    have hjs : j ≠ sL := by
      intro hx
      rw [hx, hsLun] at hjo
      exact Bool.noConfusion hjo
    have hcji : ((j : Nat) : Int) ≠ ((i : Nat) : Int) := by exact_mod_cast hji
    have hcjs : ((j : Nat) : Int) ≠ ((sL : Nat) : Int) := by exact_mod_cast hjs
    rw [hsfF, hsf2, sfWrite_cell_other _ _ _ hcji, sfWrite_cell_other _ _ _ hcjs]
    exact hI.sfOcc j hj hjo
  · intro p hp
    rw [htouchF] at hp
    have hpi : p ≠ ((i : Nat) : Int) := by
      rcases hp with h1 | h2
      · intro hx
        rw [hx] at h1
        omega
      · intro hx
        rw [hx] at h2
        omega
    have hps : p ≠ ((sL : Nat) : Int) := by
      rcases hp with h1 | h2
      · intro hx
        rw [hx] at h1
        omega
      · intro hx
        rw [hx] at h2
        omega
    rw [hsfF, hsf2, sfWrite_cell_other _ _ _ hpi, sfWrite_cell_other _ _ _ hps]
    exact hI.sfOut p hp
  · rw [hlist']
    refine freeListOk_congr hOkS (nodup_insert_middle hnd hiNew) ?_ ?_
    · rw [hrm]
    · intro j _
      rw [hrm]
  · rw [hlist', hlenF, htouchF]
    have hLenOld := hI.lenEq
    rw [hlist] at hLenOld
    simp only [List.length_append, List.length_cons] at hLenOld ⊢
    have hpos := hI.len_pos hit hocc
    omega
  · rw [htouchF, hcapF]
    exact hI.capOk

/-- remove_unchecked when only the right neighbour is skipped: the right
block grows by one on the left, in place in the free-list. -/
theorem removeCaseC_invH [Inhabited T] {c : Colony S T} {blocks : List (Nat × Nat)}
    (hI : InvH c blocks) {i eR : Nat} (hit : i < c.touched)
    (hocc : isOcc c i = true)
    (hreuse : (S.gempty (c.slots i).g).2 = true)
    (hbR : (i + 1, eR) ∈ blocks) (hiRle : i + 1 ≤ eR)
    (hRval : sfRead .right c.sf ((i : Int) + 1) = eR - i)
    (hL0 : sfRead .left c.sf ((i : Int) - 1) = 0)
    (hLs : i = 0 ∨ isOcc c (i - 1) = true) :
    ∃ blocks', InvH (removeUnchecked c i).2 blocks' := by
  obtain ⟨bs1, bs2, hsplit⟩ := List.append_of_mem hbR
  set c2 : Colony S T :=
    { setSlot c i ⟨(S.gempty (c.slots i).g).1, Payload.unoccupied none none⟩
      with sf := (sfSkip c.sf i).2 } with hc2
  have hrm : (removeUnchecked c i).2 =
      { stitchOnlyRight c2 i with len := (stitchOnlyRight c2 i).len - 1 } := by
    rw [hc2]
    simp only [removeUnchecked]
    rw [hreuse]
    rw [show (setSlot c i
      ⟨(S.gempty (c.slots i).g).1, Payload.unoccupied none none⟩).sf = c.sf from rfl]
    rw [sfSkip_start, sfSkip_stop, hL0, hRval]
    have hne : ¬(i + (eR - i) = i) := by omega
    rw [if_neg hne]
    simp only [Nat.sub_zero, eq_self_iff_true, if_true]
  have hsl2 : ∀ j, j ≠ i → c2.slots j = c.slots j := by
    intro j hj
    rw [hc2]
    show (setSlot c i _).slots j = c.slots j
    exact setSlot_slots_other _ _ hj
  have hsl2i : c2.slots i =
      ⟨(S.gempty (c.slots i).g).1, Payload.unoccupied none none⟩ := by
    rw [hc2]
    show (setSlot c i _).slots i = _
    exact setSlot_slots_same _ _ _
  have hocc2i : isOcc c2 i = false := by
    unfold isOcc
    rw [hsl2i]
  have hocc2 : ∀ j, j ≠ i → isOcc c2 j = isOcc c j := fun j hj =>
    isOcc_congr (hsl2 j hj)
  have hnf2 : c2.nextFree = c.nextFree := by rw [hc2]; rfl
  have hsf2 : c2.sf = sfWrite .left
      (sfWrite .right c.sf ((i : Nat) : Int) (eR - i + 1))
      ((eR : Nat) : Int) (eR - i + 1) := by
    rw [hc2]
    show (sfSkip c.sf i).2 = _
    rw [sfSkip_snd, hL0, hRval]
    simp only [Nat.sub_zero, Nat.zero_add]
    rw [show i + (eR - i) = eR from by omega]
  have htouched2 : c2.touched = c.touched := by rw [hc2]; rfl
  have hlen2 : c2.len = c.len := by rw [hc2]; rfl
  have hcap2 : c2.capacity = c.capacity := by rw [hc2]; rfl
  have hiNotMem : i ∉ chainOf blocks := hI.occ_not_mem hocc
  set P : List Nat := chainOf bs1 with hP
  set Q : List Nat := blockIndices (i + 2, eR) ++ chainOf bs2 with hQ
  have hrng : blockIndices (i + 1, eR) = (i + 1) :: blockIndices (i + 2, eR) :=
    blockIndices_split_head hiRle
  have hlist : chainOf blocks = P ++ (i + 1) :: Q := by
    rw [hP, hQ, hsplit, chainOf_append, chainOf_cons, hrng]
    simp [List.cons_append]
  have hlist' : chainOf (bs1 ++ (i, eR) :: bs2) = P ++ i :: (i + 1) :: Q := by
    rw [hP, hQ, chainOf_append, chainOf_cons,
      blockIndices_split_head (show i ≤ eR by omega),
      blockIndices_split_head (show i + 1 ≤ eR by omega)]
    simp [List.cons_append]
  have hOk2 : FreeListOk c2 (P ++ (i + 1) :: Q) := by
    rw [← hlist]
    exact freeListOk_congr hI.flOk hI.nodup hnf2
      (fun j hj => hsl2 j (fun hx => hiNotMem (hx ▸ hj)))
  have hnd : (P ++ (i + 1) :: Q).Nodup := by
    rw [← hlist]
    exact hI.nodup
  have hiNew : i ∉ P ++ (i + 1) :: Q := by
    rw [← hlist]
    exact hiNotMem
  have hUn : ∀ j ∈ P ++ (i + 1) :: Q, isOcc c2 j = false := by
    intro j hj
    rw [← hlist] at hj
    have hji : j ≠ i := fun hx => hiNotMem (hx ▸ hj)
    rw [hocc2 j hji]
    exact (hI.memFacts j hj).1
  obtain ⟨hOkS, hLi⟩ := stitchOnlyRight_spec hOk2 hnd hUn hocc2i hiNew
  have hoccF : ∀ j, isOcc (removeUnchecked c i).2 j = isOcc c2 j := by
    intro j
    rw [hrm]
    exact hLi.occ j
  have hsfF : (removeUnchecked c i).2.sf = c2.sf := by
    rw [hrm]
    exact hLi.sfSame
  have htouchF : (removeUnchecked c i).2.touched = c.touched := by
    rw [hrm]
    show (stitchOnlyRight c2 i).touched = c.touched
    rw [hLi.touchedSame, htouched2]
  have hlenF : (removeUnchecked c i).2.len = c.len - 1 := by
    rw [hrm]
    show (stitchOnlyRight c2 i).len - 1 = c.len - 1
    rw [hLi.lenSame, hlen2]
  have hcapF : (removeUnchecked c i).2.capacity = c.capacity := by
    rw [hrm]
    show (stitchOnlyRight c2 i).capacity = c.capacity
    rw [hLi.capSame, hcap2]
  have hndSplit : (chainOf (bs1 ++ (i + 1, eR) :: bs2)).Nodup := by
    rw [← hsplit]
    exact hI.nodup
  have hmemOld : ∀ b, b ∈ bs1 ++ bs2 → b ∈ blocks := by
    intro b hb
    rw [hsplit]
    rcases List.mem_append.1 hb with h | h
    · exact List.mem_append.2 (Or.inl h)
    · exact List.mem_append.2 (Or.inr (List.mem_cons_of_mem _ h))
  have hclass : ∀ b, b ∈ bs1 ++ (i, eR) :: bs2 → b = (i, eR) ∨ b ∈ bs1 ++ bs2 := by
    intro b hb
    rcases List.mem_append.1 hb with h1 | h2
    · exact Or.inr (List.mem_append.2 (Or.inl h1))
    · rcases List.mem_cons.1 h2 with hbi | h3
      · exact Or.inl hbi
      · exact Or.inr (List.mem_append.2 (Or.inr h3))
  have heRun : isOcc c eR = false :=
    (hI.memFacts eR (mem_chainOf.2 ⟨(i + 1, eR), hbR, ⟨hiRle, le_refl _⟩⟩)).1
  have heRt : eR < c.touched :=
    (hI.memFacts eR (mem_chainOf.2 ⟨(i + 1, eR), hbR, ⟨hiRle, le_refl _⟩⟩)).2
  refine ⟨bs1 ++ (i, eR) :: bs2, ?_, ?_, ?_, ?_, ?_, ?_, ?_, ?_, ?_, ?_, ?_⟩
  · intro b hb
    rcases hclass b hb with hbi | hbm
    · subst hbi
      refine ⟨by omega, ?_⟩
      rw [htouchF]
      exact heRt
    · have hle := hI.blocksLe b (hmemOld b hbm)
      refine ⟨hle.1, ?_⟩
      rw [htouchF]
      exact hle.2
  · intro j hj
    rw [htouchF] at hj
    rw [hoccF j]
    by_cases hji : j = i
    · subst hji
      rw [hocc2i]
      refine ⟨fun _ => ⟨(j, eR), ?_, ⟨le_refl j, by omega⟩⟩, fun _ => rfl⟩
      exact List.mem_append.2 (Or.inr (List.mem_cons_self _ _))
    · rw [hocc2 j hji, hI.cover j hj]
      constructor
      · rintro ⟨b, hb, hjb⟩
        rw [hsplit] at hb
        rcases List.mem_append.1 hb with h1 | h2
        · exact ⟨b, List.mem_append.2 (Or.inl h1), hjb⟩
        · rcases List.mem_cons.1 h2 with hbi | h3
          · subst hbi
            refine ⟨(i, eR), List.mem_append.2 (Or.inr (List.mem_cons_self _ _)), ?_⟩
            unfold inBlock at hjb ⊢
            simp only at hjb ⊢
            omega
          · exact ⟨b, List.mem_append.2 (Or.inr (List.mem_cons_of_mem _ h3)), hjb⟩
      · rintro ⟨b, hb, hjb⟩
        rcases hclass b hb with hbi | hbm
        · subst hbi
          refine ⟨(i + 1, eR), hbR, ?_⟩
          unfold inBlock at hjb ⊢
          simp only at hjb ⊢
          omega
        · exact ⟨b, hmemOld b hbm, hjb⟩
  · intro b hb
    rcases hclass b hb with hbi | hbm
    · subst hbi
      simp only
      by_cases h0 : i = 0
      · exact Or.inl h0
      · rcases hLs with h0' | ho
        · exact absurd h0' h0
        · refine Or.inr ?_
          rw [hoccF, hocc2 (i - 1) (by omega)]
          exact ho
    · rcases hI.maxLeft b (hmemOld b hbm) with h0 | ho
      · exact Or.inl h0
      · have hef := hI.ends_facts (hmemOld b hbm)
        have hb1pos : 1 ≤ b.1 := by
          by_contra hc0
          have hb10 : b.1 = 0 := by omega
          have h1 := hef.1
          rw [hb10] at h1 ho
          simp only [Nat.zero_sub] at ho
          rw [ho] at h1
          exact Bool.noConfusion h1
        have hb1i : b.1 - 1 ≠ i := by
          intro hx
          have hb1 : b.1 = i + 1 := by omega
          have hdis := nodup_chain_disjoint hndSplit
            (mem_blockIndices.2 (show inBlock (i + 1) (i + 1, eR) from
              ⟨le_refl _, hiRle⟩)) b hbm
          apply hdis
          refine mem_blockIndices.2 ?_
          unfold inBlock
          have hle := hI.blocksLe b (hmemOld b hbm)
          omega
        refine Or.inr ?_
        rw [hoccF, hocc2 _ hb1i]
        exact ho
  · intro b hb
    rcases hclass b hb with hbi | hbm
    · subst hbi
      simp only
      rcases hI.maxRight (i + 1, eR) hbR with ht | ho
      · refine Or.inl ?_
        rw [htouchF]
        exact ht
      · refine Or.inr ?_
        rw [hoccF, hocc2 (eR + 1) (by omega)]
        exact ho
    · rcases hI.maxRight b (hmemOld b hbm) with ht | ho
      · refine Or.inl ?_
        rw [htouchF]
        exact ht
      · have hef := hI.ends_facts (hmemOld b hbm)
        have hb2i : b.2 + 1 ≠ i := by
          intro hx
          have hunocc : isOcc c (i - 1) = false := by
            have hb2 : b.2 = i - 1 := by omega
            rw [← hb2]
            exact hef.2.1
          rcases hLs with h0 | hlo
          · omega
          · rw [hlo] at hunocc
            exact Bool.noConfusion hunocc
        refine Or.inr ?_
        rw [hoccF, hocc2 _ hb2i]
        exact ho
  · rw [hlist', List.nodup_middle, List.nodup_cons]
    exact ⟨hiNew, hnd⟩
  · intro b hb
    rcases hclass b hb with hbi | hbm
    · subst hbi
      simp only
      constructor
      · have hcie : ((i : Nat) : Int) ≠ ((eR : Nat) : Int) := by
          exact_mod_cast (show i ≠ eR by omega)
        rw [hsfF, hsf2, sfRead_write_other _ _ _ _ hcie, sfRead_write_same]
        omega
      · rw [hsfF, hsf2, sfRead_write_same]
        omega
    · have hse := hI.sfEnds b (hmemOld b hbm)
      have hef := hI.ends_facts (hmemOld b hbm)
      have hle := hI.blocksLe b (hmemOld b hbm)
      have hb1i : b.1 ≠ i := by
        intro hx
        have h1 := hef.1
        rw [hx, hocc] at h1
        exact Bool.noConfusion h1
      have hb2i : b.2 ≠ i := by
        intro hx
        have h1 := hef.2.1
        rw [hx, hocc] at h1
        exact Bool.noConfusion h1
      have hdis := nodup_chain_disjoint hndSplit
        (mem_blockIndices.2 (show inBlock eR (i + 1, eR) from ⟨hiRle, le_refl _⟩))
      have hb1e : b.1 ≠ eR := by
        intro hx
        exact hdis b hbm (mem_blockIndices.2 (by unfold inBlock; omega))
      have hb2e : b.2 ≠ eR := by
        intro hx
        exact hdis b hbm (mem_blockIndices.2 (by unfold inBlock; omega))
      have hc1i : ((b.1 : Nat) : Int) ≠ ((i : Nat) : Int) := by exact_mod_cast hb1i
      have hc2i : ((b.2 : Nat) : Int) ≠ ((i : Nat) : Int) := by exact_mod_cast hb2i
      have hc1e : ((b.1 : Nat) : Int) ≠ ((eR : Nat) : Int) := by exact_mod_cast hb1e
      have hc2e : ((b.2 : Nat) : Int) ≠ ((eR : Nat) : Int) := by exact_mod_cast hb2e
      constructor
      · rw [hsfF, hsf2, sfRead_write_other _ _ _ _ hc1e,
          sfRead_write_other _ _ _ _ hc1i]
        exact hse.1
      · rw [hsfF, hsf2, sfRead_write_other _ _ _ _ hc2e,
          sfRead_write_other _ _ _ _ hc2i]
        exact hse.2
  · intro j hj hjo
    rw [htouchF] at hj
    rw [hoccF] at hjo
    have hji : j ≠ i := by
      intro hx
      rw [hx, hocc2i] at hjo
      exact Bool.noConfusion hjo
    rw [hocc2 j hji] at hjo
    have hje : j ≠ eR := by
      intro hx
      rw [hx, heRun] at hjo
      exact Bool.noConfusion hjo
    have hcji : ((j : Nat) : Int) ≠ ((i : Nat) : Int) := by exact_mod_cast hji
    have hcje : ((j : Nat) : Int) ≠ ((eR : Nat) : Int) := by exact_mod_cast hje
    rw [hsfF, hsf2, sfWrite_cell_other _ _ _ hcje, sfWrite_cell_other _ _ _ hcji]
    exact hI.sfOcc j hj hjo
  · intro p hp
    rw [htouchF] at hp
    have hpi : p ≠ ((i : Nat) : Int) := by
      rcases hp with h1 | h2
      · intro hx
        rw [hx] at h1
        omega
      · intro hx
        rw [hx] at h2
        omega
    have hpe : p ≠ ((eR : Nat) : Int) := by
      rcases hp with h1 | h2
      · intro hx
        rw [hx] at h1
        omega
      · intro hx
        rw [hx] at h2
        omega
    rw [hsfF, hsf2, sfWrite_cell_other _ _ _ hpe, sfWrite_cell_other _ _ _ hpi]
    exact hI.sfOut p hp
  · rw [hlist']
    refine freeListOk_congr hOkS ?_ ?_ ?_
    · rw [List.nodup_middle, List.nodup_cons]
      exact ⟨hiNew, hnd⟩
    · rw [hrm]
    · intro j _
      rw [hrm]
  · rw [hlist', hlenF, htouchF]
    have hLenOld := hI.lenEq
    rw [hlist] at hLenOld
    simp only [List.length_append, List.length_cons] at hLenOld ⊢
    have hpos := hI.len_pos hit hocc
    omega
  · rw [htouchF, hcapF]
    exact hI.capOk

/-- Two successive skipblock removals: the first splices out the segment
A of the free-list, the second the segment B of the remainder; both
segments keep their internal chains. -/
theorem removeTwoSegs_spec {c : Colony S T} {P1 Q1 P2 Q2 A B : List Nat}
    {s1 e1 s2 e2 : Nat}
    (hOk : FreeListOk c (P1 ++ A ++ Q1))
    (hNodup : (P1 ++ A ++ Q1).Nodup)
    (hUnocc : ∀ j ∈ P1 ++ A ++ Q1, isOcc c j = false)
    (hAh : A.head? = some s1) (hAl : A.getLast? = some e1)
    (hBh : B.head? = some s2) (hBl : B.getLast? = some e2)
    (hmid : P1 ++ Q1 = P2 ++ B ++ Q2) :
    FreeListOk (removeSkipblockFromSkiplist (removeSkipblockFromSkiplist c s1 e1)
        s2 e2) (P2 ++ Q2) ∧
    LinksOnly c (removeSkipblockFromSkiplist (removeSkipblockFromSkiplist c s1 e1)
        s2 e2) ∧
    List.Chain' (linkRel (removeSkipblockFromSkiplist
        (removeSkipblockFromSkiplist c s1 e1) s2 e2)) A ∧
    List.Chain' (linkRel (removeSkipblockFromSkiplist
        (removeSkipblockFromSkiplist c s1 e1) s2 e2)) B := by
  obtain ⟨hOk1, hLi1, hframe1⟩ := removeSeg_spec hOk hAh hAl hNodup hUnocc
  have hsub1 : (P1 ++ Q1).Sublist (P1 ++ A ++ Q1) := by
    have h1 : Q1.Sublist (A ++ Q1) := List.sublist_append_right A Q1
    have h2 := h1.append_left P1
    have h3 : P1 ++ (A ++ Q1) = P1 ++ A ++ Q1 := by simp
    rw [h3] at h2
    exact h2
  have hnd1 : (P1 ++ Q1).Nodup := List.Nodup.sublist hsub1 hNodup
  have hnd2 : (P2 ++ B ++ Q2).Nodup := by
    rw [← hmid]
    exact hnd1
  have hmem1 : ∀ j ∈ P1 ++ Q1, j ∈ P1 ++ A ++ Q1 := by
    intro j hj
    rcases List.mem_append.1 hj with h | h
    · exact List.mem_append.2 (Or.inl (List.mem_append.2 (Or.inl h)))
    · exact List.mem_append.2 (Or.inr h)
  have hUn1 : ∀ j ∈ P2 ++ B ++ Q2,
      isOcc (removeSkipblockFromSkiplist c s1 e1) j = false := by
    intro j hj
    rw [← hmid] at hj
    rw [hLi1.occ j]
    exact hUnocc j (hmem1 j hj)
  have hOk1' : FreeListOk (removeSkipblockFromSkiplist c s1 e1) (P2 ++ B ++ Q2) := by
    rw [← hmid]
    exact hOk1
  obtain ⟨hOk2, hLi2, hframe2⟩ := removeSeg_spec hOk1' hBh hBl hnd2 hUn1
  have hdisj := List.nodup_append.1 hNodup
  have hdisj2 := List.nodup_append.1 hdisj.1
  have hndA : A.Nodup := hdisj2.2.1
  have hAP1 : ∀ j ∈ A, j ∉ P1 := fun j hj hx => hdisj2.2.2 hx hj
  have hAQ1 : ∀ j ∈ A, j ∉ Q1 := fun j hj hx =>
    hdisj.2.2 (List.mem_append.2 (Or.inr hj)) hx
  have hAnotMid : ∀ j ∈ A, j ∉ P1 ++ Q1 := by
    intro j hj hx
    rcases List.mem_append.1 hx with h | h
    · exact hAP1 j hj h
    · exact hAQ1 j hj h
  have hdisj3 := List.nodup_append.1 hnd2
  have hdisj4 := List.nodup_append.1 hdisj3.1
  have hndB : B.Nodup := hdisj4.2.1
  have hBP2 : ∀ j ∈ B, j ∉ P2 := fun j hj hx => hdisj4.2.2 hx hj
  have hBQ2 : ∀ j ∈ B, j ∉ Q2 := fun j hj hx =>
    hdisj3.2.2 (List.mem_append.2 (Or.inr hj)) hx
  have hslA : ∀ j ∈ A, (removeSkipblockFromSkiplist
      (removeSkipblockFromSkiplist c s1 e1) s2 e2).slots j = c.slots j := by
    intro j hj
    have h1 : some j ≠ P2.getLast? := by
      intro hx
      have hjP : j ∈ P2 := List.mem_of_mem_getLast? hx.symm
      refine hAnotMid j hj ?_
      rw [hmid]
      exact List.mem_append.2 (Or.inl (List.mem_append.2 (Or.inl hjP)))
    have h2 : some j ≠ Q2.head? := by
      intro hx
      have hjQ : j ∈ Q2 := List.mem_of_mem_head? hx.symm
      refine hAnotMid j hj ?_
      rw [hmid]
      exact List.mem_append.2 (Or.inr hjQ)
    rw [hframe2 j h1 h2]
    have h3 : some j ≠ P1.getLast? := by
      intro hx
      exact hAP1 j hj (List.mem_of_mem_getLast? hx.symm)
    have h4 : some j ≠ Q1.head? := by
      intro hx
      exact hAQ1 j hj (List.mem_of_mem_head? hx.symm)
    exact hframe1 j h3 h4
  have hchA2 : List.Chain' (linkRel (removeSkipblockFromSkiplist
      (removeSkipblockFromSkiplist c s1 e1) s2 e2)) A := by
    refine chain'_linkRel_mono hndA ( hOk.chain.infix (List.infix_append P1 A Q1))
      ?_ ?_
    · intro a ha _
      exact slotNext_congr (hslA a ha)
    · intro b hb _
      exact slotPrev_congr (hslA b hb)
  have hchB2 : List.Chain' (linkRel (removeSkipblockFromSkiplist
      (removeSkipblockFromSkiplist c s1 e1) s2 e2)) B := by
    refine chain'_linkRel_mono hndB ( hOk1'.chain.infix (List.infix_append P2 B Q2))
      ?_ ?_
    · intro a ha _
      refine slotNext_congr (hframe2 a ?_ ?_)
      · intro hx
        exact hBP2 a ha (List.mem_of_mem_getLast? hx.symm)
      · intro hx
        exact hBQ2 a ha (List.mem_of_mem_head? hx.symm)
    · intro b hb _
      refine slotPrev_congr (hframe2 b ?_ ?_)
      · intro hx
        exact hBP2 b hb (List.mem_of_mem_getLast? hx.symm)
      · intro hx
        exact hBQ2 b hb (List.mem_of_mem_head? hx.symm)
  exact ⟨hOk2, LinksOnly.trans hLi1 hLi2, hchA2, hchB2⟩

/-- remove_unchecked when both neighbours are skipped: the two adjacent
blocks and the vacated index merge into one block pushed onto the
free-list front. -/
theorem removeCaseD_invH [Inhabited T] {c : Colony S T} {blocks : List (Nat × Nat)}
    (hI : InvH c blocks) {i sL eR : Nat} (hit : i < c.touched)
    (hocc : isOcc c i = true)
    (hreuse : (S.gempty (c.slots i).g).2 = true)
    (hbL : (sL, i - 1) ∈ blocks) (h1i : 1 ≤ i) (hsLle : sL ≤ i - 1)
    (hLval : sfRead .left c.sf ((i : Int) - 1) = i - sL)
    (hbR : (i + 1, eR) ∈ blocks) (hiRle : i + 1 ≤ eR)
    (hRval : sfRead .right c.sf ((i : Int) + 1) = eR - i) :
    ∃ blocks', InvH (removeUnchecked c i).2 blocks' := by
  set A : List Nat := blockIndices (sL, i - 1) with hA
  set B : List Nat := blockIndices (i + 1, eR) with hB
  have hpack : ∃ (P1 Q1 P2 Q2 : List Nat) (rest : List (Nat × Nat)),
      chainOf blocks = P1 ++ A ++ Q1 ∧
      P1 ++ Q1 = P2 ++ B ++ Q2 ∧
      chainOf rest = P2 ++ Q2 ∧
      (∀ b ∈ rest, b ∈ blocks) ∧
      (∀ b ∈ blocks, b = (sL, i - 1) ∨ b = (i + 1, eR) ∨ b ∈ rest) ∧
      (∀ b ∈ rest, ∀ j ∈ A, j ∉ blockIndices b) ∧
      (∀ b ∈ rest, ∀ j ∈ B, j ∉ blockIndices b) := by
    obtain ⟨bs1, bs2, hsplit⟩ := List.append_of_mem hbL
    have hbRne : (i + 1, eR) ≠ (sL, i - 1) := by
      intro hx
      injection hx with h1 h2
      omega
    have hbR' : (i + 1, eR) ∈ bs1 ∨ (i + 1, eR) ∈ bs2 := by
      rw [hsplit] at hbR
      rcases List.mem_append.1 hbR with h | h
      · exact Or.inl h
      · rcases List.mem_cons.1 h with h' | h'
        · exact absurd h' hbRne
        · exact Or.inr h'
    rcases hbR' with hR1 | hR2
    · obtain ⟨bs11, bs12, hsplit2⟩ := List.append_of_mem hR1
      refine ⟨chainOf bs11 ++ (B ++ chainOf bs12), chainOf bs2,
        chainOf bs11, chainOf bs12 ++ chainOf bs2,
        bs11 ++ (bs12 ++ bs2), ?_, ?_, ?_, ?_, ?_, ?_, ?_⟩
      · rw [hsplit, hsplit2]
        simp only [chainOf_append, chainOf_cons]
        rw [← hA, ← hB]
        simp [List.append_assoc]
      · simp [List.append_assoc]
      · simp only [chainOf_append]
      · intro b hb
        rw [hsplit, hsplit2]
        rcases List.mem_append.1 hb with h | h
        · exact List.mem_append.2 (Or.inl (List.mem_append.2 (Or.inl h)))
        · rcases List.mem_append.1 h with h' | h'
          · exact List.mem_append.2 (Or.inl
              (List.mem_append.2 (Or.inr (List.mem_cons_of_mem _ h'))))
          · exact List.mem_append.2 (Or.inr (List.mem_cons_of_mem _ h'))
      · intro b hb
        rw [hsplit, hsplit2] at hb
        rcases List.mem_append.1 hb with h | h
        · rcases List.mem_append.1 h with h' | h'
          · exact Or.inr (Or.inr (List.mem_append.2 (Or.inl h')))
          · rcases List.mem_cons.1 h' with h'' | h''
            · exact Or.inr (Or.inl h'')
            · exact Or.inr (Or.inr (List.mem_append.2
                (Or.inr (List.mem_append.2 (Or.inl h'')))))
        · rcases List.mem_cons.1 h with h'' | h''
          · exact Or.inl h''
          · exact Or.inr (Or.inr (List.mem_append.2
              (Or.inr (List.mem_append.2 (Or.inr h'')))))
      · have hndS : (chainOf ((bs11 ++ (i + 1, eR) :: bs12) ++
            (sL, i - 1) :: bs2)).Nodup := by
          rw [← hsplit2, ← hsplit]
          exact hI.nodup
        intro b hb j hj
        refine nodup_chain_disjoint hndS (hA ▸ hj) b ?_
        rcases List.mem_append.1 hb with h | h
        · exact List.mem_append.2 (Or.inl (List.mem_append.2 (Or.inl h)))
        · rcases List.mem_append.1 h with h' | h'
          · exact List.mem_append.2 (Or.inl
              (List.mem_append.2 (Or.inr (List.mem_cons_of_mem _ h'))))
          · exact List.mem_append.2 (Or.inr h')
      · have hshape : blocks = bs11 ++ (i + 1, eR) :: (bs12 ++ (sL, i - 1) :: bs2) := by
          rw [hsplit, hsplit2]
          simp [List.append_assoc]
        have hndS : (chainOf (bs11 ++ (i + 1, eR) ::
            (bs12 ++ (sL, i - 1) :: bs2))).Nodup := by
          rw [← hshape]
          exact hI.nodup
        intro b hb j hj
        refine nodup_chain_disjoint hndS (hB ▸ hj) b ?_
        rcases List.mem_append.1 hb with h | h
        · exact List.mem_append.2 (Or.inl h)
        · rcases List.mem_append.1 h with h' | h'
          · exact List.mem_append.2 (Or.inr (List.mem_append.2 (Or.inl h')))
          · exact List.mem_append.2 (Or.inr (List.mem_append.2
              (Or.inr (List.mem_cons_of_mem _ h'))))
    · obtain ⟨bs21, bs22, hsplit2⟩ := List.append_of_mem hR2
      refine ⟨chainOf bs1, chainOf bs21 ++ (B ++ chainOf bs22),
        chainOf bs1 ++ chainOf bs21, chainOf bs22,
        bs1 ++ (bs21 ++ bs22), ?_, ?_, ?_, ?_, ?_, ?_, ?_⟩
      · rw [hsplit, hsplit2]
        simp only [chainOf_append, chainOf_cons]
        rw [← hA, ← hB]
        simp [List.append_assoc]
      · simp [List.append_assoc]
      · simp only [chainOf_append]
        simp [List.append_assoc]
      · intro b hb
        rw [hsplit, hsplit2]
        rcases List.mem_append.1 hb with h | h
        · exact List.mem_append.2 (Or.inl h)
        · rcases List.mem_append.1 h with h' | h'
          · exact List.mem_append.2 (Or.inr (List.mem_cons_of_mem _
              (List.mem_append.2 (Or.inl h'))))
          · exact List.mem_append.2 (Or.inr (List.mem_cons_of_mem _
              (List.mem_append.2 (Or.inr (List.mem_cons_of_mem _ h')))))
      · intro b hb
        rw [hsplit, hsplit2] at hb
        rcases List.mem_append.1 hb with h | h
        · exact Or.inr (Or.inr (List.mem_append.2 (Or.inl h)))
        · rcases List.mem_cons.1 h with h' | h'
          · exact Or.inl h'
          · rcases List.mem_append.1 h' with h'' | h''
            · exact Or.inr (Or.inr (List.mem_append.2
                (Or.inr (List.mem_append.2 (Or.inl h'')))))
            · rcases List.mem_cons.1 h'' with h3 | h3
              · exact Or.inr (Or.inl h3)
              · exact Or.inr (Or.inr (List.mem_append.2
                  (Or.inr (List.mem_append.2 (Or.inr h3)))))
      · have hndS : (chainOf (bs1 ++ (sL, i - 1) ::
            (bs21 ++ (i + 1, eR) :: bs22))).Nodup := by
          rw [← hsplit2, ← hsplit]
          exact hI.nodup
        intro b hb j hj
        refine nodup_chain_disjoint hndS (hA ▸ hj) b ?_
        rcases List.mem_append.1 hb with h | h
        · exact List.mem_append.2 (Or.inl h)
        · rcases List.mem_append.1 h with h' | h'
          · exact List.mem_append.2 (Or.inr (List.mem_append.2 (Or.inl h')))
          · exact List.mem_append.2 (Or.inr (List.mem_append.2
              (Or.inr (List.mem_cons_of_mem _ h'))))
      · have hshape : blocks = (bs1 ++ (sL, i - 1) :: bs21) ++
            (i + 1, eR) :: bs22 := by
          rw [hsplit, hsplit2]
          simp [List.append_assoc]
        have hndS : (chainOf ((bs1 ++ (sL, i - 1) :: bs21) ++
            (i + 1, eR) :: bs22)).Nodup := by
          rw [← hshape]
          exact hI.nodup
        intro b hb j hj
        refine nodup_chain_disjoint hndS (hB ▸ hj) b ?_
        rcases List.mem_append.1 hb with h | h
        · exact List.mem_append.2 (Or.inl (List.mem_append.2 (Or.inl h)))
        · rcases List.mem_append.1 h with h' | h'
          · exact List.mem_append.2 (Or.inl
              (List.mem_append.2 (Or.inr (List.mem_cons_of_mem _ h'))))
          · exact List.mem_append.2 (Or.inr h')
  obtain ⟨P1, Q1, P2, Q2, rest, hlist1, hmid, hrest, hmemOld, hclassAll,
    hdisL, hdisR⟩ := hpack
  set c2 : Colony S T :=
    { setSlot c i ⟨(S.gempty (c.slots i).g).1, Payload.unoccupied none none⟩
      with sf := (sfSkip c.sf i).2 } with hc2
  have hrm : (removeUnchecked c i).2 =
      { stitchLeftAndRight c2 i sL eR
        with len := (stitchLeftAndRight c2 i sL eR).len - 1 } := by
    rw [hc2]
    simp only [removeUnchecked]
    rw [hreuse]
    rw [show (setSlot c i
      ⟨(S.gempty (c.slots i).g).1, Payload.unoccupied none none⟩).sf = c.sf from rfl]
    rw [sfSkip_start, sfSkip_stop, hLval, hRval,
      show i - (i - sL) = sL from by omega, show i + (eR - i) = eR from by omega]
    rw [if_neg (show ¬(sL = i) from by omega), if_neg (show ¬(eR = i) from by omega)]
    simp only [eq_self_iff_true, if_true]
  have hsl2 : ∀ j, j ≠ i → c2.slots j = c.slots j := by
    intro j hj
    rw [hc2]
    show (setSlot c i _).slots j = c.slots j
    exact setSlot_slots_other _ _ hj
  have hsl2i : c2.slots i =
      ⟨(S.gempty (c.slots i).g).1, Payload.unoccupied none none⟩ := by
    rw [hc2]
    show (setSlot c i _).slots i = _
    exact setSlot_slots_same _ _ _
  have hocc2i : isOcc c2 i = false := by
    unfold isOcc
    rw [hsl2i]
  have hocc2 : ∀ j, j ≠ i → isOcc c2 j = isOcc c j := fun j hj =>
    isOcc_congr (hsl2 j hj)
  have hnf2 : c2.nextFree = c.nextFree := by rw [hc2]; rfl
  have hsf2 : c2.sf = sfWrite .left
      (sfWrite .right c.sf ((sL : Nat) : Int) (i - sL + (eR - i) + 1))
      ((eR : Nat) : Int) (i - sL + (eR - i) + 1) := by
    rw [hc2]
    show (sfSkip c.sf i).2 = _
    rw [sfSkip_snd, hLval, hRval]
    rw [show i - (i - sL) = sL from by omega, show i + (eR - i) = eR from by omega]
  have htouched2 : c2.touched = c.touched := by rw [hc2]; rfl
  have hlen2 : c2.len = c.len := by rw [hc2]; rfl
  have hcap2 : c2.capacity = c.capacity := by rw [hc2]; rfl
  have hiNotMem : i ∉ chainOf blocks := hI.occ_not_mem hocc
  have hAh : A.head? = some sL := by rw [hA]; exact blockIndices_head hsLle
  have hAl : A.getLast? = some (i - 1) := by rw [hA]; exact blockIndices_getLast hsLle
  have hBh : B.head? = some (i + 1) := by rw [hB]; exact blockIndices_head hiRle
  have hBl : B.getLast? = some eR := by rw [hB]; exact blockIndices_getLast hiRle
  have hnd1 : (P1 ++ A ++ Q1).Nodup := by
    rw [← hlist1]
    exact hI.nodup
  have hOk2 : FreeListOk c2 (P1 ++ A ++ Q1) := by
    rw [← hlist1]
    exact freeListOk_congr hI.flOk hI.nodup hnf2
      (fun j hj => hsl2 j (fun hx => hiNotMem (hx ▸ hj)))
  have hUn2 : ∀ j ∈ P1 ++ A ++ Q1, isOcc c2 j = false := by
    intro j hj
    rw [← hlist1] at hj
    have hji : j ≠ i := fun hx => hiNotMem (hx ▸ hj)
    rw [hocc2 j hji]
    exact (hI.memFacts j hj).1
  obtain ⟨hOkM, hLiM, hchAM, hchBM⟩ :=
    removeTwoSegs_spec hOk2 hnd1 hUn2 hAh hAl hBh hBl hmid
  have hperm : List.Perm (A ++ (B ++ (P2 ++ Q2))) (P1 ++ A ++ Q1) := by
    refine Multiset.coe_eq_coe.1 ?_
    have hmidM : ((P1 ++ Q1 : List Nat) : Multiset Nat) =
        ((P2 ++ B ++ Q2 : List Nat) : Multiset Nat) := by rw [hmid]
    simp only [← Multiset.coe_add] at hmidM ⊢
    rw [show ((P1 : Multiset Nat) + A + Q1) = A + (P1 + Q1) from by abel, hmidM]
    abel
  have hNdNew : ((A ++ i :: B) ++ (P2 ++ Q2)).Nodup := by
    have hshape : (A ++ i :: B) ++ (P2 ++ Q2) = A ++ i :: (B ++ (P2 ++ Q2)) := by
      simp
    rw [hshape, List.nodup_middle, List.nodup_cons]
    constructor
    · intro hx
      exact hiNotMem (hlist1 ▸ hperm.mem_iff.1 hx)
    · exact (hperm.nodup_iff).2 hnd1
  have hmemNew : ∀ j ∈ (A ++ i :: B) ++ (P2 ++ Q2),
      j = i ∨ j ∈ chainOf blocks := by
    intro j hj
    by_cases hji : j = i
    · exact Or.inl hji
    · refine Or.inr ?_
      rw [hlist1]
      refine hperm.mem_iff.1 ?_
      rcases List.mem_append.1 hj with h | h
      · rcases List.mem_append.1 h with h' | h'
        · exact List.mem_append.2 (Or.inl h')
        · rcases List.mem_cons.1 h' with h'' | h''
          · exact absurd h'' hji
          · exact List.mem_append.2 (Or.inr (List.mem_append.2 (Or.inl h'')))
      · exact List.mem_append.2 (Or.inr (List.mem_append.2 (Or.inr h)))
  have hUnNew : ∀ j ∈ (A ++ i :: B) ++ (P2 ++ Q2),
      isOcc (removeSkipblockFromSkiplist (removeSkipblockFromSkiplist c2 sL
        (i - 1)) (i + 1) eR) j = false := by
    intro j hj
    rw [hLiM.occ j]
    rcases hmemNew j hj with hji | hjm
    · rw [hji]
      exact hocc2i
    · have hji : j ≠ i := fun hx => hiNotMem (hx ▸ hjm)
      rw [hocc2 j hji]
      exact (hI.memFacts j hjm).1
  obtain ⟨hOkF, hLiF0⟩ := mergeFront_spec hOkM hchAM hchBM hAh hAl hBh hBl
    hNdNew hUnNew
  have hLiC : LinksOnly c2 (setPayload (setPrev (setNext (addSkipblockToSkiplist
      (removeSkipblockFromSkiplist (removeSkipblockFromSkiplist c2 sL (i - 1))
        (i + 1) eR) sL eR) (i - 1) (some i)) (i + 1) (some i)) i
      (.unoccupied (some (i - 1)) (some (i + 1)))) :=
    LinksOnly.trans hLiM hLiF0
  have hstitch : stitchLeftAndRight c2 i sL eR =
      setPayload (setPrev (setNext (addSkipblockToSkiplist
        (removeSkipblockFromSkiplist (removeSkipblockFromSkiplist c2 sL (i - 1))
          (i + 1) eR) sL eR) (i - 1) (some i)) (i + 1) (some i)) i
        (.unoccupied (some (i - 1)) (some (i + 1))) := rfl
  have hoccF : ∀ j, isOcc (removeUnchecked c i).2 j = isOcc c2 j := by
    intro j
    rw [hrm, hstitch]
    exact hLiC.occ j
  have hsfF : (removeUnchecked c i).2.sf = c2.sf := by
    rw [hrm, hstitch]
    exact hLiC.sfSame
  have htouchF : (removeUnchecked c i).2.touched = c.touched := by
    rw [hrm]
    show (stitchLeftAndRight c2 i sL eR).touched = c.touched
    rw [hstitch, hLiC.touchedSame, htouched2]
  have hlenF : (removeUnchecked c i).2.len = c.len - 1 := by
    rw [hrm]
    show (stitchLeftAndRight c2 i sL eR).len - 1 = c.len - 1
    rw [hstitch, hLiC.lenSame, hlen2]
  have hcapF : (removeUnchecked c i).2.capacity = c.capacity := by
    rw [hrm]
    show (stitchLeftAndRight c2 i sL eR).capacity = c.capacity
    rw [hstitch, hLiC.capSame, hcap2]
  have hbind : blockIndices (sL, eR) = A ++ i :: B := by
    rw [hA, hB]
    exact blockIndices_merge h1i hsLle hiRle
  have hchEq : chainOf ((sL, eR) :: rest) = (A ++ i :: B) ++ (P2 ++ Q2) := by
    rw [chainOf_cons, hbind, hrest]
  have hefL := hI.ends_facts hbL
  have hefR := hI.ends_facts hbR
  have hsLun : isOcc c sL = false := hefL.1
  have heRun : isOcc c eR = false := hefR.2.1
  have hsLt : sL < c.touched := by
    have := hefL.2.2.2
    omega
  have heRt : eR < c.touched := hefR.2.2.2
  refine ⟨(sL, eR) :: rest, ?_, ?_, ?_, ?_, ?_, ?_, ?_, ?_, ?_, ?_, ?_⟩
  · intro b hb
    rcases List.mem_cons.1 hb with hbi | hbm
    · subst hbi
      refine ⟨by omega, ?_⟩
      rw [htouchF]
      exact heRt
    · have hle := hI.blocksLe b (hmemOld b hbm)
      refine ⟨hle.1, ?_⟩
      rw [htouchF]
      exact hle.2
  · intro j hj
    rw [htouchF] at hj
    rw [hoccF j]
    by_cases hji : j = i
    · subst hji
      rw [hocc2i]
      refine ⟨fun _ => ⟨(sL, eR), List.mem_cons_self _ _, ⟨by omega, by omega⟩⟩,
        fun _ => rfl⟩
    · rw [hocc2 j hji, hI.cover j hj]
      constructor
      · rintro ⟨b, hb, hjb⟩
        rcases hclassAll b hb with hbi | hbi | hbm
        · subst hbi
          refine ⟨(sL, eR), List.mem_cons_self _ _, ?_⟩
          unfold inBlock at hjb ⊢
          simp only at hjb ⊢
          omega
        · subst hbi
          refine ⟨(sL, eR), List.mem_cons_self _ _, ?_⟩
          unfold inBlock at hjb ⊢
          simp only at hjb ⊢
          omega
        · exact ⟨b, List.mem_cons_of_mem _ hbm, hjb⟩
      · rintro ⟨b, hb, hjb⟩
        rcases List.mem_cons.1 hb with hbi | hbm
        · subst hbi
          unfold inBlock at hjb
          simp only at hjb
          by_cases hjlt : j < i
          · refine ⟨(sL, i - 1), hbL, ?_⟩
            unfold inBlock
            simp only
            omega
          · refine ⟨(i + 1, eR), hbR, ?_⟩
            unfold inBlock
            simp only
            omega
        · exact ⟨b, hmemOld b hbm, hjb⟩
  · intro b hb
    rcases List.mem_cons.1 hb with hbi | hbm
    · subst hbi
      simp only
      rcases hI.maxLeft (sL, i - 1) hbL with h0 | ho
      · exact Or.inl h0
      · refine Or.inr ?_
        rw [hoccF, hocc2 _ (show sL - 1 ≠ i by omega)]
        exact ho
    · rcases hI.maxLeft b (hmemOld b hbm) with h0 | ho
      · exact Or.inl h0
      · have hef := hI.ends_facts (hmemOld b hbm)
        have hb1pos : 1 ≤ b.1 := by
          by_contra hc0
          have hb10 : b.1 = 0 := by omega
          have h1 := hef.1
          rw [hb10] at h1 ho
          simp only [Nat.zero_sub] at ho
          rw [ho] at h1
          exact Bool.noConfusion h1
        have hb1i : b.1 - 1 ≠ i := by
          intro hx
          have hb1 : b.1 = i + 1 := by omega
          refine hdisR b hbm (i + 1)
            (hB ▸ mem_blockIndices.2 ⟨le_refl _, hiRle⟩) ?_
          refine mem_blockIndices.2 ?_
          unfold inBlock
          have hle := hI.blocksLe b (hmemOld b hbm)
          omega
        refine Or.inr ?_
        rw [hoccF, hocc2 _ hb1i]
        exact ho
  · intro b hb
    rcases List.mem_cons.1 hb with hbi | hbm
    · subst hbi
      simp only
      rcases hI.maxRight (i + 1, eR) hbR with ht | ho
      · refine Or.inl ?_
        rw [htouchF]
        exact ht
      · refine Or.inr ?_
        rw [hoccF, hocc2 (eR + 1) (by omega)]
        exact ho
    · rcases hI.maxRight b (hmemOld b hbm) with ht | ho
      · refine Or.inl ?_
        rw [htouchF]
        exact ht
      · have hb2i : b.2 + 1 ≠ i := by
          intro hx
          refine hdisL b hbm (i - 1)
            (hA ▸ mem_blockIndices.2 ⟨hsLle, le_refl _⟩) ?_
          refine mem_blockIndices.2 ?_
          unfold inBlock
          have hle := hI.blocksLe b (hmemOld b hbm)
          omega
        refine Or.inr ?_
        rw [hoccF, hocc2 _ hb2i]
        exact ho
  · rw [hchEq]
    exact hNdNew
  · intro b hb
    rcases List.mem_cons.1 hb with hbi | hbm
    · subst hbi
      simp only
      constructor
      · have hcse : ((sL : Nat) : Int) ≠ ((eR : Nat) : Int) := by
          exact_mod_cast (show sL ≠ eR by omega)
        rw [hsfF, hsf2, sfRead_write_other _ _ _ _ hcse, sfRead_write_same]
        omega
      · rw [hsfF, hsf2, sfRead_write_same]
        omega
    · have hse := hI.sfEnds b (hmemOld b hbm)
      have hle := hI.blocksLe b (hmemOld b hbm)
      have hb1s : b.1 ≠ sL := by
        intro hx
        refine hdisL b hbm sL (hA ▸ mem_blockIndices.2 ⟨le_refl _, hsLle⟩) ?_
        exact mem_blockIndices.2 (by unfold inBlock; omega)
      have hb2s : b.2 ≠ sL := by
        intro hx
        refine hdisL b hbm sL (hA ▸ mem_blockIndices.2 ⟨le_refl _, hsLle⟩) ?_
        exact mem_blockIndices.2 (by unfold inBlock; omega)
      have hb1e : b.1 ≠ eR := by
        intro hx
        refine hdisR b hbm eR (hB ▸ mem_blockIndices.2 ⟨hiRle, le_refl _⟩) ?_
        exact mem_blockIndices.2 (by unfold inBlock; omega)
      have hb2e : b.2 ≠ eR := by
        intro hx
        refine hdisR b hbm eR (hB ▸ mem_blockIndices.2 ⟨hiRle, le_refl _⟩) ?_
        exact mem_blockIndices.2 (by unfold inBlock; omega)
      have hc1s : ((b.1 : Nat) : Int) ≠ ((sL : Nat) : Int) := by exact_mod_cast hb1s
      have hc2s : ((b.2 : Nat) : Int) ≠ ((sL : Nat) : Int) := by exact_mod_cast hb2s
      have hc1e : ((b.1 : Nat) : Int) ≠ ((eR : Nat) : Int) := by exact_mod_cast hb1e
      have hc2e : ((b.2 : Nat) : Int) ≠ ((eR : Nat) : Int) := by exact_mod_cast hb2e
      constructor
      · rw [hsfF, hsf2, sfRead_write_other _ _ _ _ hc1e,
          sfRead_write_other _ _ _ _ hc1s]
        exact hse.1
      · rw [hsfF, hsf2, sfRead_write_other _ _ _ _ hc2e,
          sfRead_write_other _ _ _ _ hc2s]
        exact hse.2
  · intro j hj hjo
    rw [htouchF] at hj
    rw [hoccF] at hjo
    have hji : j ≠ i := by
      intro hx
      rw [hx, hocc2i] at hjo
      exact Bool.noConfusion hjo
    rw [hocc2 j hji] at hjo
    have hjs : j ≠ sL := by
      intro hx
      rw [hx, hsLun] at hjo
      exact Bool.noConfusion hjo
    have hje : j ≠ eR := by
      intro hx
      rw [hx, heRun] at hjo
      exact Bool.noConfusion hjo
    have hcjs : ((j : Nat) : Int) ≠ ((sL : Nat) : Int) := by exact_mod_cast hjs
    have hcje : ((j : Nat) : Int) ≠ ((eR : Nat) : Int) := by exact_mod_cast hje
    rw [hsfF, hsf2, sfWrite_cell_other _ _ _ hcje, sfWrite_cell_other _ _ _ hcjs]
    exact hI.sfOcc j hj hjo
  · intro p hp
    rw [htouchF] at hp
    have hps : p ≠ ((sL : Nat) : Int) := by
      rcases hp with h1 | h2
      · intro hx
        rw [hx] at h1
        omega
      · intro hx
        rw [hx] at h2
        omega
    have hpe : p ≠ ((eR : Nat) : Int) := by
      rcases hp with h1 | h2
      · intro hx
        rw [hx] at h1
        omega
      · intro hx
        rw [hx] at h2
        omega
    rw [hsfF, hsf2, sfWrite_cell_other _ _ _ hpe, sfWrite_cell_other _ _ _ hps]
    exact hI.sfOut p hp
  · rw [hchEq]
    refine freeListOk_congr hOkF hNdNew ?_ ?_
    · rw [hrm, hstitch]
    · intro j _
      rw [hrm, hstitch]
  · rw [hchEq, hlenF, htouchF]
    have hLenOld := hI.lenEq
    rw [hlist1] at hLenOld
    have hmidLen : (P1 ++ Q1).length = (P2 ++ B ++ Q2).length := by rw [hmid]
    simp only [List.length_append, List.length_cons] at hLenOld hmidLen ⊢
    have hpos := hI.len_pos hit hocc
    omega
  · rw [htouchF, hcapF]
    exact hI.capOk

/-- remove_unchecked preserves the invariant (with reuse permitted). -/
theorem removeUnchecked_invH [Inhabited T] {c : Colony S T}
    {blocks : List (Nat × Nat)} (hI : InvH c blocks) {i : Nat}
    (hit : i < c.touched) (hocc : isOcc c i = true)
    (hreuse : (S.gempty (c.slots i).g).2 = true) :
    ∃ blocks', InvH (removeUnchecked c i).2 blocks' := by
  rcases left_neighbor_analysis hI hit hocc with ⟨hL0, hLs⟩ |
    ⟨sL, hbL, h1i, hsLle, _, hLval⟩
  · rcases right_neighbor_analysis hI hit hocc with ⟨hR0, hRs⟩ |
      ⟨eR, hbR, hiRle, _, hRval⟩
    · exact ⟨(i, i) :: blocks, removeCaseA_invH hI hit hocc hreuse hL0 hLs hR0 hRs⟩
    · exact removeCaseC_invH hI hit hocc hreuse hbR hiRle hRval hL0 hLs
  · rcases right_neighbor_analysis hI hit hocc with ⟨hR0, hRs⟩ |
      ⟨eR, hbR, hiRle, _, hRval⟩
    · exact removeCaseB_invH hI hit hocc hreuse hbL h1i hsLle hLval hR0 hRs
    · exact removeCaseD_invH hI hit hocc hreuse hbL h1i hsLle hLval hbR hiRle hRval

/-- The invariant only depends on slots, sf, touched, len, nextFree and
a capacity bound. -/
theorem InvH.transfer {c c1 : Colony S T} {blocks : List (Nat × Nat)}
    (hI : InvH c blocks) (hslots : ∀ j, c1.slots j = c.slots j)
    (hsf : c1.sf = c.sf) (htou : c1.touched = c.touched)
    (hlen : c1.len = c.len) (hnf : c1.nextFree = c.nextFree)
    (hcap : c.capacity ≤ c1.capacity) : InvH c1 blocks := by
  have hocc : ∀ j, isOcc c1 j = isOcc c j := fun j => isOcc_congr (hslots j)
  refine ⟨?_, ?_, ?_, ?_, hI.nodup, ?_, ?_, ?_, ?_, ?_, ?_⟩
  · intro b hb
    have := hI.blocksLe b hb
    rw [htou]
    exact this
  · intro j hj
    rw [htou] at hj
    rw [hocc j]
    exact hI.cover j hj
  · intro b hb
    rcases hI.maxLeft b hb with h | h
    · exact Or.inl h
    · rw [hocc]
      exact Or.inr h
  · intro b hb
    rcases hI.maxRight b hb with h | h
    · rw [htou]
      exact Or.inl h
    · rw [hocc]
      exact Or.inr h
  · intro b hb
    rw [hsf]
    exact hI.sfEnds b hb
  · intro j hj hjo
    rw [htou] at hj
    rw [hocc] at hjo
    rw [hsf]
    exact hI.sfOcc j hj hjo
  · intro p hp
    rw [htou] at hp
    rw [hsf]
    exact hI.sfOut p hp
  · exact freeListOk_congr hI.flOk hI.nodup hnf (fun j _ => hslots j)
  · rw [hlen, htou]
    exact hI.lenEq
  · rw [htou]
    exact le_trans hI.capOk hcap

/-- The fields of a successful do_reserve. -/
theorem doReserve_spec {sizeT : Nat} {c : Colony S T} {k a : Nat}
    {c1 : Colony S T} {k1 : Nat}
    (h : doReserve sizeT c k a = some (c1, k1)) :
    c1.slots = c.slots ∧ c1.sf = resizeSf c.sf c.touched ∧
    c1.touched = c.touched ∧ c1.len = c.len ∧ c1.nextFree = c.nextFree ∧
    c1.capacity = max (max (c.len + a) (c.capacity * 2)) (minNonZeroCap sizeT) ∧
    c.len + a < MAX_CAPACITY := by
  unfold doReserve at h
  by_cases hcap : MAX_CAPACITY ≤ c.len + a
  · rw [if_pos hcap] at h
    exact Option.noConfusion h
  · rw [if_neg hcap] at h
    simp only [Option.bind_eq_some] at h
    obtain ⟨di, hdi, hf⟩ := h
    simp only [Option.some.injEq, Prod.mk.injEq] at hf
    obtain ⟨hc1eq, hk⟩ := hf
    subst hc1eq
    cases hd1 : di.1 with
    | some idv =>
        exact ⟨rfl, rfl, rfl, rfl, rfl, rfl, by omega⟩
    | none =>
        exact ⟨rfl, rfl, rfl, rfl, rfl, rfl, by omega⟩

/-- reserve preserves the invariant over the same blocks. -/
theorem reserveOp_invH [Inhabited T] {sizeT : Nat} {c : Colony S T}
    {blocks : List (Nat × Nat)} {k a : Nat} {c1 : Colony S T} {k1 : Nat}
    (hI : InvH c blocks) (h : reserveOp sizeT c k a = some (c1, k1)) :
    InvH c1 blocks := by
  unfold reserveOp at h
  by_cases hcond : c.capacity - c.len < a
  · rw [if_pos hcond] at h
    obtain ⟨hslots, hsf, htou, hlen, hnf, hcap, _⟩ := doReserve_spec h
    have hsfEq : c1.sf = c.sf := by
      rw [hsf]
      unfold resizeSf
      have hcell : (fun i => if i ≤ (c.touched : Int) then c.sf.cell i else 0) =
          c.sf.cell := by
        funext i
        by_cases hle : i ≤ (c.touched : Int)
        · simp [hle]
        · simp only [if_neg hle]
          exact (hI.sfOut i (Or.inr (by omega))).symm
      rw [hcell]
    refine hI.transfer (fun j => congrFun hslots j) hsfEq htou hlen hnf ?_
    rw [hcap]
    have h1 : c.capacity ≤ c.capacity * 2 := by omega
    exact le_trans h1 (le_trans (le_max_right _ _) (le_max_left _ _))
  · rw [if_neg hcond] at h
    injection h with h2
    injection h2 with h3 h4
    subst h3
    exact hI

/-- A colony whose free list is empty has no blocks. -/
theorem InvH.blocks_nil {c : Colony S T} {blocks : List (Nat × Nat)}
    (hI : InvH c blocks) (h : c.nextFree = none) : blocks = [] := by
  have hroot := hI.flOk.root
  rw [h] at hroot
  have hchainNil : chainOf blocks = [] := List.head?_eq_none_iff.1 hroot.symm
  cases blocks with
  | nil => rfl
  | cons b bs =>
      exfalso
      have hle := hI.blocksLe b (List.mem_cons_self _ _)
      have hm : b.1 ∈ chainOf (b :: bs) :=
        mem_chainOf.2 ⟨b, List.mem_cons_self _ _, ⟨le_refl _, hle.1⟩⟩
      rw [hchainNil] at hm
      simp at hm

/-- The fresh colony satisfies the invariant with no blocks. -/
theorem init_invH [Inhabited T] : InvH (initColony S T) ([] : List (Nat × Nat)) := by
  refine ⟨?_, ?_, ?_, ?_, List.nodup_nil, ?_, ?_, ?_, ⟨rfl, List.chain'_nil, ?_, ?_⟩,
    rfl, le_refl 0⟩
  · intro b hb
    simp at hb
  · intro j hj
    simp [initColony] at hj
  · intro b hb
    simp at hb
  · intro b hb
    simp at hb
  · intro b hb
    simp at hb
  · intro j hj
    simp [initColony] at hj
  · intro p _
    rfl
  · intro j hj
    simp [chainOf] at hj
  · intro j hj
    simp [chainOf] at hj

/-- insert_at_end_unchecked preserves the blockless invariant. -/
theorem insertAtEnd_invH {c : Colony S T} {v : T} (hI : InvH c [])
    (hcap : c.touched < c.capacity) :
    InvH (insertAtEndUnchecked c v).1 ([] : List (Nat × Nat)) := by
  have hlenEq : c.len = c.touched := by
    have := hI.lenEq
    simpa using this
  have hslots : ∀ j, j ≠ c.touched →
      (insertAtEndUnchecked c v).1.slots j = c.slots j := by
    intro j hj
    show (setSlot c c.touched _).slots j = c.slots j
    exact setSlot_slots_other _ _ hj
  have hslotT : (insertAtEndUnchecked c v).1.slots c.touched =
      ⟨S.gnew, Payload.occupied v⟩ := by
    show (setSlot c c.touched _).slots c.touched = _
    exact setSlot_slots_same _ _ _
  have hoccT : isOcc (insertAtEndUnchecked c v).1 c.touched = true := by
    unfold isOcc
    rw [hslotT]
  have hocc : ∀ j, j ≠ c.touched →
      isOcc (insertAtEndUnchecked c v).1 j = isOcc c j := fun j hj =>
    isOcc_congr (hslots j hj)
  have htou : (insertAtEndUnchecked c v).1.touched = c.touched + 1 := rfl
  have hsf : (insertAtEndUnchecked c v).1.sf = c.sf := rfl
  have hnf : (insertAtEndUnchecked c v).1.nextFree = c.nextFree := rfl
  have hlen : (insertAtEndUnchecked c v).1.len = c.len + 1 := rfl
  have hcp : (insertAtEndUnchecked c v).1.capacity = c.capacity := rfl
  refine ⟨?_, ?_, ?_, ?_, List.nodup_nil, ?_, ?_, ?_, ?_, ?_, ?_⟩
  · intro b hb
    simp at hb
  · intro j hj
    rw [htou] at hj
    constructor
    · intro hu
      by_cases hjt : j = c.touched
      · rw [hjt, hoccT] at hu
        exact Bool.noConfusion hu
      · rw [hocc j hjt] at hu
        have := (hI.cover j (by omega)).1 hu
        obtain ⟨b, hb, _⟩ := this
        simp at hb
    · rintro ⟨b, hb, _⟩
      simp at hb
  · intro b hb
    simp at hb
  · intro b hb
    simp at hb
  · intro b hb
    simp at hb
  · intro j hj hjo
    rw [htou] at hj
    rw [hsf]
    by_cases hjt : j = c.touched
    · subst hjt
      exact hI.sfOut _ (Or.inr (by omega))
    · exact hI.sfOcc j (by omega) (by rw [← hocc j hjt]; exact hjo)
  · intro p hp
    rw [htou] at hp
    rw [hsf]
    refine hI.sfOut p ?_
    rcases hp with h | h
    · exact Or.inl h
    · exact Or.inr (by omega)
  · refine ⟨?_, List.chain'_nil, ?_, ?_⟩
    · rw [hnf, hI.flOk.root]
    · intro j hj
      simp [chainOf] at hj
    · intro j hj
      simp [chainOf] at hj
  · rw [hlen, htou]
    simp [chainOf]
    omega
  · rw [htou, hcp]
    omega

/-- insert_into_free fills the head of the first skipblock: the block
shrinks by one from the left (or disappears), and the head leaves the
free-list. -/
theorem insertIntoFree_invH [Inhabited T] {c : Colony S T} {f e : Nat}
    {bs : List (Nat × Nat)} {v : T}
    (hI : InvH c ((f, e) :: bs)) :
    ∃ blocks', InvH (insertIntoFree c f v).1 blocks' := by
  have hle := hI.blocksLe (f, e) (List.mem_cons_self _ _)
  have hfe : f ≤ e := hle.1
  have het : e < c.touched := hle.2
  have hfT : f < c.touched := by omega
  have hfmem : f ∈ blockIndices (f, e) := mem_blockIndices.2 ⟨le_refl _, hfe⟩
  have hemem : e ∈ blockIndices (f, e) := mem_blockIndices.2 ⟨hfe, le_refl _⟩
  have hfun : isOcc c f = false :=
    (hI.memFacts f (mem_chainOf.2 ⟨(f, e), List.mem_cons_self _ _,
      ⟨le_refl _, hfe⟩⟩)).1
  have heun : isOcc c e = false :=
    (hI.memFacts e (mem_chainOf.2 ⟨(f, e), List.mem_cons_self _ _,
      ⟨hfe, le_refl _⟩⟩)).1
  have hdisb : ∀ b ∈ bs, ∀ j ∈ blockIndices (f, e), j ∉ blockIndices b := by
    intro b hb j hj
    exact @nodup_chain_disjoint [] bs (f, e) hI.nodup j hj b hb
  have hchain : chainOf ((f, e) :: bs) =
      f :: (blockIndices (f + 1, e) ++ chainOf bs) := by
    rw [chainOf_cons, blockIndices_split_head hfe]
    simp [List.cons_append]
  set rest : List Nat := blockIndices (f + 1, e) ++ chainOf bs with hrestDef
  set c1 : Colony S T := { c with sf := sfUnskipLeftmost c.sf f } with hc1
  set c2 : Colony S T := removeSkipblockFromSkiplist c1 f f with hc2
  have hres : (insertIntoFree c f v).1 =
      setSlot { c2 with len := c2.len + 1 } f
        ⟨S.gfill (c2.slots f).g, Payload.occupied v⟩ := rfl
  have hOk1 : FreeListOk c1 ([] ++ [f] ++ rest) := by
    have h0 : FreeListOk c1 (chainOf ((f, e) :: bs)) :=
      freeListOk_congr hI.flOk hI.nodup rfl (fun j _ => rfl)
    rw [hchain] at h0
    exact h0
  have hnd1 : (([] : List Nat) ++ [f] ++ rest).Nodup := by
    have := hI.nodup
    rw [hchain] at this
    exact this
  have hUn1 : ∀ j ∈ ([] : List Nat) ++ [f] ++ rest, isOcc c1 j = false := by
    intro j hj
    have hj' : j ∈ chainOf ((f, e) :: bs) := by
      rw [hchain]
      exact hj
    show isOcc c j = false
    exact (hI.memFacts j hj').1
  obtain ⟨hOk2, hLi2, hframe2⟩ := @removeSeg_spec S T c1 [] [f] rest f f hOk1
    (by rfl) (by rfl) hnd1 hUn1
  have hfrest : f ∉ rest := by
    have := hI.nodup
    rw [hchain] at this
    exact (List.nodup_cons.1 this).1
  have hndrest : rest.Nodup := by
    have := hI.nodup
    rw [hchain] at this
    exact (List.nodup_cons.1 this).2
  have hocc2c : ∀ j, isOcc c2 j = isOcc c j := fun j => hLi2.occ j
  have hsl4 : ∀ j, j ≠ f → (insertIntoFree c f v).1.slots j = c2.slots j := by
    intro j hj
    rw [hres, setSlot_slots_other _ _ hj]
  have hsl4f : (insertIntoFree c f v).1.slots f =
      ⟨S.gfill (c2.slots f).g, Payload.occupied v⟩ := by
    rw [hres, setSlot_slots_same]
  have hocc4f : isOcc (insertIntoFree c f v).1 f = true := by
    unfold isOcc
    rw [hsl4f]
  have hocc4 : ∀ j, j ≠ f →
      isOcc (insertIntoFree c f v).1 j = isOcc c j := by
    intro j hj
    rw [isOcc_congr (hsl4 j hj), hocc2c j]
  have htou4 : (insertIntoFree c f v).1.touched = c.touched := by
    rw [hres]
    exact hLi2.touchedSame
  have hlen4 : (insertIntoFree c f v).1.len = c.len + 1 := by
    rw [hres]
    show c2.len + 1 = c.len + 1
    rw [hLi2.lenSame]
  have hcap4 : (insertIntoFree c f v).1.capacity = c.capacity := by
    rw [hres]
    exact hLi2.capSame
  have hsf4 : (insertIntoFree c f v).1.sf = sfUnskipLeftmost c.sf f := by
    rw [hres]
    exact hLi2.sfSame
  have hnf4 : (insertIntoFree c f v).1.nextFree = c2.nextFree := by
    rw [hres]
    rfl
  have hsize : sfRead .right c.sf ((f : Nat) : Int) = e + 1 - f := by
    have := (hI.sfEnds (f, e) (List.mem_cons_self _ _)).1
    simpa using this
  have hlenEqOld : c.len + (rest.length + 1) = c.touched := by
    have := hI.lenEq
    rw [hchain] at this
    simpa using this
  have hflOk4 : FreeListOk (insertIntoFree c f v).1 rest := by
    refine freeListOk_congr hOk2 hndrest hnf4 ?_
    intro j hj
    exact hsl4 j (fun hx => hfrest (hx ▸ hj))
  by_cases hfe2 : f = e
  · -- the head block was a singleton: it disappears
    subst hfe2
    have hrestEq : rest = chainOf bs := by
      rw [hrestDef]
      have h0 : blockIndices (f + 1, f) = [] := by
        unfold blockIndices
        simp only
        rw [show f + 1 - (f + 1) = 0 from by omega]
        rfl
      rw [h0]
      rfl
    have hsfU : sfUnskipLeftmost c.sf f = sfWrite .right c.sf ((f : Nat) : Int) 0 := by
      unfold sfUnskipLeftmost
      rw [hsize]
      norm_num
    refine ⟨bs, ?_, ?_, ?_, ?_, ?_, ?_, ?_, ?_, ?_, ?_, ?_⟩
    · intro b hb
      have := hI.blocksLe b (List.mem_cons_of_mem _ hb)
      rw [htou4]
      exact this
    · intro j hj
      rw [htou4] at hj
      by_cases hjf : j = f
      · rw [hjf]
        constructor
        · intro hx
          rw [hocc4f] at hx
          exact Bool.noConfusion hx
        · rintro ⟨b, hb, hjb⟩
          exact absurd (mem_blockIndices.2 hjb) (hdisb b hb f hfmem)
      · rw [hocc4 j hjf, hI.cover j hj]
        constructor
        · rintro ⟨b, hb, hjb⟩
          rcases List.mem_cons.1 hb with hbi | hbm
          · exfalso
            rw [hbi] at hjb
            unfold inBlock at hjb
            simp only at hjb
            omega
          · exact ⟨b, hbm, hjb⟩
        · rintro ⟨b, hb, hjb⟩
          exact ⟨b, List.mem_cons_of_mem _ hb, hjb⟩
    · intro b hb
      rcases hI.maxLeft b (List.mem_cons_of_mem _ hb) with h0 | ho
      · exact Or.inl h0
      · have hb1f : b.1 - 1 ≠ f := by
          intro hx
          rw [hx, hfun] at ho
          exact Bool.noConfusion ho
        refine Or.inr ?_
        rw [hocc4 _ hb1f]
        exact ho
    · intro b hb
      rcases hI.maxRight b (List.mem_cons_of_mem _ hb) with ht | ho
      · refine Or.inl ?_
        rw [htou4]
        exact ht
      · have hb2f : b.2 + 1 ≠ f := by
          intro hx
          rw [hx, hfun] at ho
          exact Bool.noConfusion ho
        refine Or.inr ?_
        rw [hocc4 _ hb2f]
        exact ho
    · have := hndrest
      rw [hrestEq] at this
      exact this
    · intro b hb
      have hse := hI.sfEnds b (List.mem_cons_of_mem _ hb)
      have hb1f : b.1 ≠ f := by
        intro hx
        refine hdisb b hb f hfmem ?_
        have hlb := hI.blocksLe b (List.mem_cons_of_mem _ hb)
        exact mem_blockIndices.2 (by unfold inBlock; omega)
      have hb2f : b.2 ≠ f := by
        intro hx
        refine hdisb b hb f hfmem ?_
        have hlb := hI.blocksLe b (List.mem_cons_of_mem _ hb)
        exact mem_blockIndices.2 (by unfold inBlock; omega)
      have hc1f : ((b.1 : Nat) : Int) ≠ ((f : Nat) : Int) := by exact_mod_cast hb1f
      have hc2f : ((b.2 : Nat) : Int) ≠ ((f : Nat) : Int) := by exact_mod_cast hb2f
      constructor
      · rw [hsf4, hsfU, sfRead_write_other _ _ _ _ hc1f]
        exact hse.1
      · rw [hsf4, hsfU, sfRead_write_other _ _ _ _ hc2f]
        exact hse.2
    · intro j hj hjo
      rw [htou4] at hj
      rw [hsf4, hsfU]
      by_cases hjf : j = f
      · rw [hjf]
        rw [sfWrite_cell_same]
        norm_num
      · have hcjf : ((j : Nat) : Int) ≠ ((f : Nat) : Int) := by exact_mod_cast hjf
        rw [sfWrite_cell_other _ _ _ hcjf]
        rw [hocc4 j hjf] at hjo
        exact hI.sfOcc j hj hjo
    · intro p hp
      rw [htou4] at hp
      have hpf : p ≠ ((f : Nat) : Int) := by
        rcases hp with h1 | h2
        · intro hx
          rw [hx] at h1
          omega
        · intro hx
          rw [hx] at h2
          omega
      rw [hsf4, hsfU, sfWrite_cell_other _ _ _ hpf]
      exact hI.sfOut p hp
    · have := hflOk4
      rw [hrestEq] at this
      exact this
    · rw [hlen4, htou4]
      have hrl : (chainOf bs).length = rest.length := by rw [hrestEq]
      omega
    · rw [htou4, hcap4]
      exact hI.capOk
  · -- the head block shrinks by one from the left
    have hflt : f < e := by omega
    have hsfU : sfUnskipLeftmost c.sf f = sfWrite .left
        (sfWrite .right (sfWrite .right c.sf ((f : Nat) : Int) 0)
          (((f : Nat) : Int) + 1) (e - f)) ((e : Nat) : Int) (e - f) := by
      unfold sfUnskipLeftmost
      rw [hsize]
      rw [if_pos (show 0 < e + 1 - f - 1 from by omega)]
      rw [show e + 1 - f - 1 = e - f from by omega,
        show ((f : Nat) : Int) + ((e + 1 - f : Nat) : Int) - 1 =
          ((e : Nat) : Int) from by omega]
    have hrestEq : rest = chainOf ((f + 1, e) :: bs) := by
      rw [hrestDef, chainOf_cons]
    have hfr : isOcc c (f + 1) = false :=
      (hI.memFacts (f + 1) (mem_chainOf.2 ⟨(f, e), List.mem_cons_self _ _,
        ⟨by omega, by omega⟩⟩)).1
    have hf1mem : f + 1 ∈ blockIndices (f, e) := mem_blockIndices.2 ⟨by omega, by omega⟩
    refine ⟨(f + 1, e) :: bs, ?_, ?_, ?_, ?_, ?_, ?_, ?_, ?_, ?_, ?_, ?_⟩
    · intro b hb
      rcases List.mem_cons.1 hb with hbi | hbm
      · rw [hbi]
        refine ⟨by omega, ?_⟩
        rw [htou4]
        exact het
      · have := hI.blocksLe b (List.mem_cons_of_mem _ hbm)
        rw [htou4]
        exact this
    · intro j hj
      rw [htou4] at hj
      by_cases hjf : j = f
      · rw [hjf]
        constructor
        · intro hx
          rw [hocc4f] at hx
          exact Bool.noConfusion hx
        · rintro ⟨b, hb, hjb⟩
          rcases List.mem_cons.1 hb with hbi | hbm
          · rw [hbi] at hjb
            unfold inBlock at hjb
            simp only at hjb
            omega
          · exact absurd (mem_blockIndices.2 hjb) (hdisb b hbm f hfmem)
      · rw [hocc4 j hjf, hI.cover j hj]
        constructor
        · rintro ⟨b, hb, hjb⟩
          rcases List.mem_cons.1 hb with hbi | hbm
          · refine ⟨(f + 1, e), List.mem_cons_self _ _, ?_⟩
            rw [hbi] at hjb
            unfold inBlock at hjb ⊢
            simp only at hjb ⊢
            omega
          · exact ⟨b, List.mem_cons_of_mem _ hbm, hjb⟩
        · rintro ⟨b, hb, hjb⟩
          rcases List.mem_cons.1 hb with hbi | hbm
          · refine ⟨(f, e), List.mem_cons_self _ _, ?_⟩
            rw [hbi] at hjb
            unfold inBlock at hjb ⊢
            simp only at hjb ⊢
            omega
          · exact ⟨b, List.mem_cons_of_mem _ hbm, hjb⟩
    · intro b hb
      rcases List.mem_cons.1 hb with hbi | hbm
      · rw [hbi]
        refine Or.inr ?_
        rw [show (f + 1, e).1 - 1 = f from rfl]
        exact hocc4f
      · rcases hI.maxLeft b (List.mem_cons_of_mem _ hbm) with h0 | ho
        · exact Or.inl h0
        · have hb1f : b.1 - 1 ≠ f := by
            intro hx
            rw [hx, hfun] at ho
            exact Bool.noConfusion ho
          refine Or.inr ?_
          rw [hocc4 _ hb1f]
          exact ho
    · intro b hb
      rcases List.mem_cons.1 hb with hbi | hbm
      · rw [hbi]
        rcases hI.maxRight (f, e) (List.mem_cons_self _ _) with ht | ho
        · refine Or.inl ?_
          rw [htou4]
          exact ht
        · refine Or.inr ?_
          rw [show (f + 1, e).2 + 1 = e + 1 from rfl]
          rw [hocc4 _ (show e + 1 ≠ f by omega)]
          exact ho
      · rcases hI.maxRight b (List.mem_cons_of_mem _ hbm) with ht | ho
        · refine Or.inl ?_
          rw [htou4]
          exact ht
        · have hb2f : b.2 + 1 ≠ f := by
            intro hx
            rw [hx, hfun] at ho
            exact Bool.noConfusion ho
          refine Or.inr ?_
          rw [hocc4 _ hb2f]
          exact ho
    · have := hndrest
      rw [hrestEq] at this
      exact this
    · intro b hb
      rcases List.mem_cons.1 hb with hbi | hbm
      · rw [hbi]
        simp only
        constructor
        · by_cases hf1e : f + 1 = e
          · rw [hsf4, hsfU,
              show ((f + 1 : Nat) : Int) = ((e : Nat) : Int) from by omega,
              show ((f : Nat) : Int) + 1 = ((e : Nat) : Int) from by omega]
            rw [sfRead_write_small _ _ _ _ (show e - f < 255 from by omega)]
            omega
          · have hcf1e : ((f : Nat) : Int) + 1 ≠ ((e : Nat) : Int) := by
              intro hx
              omega
            rw [hsf4, hsfU,
              show ((f + 1 : Nat) : Int) = ((f : Nat) : Int) + 1 from by omega,
              sfRead_write_other _ _ _ _ hcf1e, sfRead_write_same]
            omega
        · rw [hsf4, hsfU, sfRead_write_same]
          omega
      · have hse := hI.sfEnds b (List.mem_cons_of_mem _ hbm)
        have hlb := hI.blocksLe b (List.mem_cons_of_mem _ hbm)
        have hnt1 : b.1 ∉ blockIndices (f, e) := by
          intro hx
          exact hdisb b hbm b.1 hx
            (mem_blockIndices.2 (by unfold inBlock; omega))
        have hnt2 : b.2 ∉ blockIndices (f, e) := by
          intro hx
          exact hdisb b hbm b.2 hx
            (mem_blockIndices.2 (by unfold inBlock; omega))
        have hb1f : b.1 ≠ f := fun hx => hnt1 (hx ▸ hfmem)
        have hb1f1 : b.1 ≠ f + 1 := fun hx => hnt1 (hx ▸ hf1mem)
        have hb1e : b.1 ≠ e := fun hx => hnt1 (hx ▸ hemem)
        have hb2f : b.2 ≠ f := fun hx => hnt2 (hx ▸ hfmem)
        have hb2f1 : b.2 ≠ f + 1 := fun hx => hnt2 (hx ▸ hf1mem)
        have hb2e : b.2 ≠ e := fun hx => hnt2 (hx ▸ hemem)
        have hc1f : ((b.1 : Nat) : Int) ≠ ((f : Nat) : Int) := by exact_mod_cast hb1f
        have hc1f1 : ((b.1 : Nat) : Int) ≠ ((f : Nat) : Int) + 1 := by
          intro hx
          omega
        have hc1e : ((b.1 : Nat) : Int) ≠ ((e : Nat) : Int) := by exact_mod_cast hb1e
        have hc2f : ((b.2 : Nat) : Int) ≠ ((f : Nat) : Int) := by exact_mod_cast hb2f
        have hc2f1 : ((b.2 : Nat) : Int) ≠ ((f : Nat) : Int) + 1 := by
          intro hx
          omega
        have hc2e : ((b.2 : Nat) : Int) ≠ ((e : Nat) : Int) := by exact_mod_cast hb2e
        constructor
        · rw [hsf4, hsfU, sfRead_write_other _ _ _ _ hc1e,
            sfRead_write_other _ _ _ _ hc1f1, sfRead_write_other _ _ _ _ hc1f]
          exact hse.1
        · rw [hsf4, hsfU, sfRead_write_other _ _ _ _ hc2e,
            sfRead_write_other _ _ _ _ hc2f1, sfRead_write_other _ _ _ _ hc2f]
          exact hse.2
    · intro j hj hjo
      rw [htou4] at hj
      rw [hsf4, hsfU]
      by_cases hjf : j = f
      · rw [hjf]
        have hcfe : ((f : Nat) : Int) ≠ ((e : Nat) : Int) := by
          intro hx
          omega
        have hcff1 : ((f : Nat) : Int) ≠ ((f : Nat) : Int) + 1 := by
          intro hx
          omega
        rw [sfWrite_cell_other _ _ _ hcfe, sfWrite_cell_other _ _ _ hcff1,
          sfWrite_cell_same]
        norm_num
      · rw [hocc4 j hjf] at hjo
        have hjf1 : j ≠ f + 1 := by
          intro hx
          rw [hx, hfr] at hjo
          exact Bool.noConfusion hjo
        have hje : j ≠ e := by
          intro hx
          rw [hx, heun] at hjo
          exact Bool.noConfusion hjo
        have hcjf : ((j : Nat) : Int) ≠ ((f : Nat) : Int) := by exact_mod_cast hjf
        have hcjf1 : ((j : Nat) : Int) ≠ ((f : Nat) : Int) + 1 := by
          intro hx
          omega
        have hcje : ((j : Nat) : Int) ≠ ((e : Nat) : Int) := by exact_mod_cast hje
        rw [sfWrite_cell_other _ _ _ hcje, sfWrite_cell_other _ _ _ hcjf1,
          sfWrite_cell_other _ _ _ hcjf]
        exact hI.sfOcc j hj hjo
    · intro p hp
      rw [htou4] at hp
      have hpf : p ≠ ((f : Nat) : Int) := by
        rcases hp with h1 | h2
        · intro hx
          rw [hx] at h1
          omega
        · intro hx
          rw [hx] at h2
          omega
      have hpf1 : p ≠ ((f : Nat) : Int) + 1 := by
        rcases hp with h1 | h2
        · intro hx
          rw [hx] at h1
          omega
        · intro hx
          rw [hx] at h2
          omega
      have hpe : p ≠ ((e : Nat) : Int) := by
        rcases hp with h1 | h2
        · intro hx
          rw [hx] at h1
          omega
        · intro hx
          rw [hx] at h2
          omega
      rw [hsf4, hsfU, sfWrite_cell_other _ _ _ hpe, sfWrite_cell_other _ _ _ hpf1,
        sfWrite_cell_other _ _ _ hpf]
      exact hI.sfOut p hp
    · have := hflOk4
      rw [hrestEq] at this
      exact this
    · rw [hlen4, htou4]
      have hrl : (chainOf ((f + 1, e) :: bs)).length = rest.length := by
        rw [hrestEq]
      omega
    · rw [htou4, hcap4]
      exact hI.capOk

/-- insert preserves the invariant. -/
theorem insertOp_invH [Inhabited T] {sizeT : Nat} {c : Colony S T}
    {blocks : List (Nat × Nat)} {k : Nat} {v : T} {c1 : Colony S T} {k1 : Nat}
    {hd : S.Handle} (hI : InvH c blocks)
    (he : insertOp sizeT c k v = some (c1, k1, hd)) :
    ∃ blocks', InvH c1 blocks' := by
  unfold insertOp at he
  cases hnf : c.nextFree with
  | some free =>
      rw [hnf] at he
      simp only [Option.some.injEq, Prod.mk.injEq] at he
      obtain ⟨hc1, _, _⟩ := he
      cases hbs : blocks with
      | nil =>
          exfalso
          have hroot := hI.flOk.root
          rw [hbs, hnf] at hroot
          simp [chainOf] at hroot
      | cons b0 bs =>
          obtain ⟨f, e⟩ := b0
          have hmem0 : (f, e) ∈ blocks := by
            rw [hbs]
            exact List.mem_cons_self _ _
          have hfe : f ≤ e := (hI.blocksLe (f, e) hmem0).1
          have hfree : free = f := by
            have hroot := hI.flOk.root
            rw [hbs, hnf, chainOf_cons,
              head?_append_of_ne_nil _ (blockIndices_ne_nil hfe),
              blockIndices_head hfe] at hroot
            simp only [Option.some.injEq] at hroot
            exact hroot
          subst hfree
          subst hc1
          exact insertIntoFree_invH (hbs ▸ hI)
  | none =>
      rw [hnf] at he
      have hbn : blocks = [] := hI.blocks_nil hnf
      subst hbn
      have hlt : c.len = c.touched := by
        have := hI.lenEq
        simpa [chainOf] using this
      by_cases hlc : c.len = c.capacity
      · rw [if_pos hlc] at he
        rw [Option.map_eq_some'] at he
        obtain ⟨ck, hres, heq⟩ := he
        simp only [Prod.mk.injEq] at heq
        obtain ⟨hc1, _, _⟩ := heq
        have hI1 : InvH ck.1 ([] : List (Nat × Nat)) := by
          have h2 : reserveOp sizeT c k 1 = some (ck.1, ck.2) := hres
          exact reserveOp_invH hI h2
        have hcapgt : ck.1.touched < ck.1.capacity := by
          unfold reserveOp at hres
          rw [if_pos (by omega)] at hres
          obtain ⟨_, _, htou, hlen, _, hcap, _⟩ := doReserve_spec hres
          rw [htou, hcap]
          have h1 : c.len + 1 ≤ max (max (c.len + 1) (c.capacity * 2))
              (minNonZeroCap sizeT) :=
            le_trans (le_max_left _ _) (le_max_left _ _)
          omega
        subst hc1
        exact ⟨[], insertAtEnd_invH hI1 hcapgt⟩
      · rw [if_neg hlc] at he
        simp only [Option.some.injEq, Prod.mk.injEq] at he
        obtain ⟨hc1, _, _⟩ := he
        subst hc1
        have hcapgt : c.touched < c.capacity := by
          have := hI.capOk
          omega
        exact ⟨[], insertAtEnd_invH hI hcapgt⟩

/-- clear re-establishes the blockless invariant. -/
theorem clearOp_invH [Inhabited T] {c : Colony S T} {blocks : List (Nat × Nat)}
    {k : Nat} {c1 : Colony S T} {k1 : Nat} (hI : InvH c blocks)
    (h : clearOp c k = some (c1, k1)) : InvH c1 ([] : List (Nat × Nat)) := by
  unfold clearOp at h
  rw [Option.map_eq_some'] at h
  obtain ⟨ik, _, heq⟩ := h
  simp only [Prod.mk.injEq] at heq
  obtain ⟨hc1, _⟩ := heq
  subst hc1
  refine ⟨?_, ?_, ?_, ?_, List.nodup_nil, ?_, ?_, ?_, ⟨rfl, List.chain'_nil, ?_, ?_⟩,
    by simp [chainOf], by simp⟩
  · intro b hb
    simp at hb
  · intro j hj
    simp at hj
  · intro b hb
    simp at hb
  · intro b hb
    simp at hb
  · intro b hb
    simp at hb
  · intro j hj
    simp at hj
  · intro p _
    show (if 0 ≤ p ∧ p < ((c.touched : Nat) : Int) then 0 else c.sf.cell p) = 0
    by_cases hc : 0 ≤ p ∧ p < ((c.touched : Nat) : Int)
    · rw [if_pos hc]
    · rw [if_neg hc]
      refine hI.sfOut p ?_
      omega
  · intro j hj
    simp [chainOf] at hj
  · intro j hj
    simp [chainOf] at hj

/-- Every state reachable by insert, remove, reserve and clear satisfies
the structural invariant for some block decomposition. -/
theorem reach_invH [Inhabited T] {sizeT k0 : Nat} {w : Colony S T × Nat}
    (h : ReachNoRetire S T sizeT k0 w) : ∃ blocks, InvH w.1 blocks := by
  induction h with
  | refl => exact ⟨[], init_invH⟩
  | tail hsteps hstep ih =>
      obtain ⟨blocks, hI⟩ := ih
      cases hstep with
      | insert he => exact insertOp_invH hI he
      | remove hit hocc hreuse => exact removeUnchecked_invH hI hit hocc hreuse
      | reserve he => exact ⟨blocks, reserveOp_invH hI he⟩
      | clear he => exact ⟨[], clearOp_invH hI he⟩

/-! ## Iterator correctness -/

/-- The occupied pairs from a cursor position to touched, in index
order. -/
def occFrom [Inhabited T] (c : Colony S T) (p : Nat) : List (Nat × T) :=
  (List.range' p (c.touched - p)).filterMap
    (fun j => if isOcc c j then some (j, occValueD (c.slots j).payload) else none)

/-- The number of occupied indices from a cursor position to touched. -/
def occCount (c : Colony S T) (p : Nat) : Nat :=
  ((List.range' p (c.touched - p)).filter (fun j => isOcc c j)).length

theorem range'_touched_cons {c : Colony S T} {p : Nat} (h : p < c.touched) :
    List.range' p (c.touched - p) = p :: List.range' (p + 1) (c.touched - (p + 1)) := by
  rw [show c.touched - p = (c.touched - (p + 1)) + 1 from by omega, List.range'_succ]

theorem occFrom_cons_occ [Inhabited T] {c : Colony S T} {p : Nat}
    (h : p < c.touched) (ho : isOcc c p = true) :
    occFrom c p = (p, occValueD (c.slots p).payload) :: occFrom c (p + 1) := by
  unfold occFrom
  rw [range'_touched_cons h, List.filterMap_cons]
  simp [ho]

theorem occFrom_cons_unocc [Inhabited T] {c : Colony S T} {p : Nat}
    (h : p < c.touched) (ho : isOcc c p = false) :
    occFrom c p = occFrom c (p + 1) := by
  unfold occFrom
  rw [range'_touched_cons h, List.filterMap_cons]
  simp [ho]

theorem occCount_cons_occ {c : Colony S T} {p : Nat}
    (h : p < c.touched) (ho : isOcc c p = true) :
    occCount c p = occCount c (p + 1) + 1 := by
  unfold occCount
  rw [range'_touched_cons h, List.filter_cons]
  simp [ho]

theorem occCount_cons_unocc {c : Colony S T} {p : Nat}
    (h : p < c.touched) (ho : isOcc c p = false) :
    occCount c p = occCount c (p + 1) := by
  unfold occCount
  rw [range'_touched_cons h, List.filter_cons]
  simp [ho]

/-- Skipping a run of unoccupied indices changes neither the occupied
pairs nor their count. -/
theorem occ_skip_unocc [Inhabited T] {c : Colony S T} :
    ∀ (k p : Nat), (∀ j, p ≤ j → j < p + k → isOcc c j = false) →
    p + k ≤ c.touched →
    occFrom c p = occFrom c (p + k) ∧ occCount c p = occCount c (p + k)
  | 0, p, _, _ => ⟨rfl, rfl⟩
  | k + 1, p, hun, hle => by
      have hp : p < c.touched := by omega
      have hup : isOcc c p = false := hun p (le_refl _) (by omega)
      have ih := occ_skip_unocc k (p + 1)
        (fun j h1 h2 => hun j (by omega) (by omega)) (by omega)
      rw [occFrom_cons_unocc hp hup, occCount_cons_unocc hp hup]
      rw [show p + (k + 1) = (p + 1) + k from by omega]
      exact ih

theorem iterStep_go [Inhabited T] (sf : Skipfield) (slots : Nat → MSlot S T)
    (p n : Nat) :
    iterStep (⟨sf, slots, p, n + 1⟩ : RawIter S T) =
      some ((p + sfRead .right sf ((p : Nat) : Int),
        occValueD (slots (p + sfRead .right sf ((p : Nat) : Int))).payload),
        ⟨sf, slots, p + sfRead .right sf ((p : Nat) : Int) + 1, n⟩) := by
  unfold iterStep
  rw [if_neg (Nat.succ_ne_zero n)]
  rfl

/-- A full fuelled run from an aligned cursor yields exactly the
occupied pairs from there on, provided the count is exact. -/
theorem iterRunFuel_spec [Inhabited T] {c : Colony S T} {blocks : List (Nat × Nat)}
    (hI : InvH c blocks) :
    ∀ n p, p ≤ c.touched → (p = 0 ∨ isOcc c (p - 1) = true) →
    n = occCount c p →
    iterRunFuel n (⟨c.sf, c.slots, p, n⟩ : RawIter S T) = occFrom c p := by
  intro n
  induction n with
  | zero =>
      intro p hpt halign hcnt
      have hnil : ∀ j ∈ List.range' p (c.touched - p), isOcc c j = false := by
        have h1 : ((List.range' p (c.touched - p)).filter
            (fun j => isOcc c j)) = [] :=
          List.length_eq_zero.1 hcnt.symm
        intro j hj
        have := List.filter_eq_nil.1 h1 j hj
        simpa using this
      show ([] : List (Nat × T)) = occFrom c p
      symm
      unfold occFrom
      rw [List.filterMap_eq_nil]
      intro j hj
      rw [if_neg (by rw [hnil j hj]; exact Bool.noConfusion)]
  | succ n ih =>
      intro p hpt halign hcnt
      have hplt : p < c.touched := by
        by_contra h
        have hpe : c.touched - p = 0 := by omega
        unfold occCount at hcnt
        rw [hpe] at hcnt
        simp at hcnt
      by_cases hpo : isOcc c p = true
      · have hread : sfRead .right c.sf ((p : Nat) : Int) = 0 :=
          sfRead_of_cell_zero _ _ (hI.sfOcc p hplt hpo)
        simp only [iterRunFuel]
        rw [iterStep_go, hread]
        simp only [Nat.add_zero]
        rw [occFrom_cons_occ hplt hpo]
        refine congrArg (List.cons _) ?_
        refine ih (p + 1) (by omega) (Or.inr (by simpa using hpo)) ?_
        have := occCount_cons_occ hplt hpo
        omega
      · have hpo' : isOcc c p = false := by
          cases hx : isOcc c p
          · rfl
          · exact absurd hx hpo
        obtain ⟨b, hb, hpb⟩ := (hI.cover p hplt).1 hpo'
        obtain ⟨b1, b2⟩ := b
        unfold inBlock at hpb
        simp only at hpb
        have hb1p : b1 = p := by
          rcases halign with h0 | hocc1
          · omega
          · by_contra hne
            have hp1 : 1 ≤ p := by
              by_contra hh
              have hp0 : p = 0 := by omega
              rw [hp0] at hocc1
              simp only [Nat.zero_sub] at hocc1
              rw [hp0, hocc1] at hpo'
              exact Bool.noConfusion hpo'
            have hmem : inBlock (p - 1) (b1, b2) := ⟨by omega, by omega⟩
            have hunocc := (hI.cover (p - 1) (by omega)).2 ⟨(b1, b2), hb, hmem⟩
            rw [hocc1] at hunocc
            exact Bool.noConfusion hunocc
        subst hb1p
        have hb2t : b2 < c.touched := (hI.blocksLe (b1, b2) hb).2
        have hmemb : ∀ j, b1 ≤ j → j < b1 + (b2 + 1 - b1) → isOcc c j = false := by
          intro j h1 h2
          exact (hI.cover j (by omega)).2 ⟨(b1, b2), hb, ⟨h1, by omega⟩⟩
        obtain ⟨hOF, hOC⟩ := occ_skip_unocc (b2 + 1 - b1) b1 hmemb (by omega)
        rw [show b1 + (b2 + 1 - b1) = b2 + 1 from by omega] at hOF hOC
        have hcnt2 : n + 1 = occCount c (b2 + 1) := by rw [hcnt, hOC]
        have hb2t1 : b2 + 1 < c.touched := by
          by_contra hh
          have h0 : occCount c (b2 + 1) = 0 := by
            unfold occCount
            rw [show c.touched - (b2 + 1) = 0 from by omega]
            rfl
          omega
        have hlocc : isOcc c (b2 + 1) = true := by
          rcases hI.maxRight (b1, b2) hb with ht | ho
          · exfalso
            simp only at ht
            omega
          · simpa using ho
        have hread : sfRead .right c.sf ((b1 : Nat) : Int) = b2 + 1 - b1 := by
          have := (hI.sfEnds (b1, b2) hb).1
          simpa using this
        simp only [iterRunFuel]
        rw [iterStep_go, hread]
        rw [show b1 + (b2 + 1 - b1) = b2 + 1 from by omega]
        rw [hOF, occFrom_cons_occ hb2t1 hlocc]
        refine congrArg (List.cons _) ?_
        refine ih (b2 + 1 + 1) (by omega) (Or.inr (by simpa using hlocc)) ?_
        have := occCount_cons_occ hb2t1 hlocc
        omega

theorem filter_length_split {α : Type} (p : α → Bool) :
    ∀ l : List α, (l.filter p).length + (l.filter (fun a => !(p a))).length = l.length
  | [] => rfl
  | a :: t => by
      have ih := filter_length_split p t
      by_cases h : p a
      · simp [List.filter_cons, h]
        omega
      · simp [List.filter_cons, h]
        omega

/-- The length field of an invariant colony counts its occupied
indices. -/
theorem InvH.len_eq_occCount {c : Colony S T} {blocks : List (Nat × Nat)}
    (hI : InvH c blocks) : c.len = occCount c 0 := by
  have hsplit := filter_length_split (fun j => isOcc c j)
    (List.range' 0 (c.touched - 0))
  have hperm : List.Perm ((List.range' 0 (c.touched - 0)).filter
      (fun j => !(isOcc c j))) (chainOf blocks) := by
    refine (List.perm_ext_iff_of_nodup
      (List.Nodup.filter _ (List.nodup_range' _ _)) hI.nodup).2 ?_
    intro j
    rw [List.mem_filter, List.mem_range'_1]
    constructor
    · rintro ⟨⟨_, hlt⟩, hno⟩
      have hno' : isOcc c j = false := by
        cases hx : isOcc c j
        · rfl
        · rw [hx] at hno
          exact Bool.noConfusion hno
      obtain ⟨b, hb, hjb⟩ := (hI.cover j (by omega)).1 hno'
      exact mem_chainOf.2 ⟨b, hb, hjb⟩
    · intro hj
      have hf := hI.memFacts j hj
      refine ⟨⟨Nat.zero_le _, by omega⟩, ?_⟩
      rw [hf.1]
      rfl
  have hlenEq := hI.lenEq
  have hlp := hperm.length_eq
  have hrl : (List.range' 0 (c.touched - 0)).length = c.touched - 0 :=
    List.length_range' _ _ _
  unfold occCount
  omega

/-- A full run of a fresh iterator of an invariant colony lists
exactly the occupied index-value pairs in ascending index order. -/
theorem iterRun_spec [Inhabited T] {c : Colony S T} {blocks : List (Nat × Nat)}
    (hI : InvH c blocks) : iterRun (rawIterInit c) = occFrom c 0 := by
  show iterRunFuel c.len (⟨c.sf, c.slots, 0, c.len⟩ : RawIter S T) = occFrom c 0
  exact iterRunFuel_spec hI c.len 0 (Nat.zero_le _) (Or.inl rfl)
    (hI.len_eq_occCount)

theorem occFrom_mem [Inhabited T] {c : Colony S T} {j : Nat} {v : T} :
    (j, v) ∈ occFrom c 0 ↔
      j < c.touched ∧ isOcc c j = true ∧ v = occValueD (c.slots j).payload := by
  unfold occFrom
  rw [List.mem_filterMap]
  constructor
  · rintro ⟨a, ha, hfa⟩
    rw [List.mem_range'_1] at ha
    by_cases hocc : isOcc c a = true
    · rw [if_pos hocc] at hfa
      simp only [Option.some.injEq, Prod.mk.injEq] at hfa
      obtain ⟨haj, hav⟩ := hfa
      subst haj
      exact ⟨by omega, hocc, hav.symm⟩
    · rw [if_neg hocc] at hfa
      exact Option.noConfusion hfa
  · rintro ⟨hjt, hocc, hv⟩
    refine ⟨j, ?_, ?_⟩
    · rw [List.mem_range'_1]
      omega
    · rw [if_pos hocc, hv]

theorem occFrom_sorted [Inhabited T] (c : Colony S T) :
    List.Pairwise (fun a b : Nat × T => a.1 < b.1) (occFrom c 0) := by
  unfold occFrom
  refine List.Pairwise.filterMap _ ?_ (List.pairwise_lt_range' _ _)
  intro a a' hlt b hb b' hb'
  simp only [Option.mem_def] at hb hb'
  by_cases ha : isOcc c a = true
  · rw [if_pos ha] at hb
    by_cases ha' : isOcc c a' = true
    · rw [if_pos ha'] at hb'
      injection hb with hb
      injection hb' with hb'
      rw [← hb, ← hb']
      exact hlt
    · rw [if_neg ha'] at hb'
      exact Option.noConfusion hb'
  · rw [if_neg ha] at hb
    exact Option.noConfusion hb

theorem occFrom_length [Inhabited T] (c : Colony S T) (p : Nat) :
    (occFrom c p).length = occCount c p := by
  unfold occFrom occCount
  generalize List.range' p (c.touched - p) = l
  induction l with
  | nil => rfl
  | cons a t iht =>
      rw [List.filterMap_cons, List.filter_cons]
      by_cases h : isOcc c a = true
      · simp only [if_pos h, h]
        simp [iht]
      · simp only [if_neg h, h]
        simp [iht]

/-! ## Guard arithmetic and the colony-id counter -/

/-- Packing a colony id over an in-range generation is plain addition
(the two bit fields are disjoint). -/
theorem genEncode_eq_add {i g : Nat} (hg : g < 2 ^ GENERATION_BITS) :
    genEncode i g = i * 2 ^ GENERATION_BITS + g := by
  unfold genEncode
  rw [Nat.mul_comm i (2 ^ GENERATION_BITS)]
  exact (Nat.mul_add_lt_is_or hg i).symm

/-- The colony-id field of a packed generation word recovers the packed
id. -/
theorem colonyIdPart_genEncode {i g : Nat} (hg : g < 2 ^ GENERATION_BITS) :
    colonyIdPart (genEncode i g) = i := by
  rw [genEncode_eq_add hg]
  unfold colonyIdPart
  rw [Nat.mul_comm i (2 ^ GENERATION_BITS), Nat.mul_add_div (Nat.two_pow_pos _),
    Nat.div_eq_of_lt hg]
  omega

/-- The generation field of a packed generation word recovers the packed
generation. -/
theorem genPart_genEncode {i g : Nat} (hg : g < 2 ^ GENERATION_BITS) :
    genPart (genEncode i g) = g := by
  rw [genEncode_eq_add hg]
  unfold genPart
  rw [Nat.mul_comm i (2 ^ GENERATION_BITS), Nat.mul_add_mod, Nat.mod_eq_of_lt hg]

/-- A successful draw from the generation id counter issues the counter
value and increments the counter. -/
theorem generation_drawId {k i k1 : Nat}
    (h : generationSig.drawId k = some (i, k1)) : i = k ∧ k1 = k + 1 := by
  have h2 : (if k + 1 ≤ MAX_COLONY_ID then some ((k : Nat), k + 1) else none) =
      some ((i : Nat), k1) := h
  by_cases hc : k + 1 ≤ MAX_COLONY_ID
  · rw [if_pos hc] at h2
    simp only [Option.some.injEq, Prod.mk.injEq] at h2
    exact ⟨h2.1.symm, h2.2.symm⟩
  · rw [if_neg hc] at h2
    exact Option.noConfusion h2

/-! ### The colony id under each operation -/

theorem setSlot_id (c : Colony S T) (j : Nat) (s : MSlot S T) :
    (setSlot c j s).id = c.id := rfl

theorem setPrev_id (c : Colony S T) (j : Nat) (x : Option Nat) :
    (setPrev c j x).id = c.id := (setPrev_fields c j x).2.2.2.2.2

theorem setNext_id (c : Colony S T) (j : Nat) (x : Option Nat) :
    (setNext c j x).id = c.id := (setNext_fields c j x).2.2.2.2.2

theorem setPayload_id (c : Colony S T) (j : Nat) (p : Payload T) :
    (setPayload c j p).id = c.id := (setPayload_fields c j p).2.2.2.2.2

/-- Unlinking a segment does not touch the colony id. -/
theorem removeSkipblock_id (c : Colony S T) (s e : Nat) :
    (removeSkipblockFromSkiplist c s e).id = c.id := by
  cases hp : slotPrev c s with
  | some p =>
      cases hn : slotNext c e with
      | some n =>
          have hop : removeSkipblockFromSkiplist c s e =
              setPrev (setNext c p (some n)) n (some p) := by
            unfold removeSkipblockFromSkiplist
            rw [hp, hn]
          rw [hop, setPrev_id, setNext_id]
      | none =>
          have hop : removeSkipblockFromSkiplist c s e = setNext c p none := by
            unfold removeSkipblockFromSkiplist
            rw [hp, hn]
          rw [hop, setNext_id]
  | none =>
      cases hn : slotNext c e with
      | some n =>
          have hop : removeSkipblockFromSkiplist c s e =
              setPrev { c with nextFree := some n } n none := by
            unfold removeSkipblockFromSkiplist
            rw [hp, hn]
          rw [hop, setPrev_id]
      | none =>
          have hop : removeSkipblockFromSkiplist c s e =
              { c with nextFree := none } := by
            unfold removeSkipblockFromSkiplist
            rw [hp, hn]
          rw [hop]

/-- Pushing a segment does not touch the colony id. -/
theorem addSkipblock_id (c : Colony S T) (s e : Nat) :
    (addSkipblockToSkiplist c s e).id = c.id := by
  cases hnf : c.nextFree with
  | some oldHead =>
      have hop : addSkipblockToSkiplist c s e =
          { setPrev (setNext (setPrev c s none) e (some oldHead)) oldHead (some e)
              with nextFree := some s } := by
        simp only [addSkipblockToSkiplist]
        rw [(setPrev_fields c s none).2.2.2.2.1, hnf]
        have hnf2 : (setNext (setPrev c s none) e (some oldHead)).nextFree =
            some oldHead := by
          rw [(setNext_fields _ e (some oldHead)).2.2.2.2.1,
            (setPrev_fields c s none).2.2.2.2.1, hnf]
        rw [hnf2]
      rw [hop]
      show (setPrev (setNext (setPrev c s none) e (some oldHead)) oldHead (some e)).id
        = c.id
      rw [setPrev_id, setNext_id, setPrev_id]
  | none =>
      have hop : addSkipblockToSkiplist c s e =
          { setNext (setPrev c s none) e none with nextFree := some s } := by
        simp only [addSkipblockToSkiplist]
        rw [(setPrev_fields c s none).2.2.2.2.1, hnf]
        have hnf2 : (setNext (setPrev c s none) e none).nextFree = none := by
          rw [(setNext_fields _ e none).2.2.2.2.1,
            (setPrev_fields c s none).2.2.2.2.1, hnf]
        rw [hnf2]
      rw [hop]
      show (setNext (setPrev c s none) e none).id = c.id
      rw [setNext_id, setPrev_id]

theorem stitchOnlyLeft_id (c : Colony S T) (i : Nat) :
    (stitchOnlyLeft c i).id = c.id := by
  cases hn : slotNext c (i - 1) with
  | some n =>
      have hop : stitchOnlyLeft c i =
          setPayload (setPrev (setNext c (i - 1) (some i)) n (some i)) i
            (.unoccupied (some (i - 1)) (some n)) := by
        unfold stitchOnlyLeft
        rw [hn]
      rw [hop, setPayload_id, setPrev_id, setNext_id]
  | none =>
      have hop : stitchOnlyLeft c i =
          setPayload (setNext c (i - 1) (some i)) i
            (.unoccupied (some (i - 1)) none) := by
        unfold stitchOnlyLeft
        rw [hn]
      rw [hop, setPayload_id, setNext_id]

theorem stitchOnlyRight_id (c : Colony S T) (i : Nat) :
    (stitchOnlyRight c i).id = c.id := by
  cases hp : slotPrev c (i + 1) with
  | some p =>
      have hop : stitchOnlyRight c i =
          setPayload (setNext (setPrev c (i + 1) (some i)) p (some i)) i
            (.unoccupied (some p) (some (i + 1))) := by
        unfold stitchOnlyRight
        rw [hp]
      rw [hop, setPayload_id, setNext_id, setPrev_id]
  | none =>
      have hop : stitchOnlyRight c i =
          setPayload { setPrev c (i + 1) (some i) with nextFree := some i } i
            (.unoccupied none (some (i + 1))) := by
        unfold stitchOnlyRight
        rw [hp]
      rw [hop, setPayload_id]
      show (setPrev c (i + 1) (some i)).id = c.id
      rw [setPrev_id]

theorem stitchLeftAndRight_id (c : Colony S T) (i s e : Nat) :
    (stitchLeftAndRight c i s e).id = c.id := by
  unfold stitchLeftAndRight
  rw [setPayload_id, setPrev_id, setNext_id, addSkipblock_id, removeSkipblock_id,
    removeSkipblock_id]

/-- remove_unchecked does not touch the colony id. -/
theorem removeUnchecked_id [Inhabited T] (c : Colony S T) (i : Nat) :
    (removeUnchecked c i).2.id = c.id := by
  simp only [removeUnchecked]
  split_ifs <;>
    simp [addSkipblock_id, stitchOnlyRight_id, stitchOnlyLeft_id,
      stitchLeftAndRight_id, setSlot_id]

theorem insertIntoFree_id [Inhabited T] (c : Colony S T) (f : Nat) (v : T) :
    (insertIntoFree c f v).1.id = c.id := by
  unfold insertIntoFree
  simp [setSlot_id, removeSkipblock_id]

theorem insertAtEnd_id (c : Colony S T) (v : T) :
    (insertAtEndUnchecked c v).1.id = c.id := rfl

/-- do_reserve either keeps the colony id and counter or installs a
freshly drawn id. -/
theorem doReserve_idk {sizeT : Nat} {c : Colony S T} {k a : Nat}
    {c1 : Colony S T} {k1 : Nat} (h : doReserve sizeT c k a = some (c1, k1)) :
    (c1.id = c.id ∧ k1 = k) ∨ S.drawId k = some (c1.id, k1) := by
  unfold doReserve at h
  by_cases hcap : MAX_CAPACITY ≤ c.len + a
  · rw [if_pos hcap] at h
    exact Option.noConfusion h
  · rw [if_neg hcap] at h
    simp only [Option.bind_eq_some] at h
    obtain ⟨di, hdi, hf⟩ := h
    simp only [Option.some.injEq, Prod.mk.injEq] at hf
    obtain ⟨hc1eq, hk⟩ := hf
    by_cases hc0 : c.capacity = 0
    · rw [if_pos hc0] at hdi
      cases hdk : S.drawId k with
      | none =>
          rw [hdk] at hdi
          exact Option.noConfusion hdi
      | some p =>
          rw [hdk] at hdi
          simp only [Option.map_some', Option.some.injEq] at hdi
          right
          rw [← hdi] at hc1eq hk
          have hid : c1.id = p.1 := by rw [← hc1eq]
          have hk1 : k1 = p.2 := hk.symm
          rw [hid, hk1]
    · rw [if_neg hc0] at hdi
      simp only [Option.some.injEq] at hdi
      rw [← hdi] at hc1eq hk
      left
      exact ⟨by rw [← hc1eq], hk.symm⟩

/-- reserve either keeps the colony id and counter or installs a freshly
drawn id. -/
theorem reserveOp_idk {sizeT : Nat} {c : Colony S T} {k a : Nat}
    {c1 : Colony S T} {k1 : Nat} (h : reserveOp sizeT c k a = some (c1, k1)) :
    (c1.id = c.id ∧ k1 = k) ∨ S.drawId k = some (c1.id, k1) := by
  unfold reserveOp at h
  by_cases hcond : c.capacity - c.len < a
  · rw [if_pos hcond] at h
    exact doReserve_idk h
  · rw [if_neg hcond] at h
    simp only [Option.some.injEq, Prod.mk.injEq] at h
    exact Or.inl ⟨by rw [← h.1], h.2.symm⟩

/-- insert either keeps the colony id and counter or installs a freshly
drawn id (through its embedded reserve). -/
theorem insertOp_idk [Inhabited T] {sizeT : Nat} {c : Colony S T} {k : Nat}
    {v : T} {c1 : Colony S T} {k1 : Nat} {hh : S.Handle}
    (h : insertOp sizeT c k v = some (c1, k1, hh)) :
    (c1.id = c.id ∧ k1 = k) ∨ S.drawId k = some (c1.id, k1) := by
  unfold insertOp at h
  cases hnf : c.nextFree with
  | some free =>
      rw [hnf] at h
      simp only [Option.some.injEq, Prod.mk.injEq] at h
      left
      refine ⟨?_, h.2.1.symm⟩
      rw [← h.1]
      exact insertIntoFree_id c free v
  | none =>
      rw [hnf] at h
      by_cases hfull : c.len = c.capacity
      · rw [if_pos hfull] at h
        simp only [Option.map_eq_some'] at h
        obtain ⟨ck, hck, hf⟩ := h
        simp only [Prod.mk.injEq] at hf
        obtain ⟨h2, h3, h4⟩ := hf
        have hid : c1.id = ck.1.id := by
          rw [← h2]
          exact insertAtEnd_id ck.1 v
        have hck2 : reserveOp sizeT c k 1 = some (ck.1, ck.2) := hck
        rcases reserveOp_idk hck2 with ⟨ha, hb⟩ | hdraw
        · exact Or.inl ⟨by rw [hid, ha], by rw [← h3, hb]⟩
        · right
          rw [← h3, hid]
          exact hdraw
      · rw [if_neg hfull] at h
        simp only [Option.some.injEq, Prod.mk.injEq] at h
        left
        refine ⟨?_, h.2.1.symm⟩
        rw [← h.1]
        exact insertAtEnd_id c v

/-- A successful clear installs a freshly drawn id. -/
theorem clearOp_idk {c : Colony S T} {k : Nat} {c1 : Colony S T} {k1 : Nat}
    (h : clearOp c k = some (c1, k1)) : S.drawId k = some (c1.id, k1) := by
  unfold clearOp at h
  simp only [Option.map_eq_some'] at h
  obtain ⟨ik, hik, hf⟩ := h
  simp only [Prod.mk.injEq] at hf
  obtain ⟨h2, h3⟩ := hf
  rw [hik, ← h2, ← h3]

/-- The colony id of a generation-guarded colony, as a number. -/
def genIdOf (c : Colony generationSig T) : Nat := c.id

/-- Along any reachable run of a generation-guarded colony, the colony
id stays strictly below the global id counter. -/
theorem reach_idBound [Inhabited T] {sizeT k0 : Nat}
    {w : Colony generationSig T × Nat} (hk0 : 0 < k0)
    (h : Reach generationSig T sizeT k0 w) : genIdOf w.1 < w.2 := by
  induction h with
  | refl => exact hk0
  | tail hsteps hstep ih =>
      cases hstep with
      | insert he =>
          simp only [genIdOf] at ih ⊢
          rcases insertOp_idk he with ⟨h1, h2⟩ | hdraw
          · rw [h1, h2]
            exact ih
          · obtain ⟨ha, hb⟩ := generation_drawId hdraw
            omega
      | remove hit hocc =>
          simp only [genIdOf] at ih ⊢
          rw [removeUnchecked_id]
          exact ih
      | reserve he =>
          simp only [genIdOf] at ih ⊢
          rcases reserveOp_idk he with ⟨h1, h2⟩ | hdraw
          · rw [h1, h2]
            exact ih
          · obtain ⟨ha, hb⟩ := generation_drawId hdraw
            omega
      | clear he =>
          simp only [genIdOf] at ih ⊢
          obtain ⟨ha, hb⟩ := generation_drawId (clearOp_idk he)
          omega

/-! ## The claims -/

/-- C3: skip(i) reads L leftward at i-1 and R rightward at i+1, returns
the merged block's endpoints (i-L, i+R), and writes the merged length
L+R+1 at both ends of the block - readable rightward at the start and
leftward at the stop - leaving every other skipfield position
unchanged. -/
theorem C3_skip_spec (sf : Skipfield) (i : Nat) :
    (sfSkip sf i).1 = (i - sfRead .left sf ((i : Int) - 1),
      i + sfRead .right sf ((i : Int) + 1)) ∧
    sfRead .right (sfSkip sf i).2
        ((i - sfRead .left sf ((i : Int) - 1) : Nat) : Int) =
      sfRead .left sf ((i : Int) - 1) + sfRead .right sf ((i : Int) + 1) + 1 ∧
    sfRead .left (sfSkip sf i).2
        ((i + sfRead .right sf ((i : Int) + 1) : Nat) : Int) =
      sfRead .left sf ((i : Int) - 1) + sfRead .right sf ((i : Int) + 1) + 1 ∧
    ∀ (d : Dir) (j : Int),
      j ≠ ((i - sfRead .left sf ((i : Int) - 1) : Nat) : Int) →
      j ≠ ((i + sfRead .right sf ((i : Int) + 1) : Nat) : Int) →
      sfRead d (sfSkip sf i).2 j = sfRead d sf j :=
  ⟨sfSkip_fst sf i, sfSkip_read_start sf i, sfSkip_read_stop sf i,
    fun d j h1 h2 => sfSkip_read_other sf i d h1 h2⟩

/-- C4 counterexample: a request of exactly isize::MAX elements does not
exceed isize::MAX, yet do_reserve panics on it (the source filters
new_cap < MAX_CAPACITY, refusing equality as well). -/
theorem C4_boundary_cex :
    (initColony flagSig Nat).len + MAX_CAPACITY ≤ MAX_CAPACITY ∧
    doReserve 8 (initColony flagSig Nat) 0 MAX_CAPACITY = none := by
  constructor
  · show 0 + MAX_CAPACITY ≤ MAX_CAPACITY
    omega
  · rfl

/-- C4 (amended): do_reserve panics exactly when len + additional
reaches isize::MAX (or, growing from capacity zero, when the id draw
fails); on success the new capacity is the uncapped maximum of the
request, twice the old capacity and the size-dependent minimum; and
reserve is a no-op when the spare capacity covers the request. -/
theorem C4_reserve_growth (sizeT : Nat) (c : Colony S T) (k a : Nat) :
    (doReserve sizeT c k a = none ↔
      MAX_CAPACITY ≤ c.len + a ∨ (c.capacity = 0 ∧ S.drawId k = none)) ∧
    (∀ (c1 : Colony S T) (k1 : Nat), doReserve sizeT c k a = some (c1, k1) →
      c1.capacity = max (max (c.len + a) (c.capacity * 2)) (minNonZeroCap sizeT) ∧
      c.len + a < MAX_CAPACITY) ∧
    (¬ c.capacity - c.len < a → reserveOp sizeT c k a = some (c, k)) := by
  refine ⟨?_, ?_, ?_⟩
  · unfold doReserve
    by_cases hcap : MAX_CAPACITY ≤ c.len + a
    · rw [if_pos hcap]
      simp [hcap]
    · rw [if_neg hcap]
      by_cases hc0 : c.capacity = 0
      · rw [if_pos hc0]
        cases hdk : S.drawId k with
        | none => simp [hcap, hc0]
        | some p => simp [hcap, hc0]
      · rw [if_neg hc0]
        simp [hcap, hc0]
  · intro c1 k1 h
    have hs := doReserve_spec h
    exact ⟨hs.2.2.2.2.2.1, hs.2.2.2.2.2.2⟩
  · intro hcond
    unfold reserveOp
    rw [if_neg hcond]

/-- C5 (supporting): the model RawIter state is built from the element
and skipfield pointers, the cursor and the count alone; it carries no
pool identity, so iteration cannot mint handles from the pool identity
token (the source line even calls a method the Guard trait does not
declare). -/
theorem C5_rawIter_ignores_id [Inhabited T] (c : Colony S T) (newId : S.Id) :
    rawIterInit { c with id := newId } = rawIterInit c := rfl

/-- C6: get extracts the handle's index: past touched it is none; below
touched it is none when the guard check fails and the occupied payload
arm when the check passes - in every case a total function, never a
fault. -/
theorem C6_get_checked [Inhabited T] (c : Colony S T) (h : S.Handle) :
    (c.touched ≤ S.extractIndex h → getOp c h = none) ∧
    (S.gcheck ((c.slots (S.extractIndex h)).g) h c.id = false →
      getOp c h = none) ∧
    (S.extractIndex h < c.touched →
      S.gcheck ((c.slots (S.extractIndex h)).g) h c.id = true →
      getOp c h = some (occValueD ((c.slots (S.extractIndex h)).payload))) := by
  refine ⟨?_, ?_, ?_⟩
  · intro hb
    unfold getOp
    rw [if_pos hb]
  · intro hc
    unfold getOp
    by_cases hb : c.touched ≤ S.extractIndex h
    · rw [if_pos hb]
    · rw [if_neg hb, if_neg (by simp [hc])]
  · intro hb hc
    unfold getOp
    rw [if_neg (by omega : ¬ c.touched ≤ S.extractIndex h), if_pos hc]

/-- C7: the generation guard's empty refuses reuse exactly when the
incremented counter reaches the reserved maximum; and a removal whose
empty refused reuse still merges the skipfield and decrements len but
leaves the free-list root and every other slot untouched and the
vacated slot unlinked. -/
theorem C7_retirement [Inhabited T] (c : Colony generationSig T) (i : Nat) :
    (∀ g : Nat, ((generationSig.gempty g).2 = false ↔ g + 1 = MAX_GENERATION)) ∧
    ((generationSig.gempty ((c.slots i).g)).2 = false →
      (removeUnchecked c i).2.nextFree = c.nextFree ∧
      (removeUnchecked c i).2.sf = (sfSkip c.sf i).2 ∧
      (removeUnchecked c i).2.len = c.len - 1 ∧
      (removeUnchecked c i).2.touched = c.touched ∧
      (∀ j, j ≠ i → (removeUnchecked c i).2.slots j = c.slots j) ∧
      slotPrev (removeUnchecked c i).2 i = none ∧
      slotNext (removeUnchecked c i).2 i = none) := by
  constructor
  · intro g
    show (decide (g + 1 ≠ MAX_GENERATION) = false ↔ g + 1 = MAX_GENERATION)
    simp
  · intro hfalse
    have hop : (removeUnchecked c i).2 =
        { setSlot c i ⟨(generationSig.gempty ((c.slots i).g)).1,
            .unoccupied none none⟩ with
          sf := (sfSkip c.sf i).2, len := c.len - 1 } := by
      simp only [removeUnchecked]
      rw [hfalse]
      rfl
    have hsi : ((removeUnchecked c i).2).slots i =
        ⟨(generationSig.gempty ((c.slots i).g)).1, .unoccupied none none⟩ := by
      rw [hop]
      exact setSlot_slots_same c i _
    refine ⟨?_, ?_, ?_, ?_, ?_, ?_, ?_⟩
    · rw [hop]
      exact (setSlot_fields c i ⟨(generationSig.gempty ((c.slots i).g)).1,
        .unoccupied none none⟩).2.2.2.2.1
    · rw [hop]
    · rw [hop]
    · rw [hop]
      exact (setSlot_fields c i ⟨(generationSig.gempty ((c.slots i).g)).1,
        .unoccupied none none⟩).2.2.1
    · intro j hji
      rw [hop]
      exact setSlot_slots_other c ⟨(generationSig.gempty ((c.slots i).g)).1,
        .unoccupied none none⟩ hji
    · unfold slotPrev
      rw [hsi]
    · unfold slotNext
      rw [hsi]

/-- C10: a checked removal whose lookup fails - index past touched or a
failed guard check - returns none and the colony exactly as it was. -/
theorem C10_remove_failed_noop [Inhabited T] (c : Colony S T) (h : S.Handle)
    (hfail : c.touched ≤ S.extractIndex h ∨
      S.gcheck ((c.slots (S.extractIndex h)).g) h c.id = false) :
    removeOp c h = (none, c) := by
  unfold removeOp
  by_cases hb : c.touched ≤ S.extractIndex h
  · rw [if_pos hb]
  · rw [if_neg hb]
    rcases hfail with hfail | hfail
    · exact absurd hfail hb
    · rw [if_neg (by simp [hfail])]

/-- C10 witness: on a fresh colony every handle index is past touched,
so checked removal with handle 0 is a no-op. -/
theorem C10_remove_failed_noop_witness :
    removeOp (initColony flagSig Nat) (0 : Nat) =
      (none, initColony flagSig Nat) :=
  C10_remove_failed_noop (initColony flagSig Nat) (0 : Nat)
    (Or.inl (Nat.le_refl 0))

/-- A handle packed with a colony id different from the pool's own id
never validates: get returns none and checked remove is a rejected
no-op, for every slot state and in-range packed generation. -/
theorem generation_foreign_handle [Inhabited T] (c : Colony generationSig T)
    (gh idx hid : Nat) (hne : genIdOf c ≠ hid)
    (hgh : gh < 2 ^ GENERATION_BITS) :
    getOp c (generationSig.mkHandle gh idx hid) = none ∧
    removeOp c (generationSig.mkHandle gh idx hid) = (none, c) := by
  have hpart : colonyIdPart (GenHandle.state (generationSig.mkHandle gh idx hid)) =
      hid := colonyIdPart_genEncode hgh
  have hchk : ∀ g0 : Nat,
      generationSig.gcheck g0 (generationSig.mkHandle gh idx hid) c.id = false := by
    intro g0
    show (decide (genIdOf c =
        colonyIdPart (GenHandle.state (generationSig.mkHandle gh idx hid))) &&
      decide (g0 = genPart (GenHandle.state (generationSig.mkHandle gh idx hid)))) =
        false
    rw [hpart, decide_eq_false hne, Bool.false_and]
  constructor
  · unfold getOp
    by_cases hb : c.touched ≤
        generationSig.extractIndex (generationSig.mkHandle gh idx hid)
    · rw [if_pos hb]
    · rw [if_neg hb, if_neg (by simp [hchk])]
  · unfold removeOp
    by_cases hb : c.touched ≤
        generationSig.extractIndex (generationSig.mkHandle gh idx hid)
    · rw [if_pos hb]
    · rw [if_neg hb, if_neg (by simp [hchk])]

/-- C8: two generation pools whose ids were drawn in sequence from the
global counter have distinct identity tokens, and - symmetrically in
the two pools - a handle packed with either pool's id, as insert mints
them, never validates in the other pool: get returns none and checked
remove is a rejected no-op. -/
theorem C8_cross_pool [Inhabited T] {k kx i1 k1 i2 k2 : Nat}
    (h1 : generationSig.drawId k = some (i1, k1))
    (hle : k1 ≤ kx)
    (h2 : generationSig.drawId kx = some (i2, k2)) :
    i1 ≠ i2 ∧
    (∀ (c2 : Colony generationSig T) (gh idx : Nat), genIdOf c2 = i2 →
      gh < 2 ^ GENERATION_BITS →
      getOp c2 (generationSig.mkHandle gh idx i1) = none ∧
      removeOp c2 (generationSig.mkHandle gh idx i1) = (none, c2)) ∧
    (∀ (c1 : Colony generationSig T) (gh idx : Nat), genIdOf c1 = i1 →
      gh < 2 ^ GENERATION_BITS →
      getOp c1 (generationSig.mkHandle gh idx i2) = none ∧
      removeOp c1 (generationSig.mkHandle gh idx i2) = (none, c1)) := by
  obtain ⟨ha1, hb1⟩ := generation_drawId h1
  obtain ⟨ha2, hb2⟩ := generation_drawId h2
  have hne : i1 ≠ i2 := by omega
  refine ⟨hne, ?_, ?_⟩
  · intro c2 gh idx hid hgh
    exact generation_foreign_handle c2 gh idx i1 (by rw [hid]; exact Ne.symm hne)
      hgh
  · intro c1 gh idx hid hgh
    exact generation_foreign_handle c1 gh idx i2 (by rw [hid]; exact hne) hgh

/-- A second pool for the cross-pool witness, carrying the id drawn at
counter value 2. -/
def c8pool : Colony generationSig Nat :=
  { initColony generationSig Nat with id := (2 : Nat) }

/-- The first pool for the cross-pool witness, carrying the id drawn at
counter value 1. -/
def c8poolA : Colony generationSig Nat :=
  { initColony generationSig Nat with id := (1 : Nat) }

/-- C8 witness: ids 1 and 2 drawn in sequence; a handle packed with id 1
neither gets nor removes in the pool with id 2, and conversely. -/
theorem C8_cross_pool_witness :
    (getOp c8pool (generationSig.mkHandle (0 : Nat) 0 (1 : Nat)) = none ∧
      removeOp c8pool (generationSig.mkHandle (0 : Nat) 0 (1 : Nat)) =
        (none, c8pool)) ∧
    (getOp c8poolA (generationSig.mkHandle (0 : Nat) 0 (2 : Nat)) = none ∧
      removeOp c8poolA (generationSig.mkHandle (0 : Nat) 0 (2 : Nat)) =
        (none, c8poolA)) :=
  ⟨(C8_cross_pool
      (show generationSig.drawId 1 = some ((1 : Nat), 2) from rfl)
      (show (2 : Nat) ≤ 2 from Nat.le_refl 2)
      (show generationSig.drawId 2 = some ((2 : Nat), 3) from rfl)).2.1
      c8pool 0 0 (show genIdOf c8pool = 2 from rfl)
      (show (0 : Nat) < 2 ^ GENERATION_BITS from by norm_num [GENERATION_BITS]),
    (C8_cross_pool
      (show generationSig.drawId 1 = some ((1 : Nat), 2) from rfl)
      (show (2 : Nat) ≤ 2 from Nat.le_refl 2)
      (show generationSig.drawId 2 = some ((2 : Nat), 3) from rfl)).2.2
      c8poolA 0 0 (show genIdOf c8poolA = 1 from rfl)
      (show (0 : Nat) < 2 ^ GENERATION_BITS from by norm_num [GENERATION_BITS])⟩

/-- C9: clear on a reachable generation-guarded colony resets len,
touched and the free-list root, zeroes the skipfield over the old
touched prefix, keeps the capacity and the slot array, re-mints the
pool id from the counter - and since every id the pool ever carried is
strictly below the counter, no handle packed with such an id passes the
guard check against the new id. -/
theorem C9_clear_resets [Inhabited T] {sizeT : Nat}
    {c : Colony generationSig T} {k kx : Nat} {c1 : Colony generationSig T}
    (hreach : Reach generationSig T sizeT 1 (c, k))
    (hclear : clearOp c k = some (c1, kx)) :
    c1.len = 0 ∧ c1.touched = 0 ∧ c1.nextFree = none ∧
    c1.capacity = c.capacity ∧ c1.slots = c.slots ∧
    (∀ i : Int, 0 ≤ i → i < (c.touched : Int) → c1.sf.cell i = 0) ∧
    genIdOf c1 = k ∧ kx = k + 1 ∧ genIdOf c < k ∧
    (∀ (g : Nat) (hdl : GenHandle), colonyIdPart hdl.state < k →
      generationSig.gcheck g hdl c1.id = false) := by
  have hlt : genIdOf c < k := reach_idBound Nat.one_pos hreach
  obtain ⟨hid, hkx⟩ := generation_drawId (clearOp_idk hclear)
  unfold clearOp at hclear
  simp only [Option.map_eq_some'] at hclear
  obtain ⟨ik, hik, hf⟩ := hclear
  simp only [Prod.mk.injEq] at hf
  obtain ⟨hc1, hkx2⟩ := hf
  refine ⟨?_, ?_, ?_, ?_, ?_, ?_, hid, hkx, hlt, ?_⟩
  · rw [← hc1]
  · rw [← hc1]
  · rw [← hc1]
  · rw [← hc1]
  · rw [← hc1]
  · intro i h0 hti
    rw [← hc1]
    show (clearSf c.sf c.touched).cell i = 0
    unfold clearSf
    simp only
    rw [if_pos ⟨h0, hti⟩]
  · intro g hdl hplt
    show (decide (genIdOf c1 = colonyIdPart hdl.state) &&
      decide (g = genPart hdl.state)) = false
    rw [show genIdOf c1 = c1.id from rfl, hid,
      decide_eq_false (show ¬ (k = colonyIdPart hdl.state) from by omega),
      Bool.false_and]

/-- The post-clear state for the clear witness. -/
def c9p : Colony generationSig Nat × Nat :=
  (clearOp (initColony generationSig Nat) 1).getD
    (initColony generationSig Nat, 0)

/-- C9 witness: clearing a fresh generation pool at counter value 1
re-mints its id to 1, resets len and keeps the capacity. -/
theorem C9_clear_resets_witness :
    genIdOf c9p.1 = 1 ∧ c9p.1.len = 0 ∧
    c9p.1.capacity = (initColony generationSig Nat).capacity := by
  have h := @C9_clear_resets Nat _ 8 (initColony generationSig Nat) 1 c9p.2
    c9p.1 Relation.ReflTransGen.refl rfl
  exact ⟨h.2.2.2.2.2.2.1, h.1, h.2.2.2.1⟩

/-- C1 (amended): on every state reachable without a retirement, the
free-list rooted at nextFree is the doubly linked list over the
concatenation of the skipblocks' member runs: each block (s, e) is a
maximal unoccupied run contributing its indices s, s+1, ..., e
contiguously in ascending order (blockIndices), the blocks cover
exactly the unoccupied slots below touched, and no index repeats - so
the list holds every member of every skipblock exactly once, not one
node per skipblock. -/
theorem C1_free_list [Inhabited T] {sizeT k0 : Nat} {w : Colony S T × Nat}
    (h : ReachNoRetire S T sizeT k0 w) :
    ∃ blocks : List (Nat × Nat),
      FreeListOk w.1 (chainOf blocks) ∧ (chainOf blocks).Nodup ∧
      (∀ b ∈ blocks, b.1 ≤ b.2 ∧ b.2 < w.1.touched) ∧
      (∀ j, j < w.1.touched →
        (isOcc w.1 j = false ↔ ∃ b ∈ blocks, inBlock j b)) ∧
      (∀ b ∈ blocks, b.1 = 0 ∨ isOcc w.1 (b.1 - 1) = true) ∧
      (∀ b ∈ blocks, b.2 + 1 = w.1.touched ∨ isOcc w.1 (b.2 + 1) = true) ∧
      (∀ j : Nat, j ∈ chainOf blocks ↔ j < w.1.touched ∧ isOcc w.1 j = false) := by
  obtain ⟨blocks, hI⟩ := reach_invH h
  refine ⟨blocks, hI.flOk, hI.nodup, hI.blocksLe, hI.cover, hI.maxLeft,
    hI.maxRight, ?_⟩
  intro j
  constructor
  · intro hj
    have hf := hI.memFacts j hj
    exact ⟨hf.2, hf.1⟩
  · rintro ⟨hjt, hocc⟩
    obtain ⟨b, hb, hjb⟩ := (hI.cover j hjt).1 hocc
    exact mem_chainOf.2 ⟨b, hb, hjb⟩

/-- C1 witness: the fresh colony, reachable in zero steps. -/
theorem C1_free_list_witness :
    ∃ blocks : List (Nat × Nat),
      FreeListOk (initColony flagSig Nat) (chainOf blocks) ∧
      (chainOf blocks).Nodup ∧
      (∀ b ∈ blocks, b.1 ≤ b.2 ∧ b.2 < (initColony flagSig Nat).touched) ∧
      (∀ j, j < (initColony flagSig Nat).touched →
        (isOcc (initColony flagSig Nat) j = false ↔ ∃ b ∈ blocks, inBlock j b)) ∧
      (∀ b ∈ blocks, b.1 = 0 ∨ isOcc (initColony flagSig Nat) (b.1 - 1) = true) ∧
      (∀ b ∈ blocks, b.2 + 1 = (initColony flagSig Nat).touched ∨
        isOcc (initColony flagSig Nat) (b.2 + 1) = true) ∧
      (∀ j : Nat, j ∈ chainOf blocks ↔ j < (initColony flagSig Nat).touched ∧
        isOcc (initColony flagSig Nat) j = false) :=
  @C1_free_list flagSig Nat _ 8 0 (initColony flagSig Nat, 0)
    Relation.ReflTransGen.refl

/-- The fresh flag-guarded colony of the counterexample trace. -/
def c1c0 : Colony flagSig Nat := initColony flagSig Nat

/-- After the first insert of the counterexample trace. -/
def c1w1 : Colony flagSig Nat × Nat × flagSig.Handle :=
  (insertOp 8 c1c0 0 (10 : Nat)).getD (c1c0, 0, (0 : Nat))

/-- After the second insert of the counterexample trace. -/
def c1w2 : Colony flagSig Nat × Nat × flagSig.Handle :=
  (insertOp 8 c1w1.1 c1w1.2.1 (20 : Nat)).getD (c1c0, 0, (0 : Nat))

/-- After removing index 1. -/
def c1c3 : Colony flagSig Nat := (removeUnchecked c1w2.1 1).2

/-- After removing index 0. -/
def c1c4 : Colony flagSig Nat := (removeUnchecked c1c3 0).2

/-- C1 counterexample: insert two values and remove them right-to-left;
the reachable result has free-list [0, 1], whose member 1 is unoccupied
but not the head of its skipblock - the free-list threads every slot of
the block [0, 1], not one node per skipblock. -/
theorem C1_nonhead_cex :
    ∃ w : Colony flagSig Nat × Nat, Reach flagSig Nat 8 0 w ∧
      freeIndices w.1 = [0, 1] ∧ isOcc w.1 1 = false ∧
      isHeadB w.1 1 = false := by
  have he1 : insertOp 8 c1c0 0 (10 : Nat) = some (c1w1.1, c1w1.2.1, c1w1.2.2) :=
    rfl
  have he2 : insertOp 8 c1w1.1 c1w1.2.1 (20 : Nat) =
      some (c1w2.1, c1w2.2.1, c1w2.2.2) := rfl
  have s1 : StepR flagSig Nat 8 (c1c0, 0) (c1w1.1, c1w1.2.1) := StepR.insert he1
  have s2 : StepR flagSig Nat 8 (c1w1.1, c1w1.2.1) (c1w2.1, c1w2.2.1) :=
    StepR.insert he2
  have s3 : StepR flagSig Nat 8 (c1w2.1, c1w2.2.1) (c1c3, c1w2.2.1) :=
    @StepR.remove flagSig Nat _ 8 c1w2.1 c1w2.2.1 1 (by decide) rfl
  have s4 : StepR flagSig Nat 8 (c1c3, c1w2.2.1) (c1c4, c1w2.2.1) :=
    @StepR.remove flagSig Nat _ 8 c1c3 c1w2.2.1 0 (by decide) rfl
  refine ⟨(c1c4, c1w2.2.1), ?_, ?_, ?_, ?_⟩
  · exact Relation.ReflTransGen.tail (Relation.ReflTransGen.tail
      (Relation.ReflTransGen.tail (Relation.ReflTransGen.single s1) s2) s3) s4
  · rfl
  · rfl
  · rfl

/-- C2 (amended): on every state reachable without a retirement - every
removal's guard permitted reuse - a full run of a fresh iterator yields
exactly the occupied index-value pairs, in strictly ascending index
order, of length exactly len; the iterator's remaining count starts at
len; and next is none exactly on count zero, so a finished iterator
stays finished.  Past a retirement the claim fails (see the
counterexample). -/
theorem C2_iteration [Inhabited T] {sizeT k0 : Nat} {w : Colony S T × Nat}
    (h : ReachNoRetire S T sizeT k0 w) :
    iterRun (rawIterInit w.1) = occFrom w.1 0 ∧
    (∀ (j : Nat) (v : T), (j, v) ∈ occFrom w.1 0 ↔
      j < w.1.touched ∧ isOcc w.1 j = true ∧
        v = occValueD ((w.1.slots j).payload)) ∧
    List.Pairwise (fun a b : Nat × T => a.1 < b.1) (occFrom w.1 0) ∧
    (occFrom w.1 0).length = w.1.len ∧
    (rawIterInit w.1).len = w.1.len ∧
    (∀ s : RawIter S T, iterStep s = none ↔ s.len = 0) := by
  obtain ⟨blocks, hI⟩ := reach_invH h
  refine ⟨iterRun_spec hI, fun j v => occFrom_mem, occFrom_sorted w.1, ?_, rfl, ?_⟩
  · rw [occFrom_length, ← hI.len_eq_occCount]
  · intro s
    constructor
    · intro hs
      by_contra hlen
      unfold iterStep at hs
      rw [if_neg hlen] at hs
      exact Option.noConfusion hs
    · intro hs
      unfold iterStep
      rw [if_pos hs]

/-- C2 witness: the fresh colony, reachable in zero steps. -/
theorem C2_iteration_witness :
    iterRun (rawIterInit (initColony flagSig Nat)) =
      occFrom (initColony flagSig Nat) 0 ∧
    (occFrom (initColony flagSig Nat) 0).length =
      (initColony flagSig Nat).len := by
  have h := @C2_iteration flagSig Nat _ 8 0 (initColony flagSig Nat, 0)
    Relation.ReflTransGen.refl
  exact ⟨h.1, h.2.2.2.1⟩

/-! ## The retirement counterexample

Reaching a generation-exhaustion retirement needs the generation
counter of one slot driven to its maximum, which takes about half a
million remove/insert cycles; the trace below is built by induction on
a closed-form cycle state. -/

theorem skipfield_eq {s s' : Skipfield} (h1 : s.cell = s'.cell)
    (h2 : s.spillL = s'.spillL) (h3 : s.spillR = s'.spillR) : s = s' := by
  cases s with
  | mk a b c =>
      cases s' with
      | mk a' b' c' =>
          rw [show a = a' from h1, show b = b' from h2, show c = c' from h3]

theorem colony_eq {c c' : Colony S T} (h1 : c.slots = c'.slots)
    (h2 : c.sf = c'.sf) (h3 : c.capacity = c'.capacity)
    (h4 : c.touched = c'.touched) (h5 : c.len = c'.len)
    (h6 : c.nextFree = c'.nextFree) (h7 : c.id = c'.id) : c = c' := by
  cases c with
  | mk a1 a2 a3 a4 a5 a6 a7 =>
      cases c' with
      | mk b1 b2 b3 b4 b5 b6 b7 =>
          rw [show a1 = b1 from h1, show a2 = b2 from h2, show a3 = b3 from h3,
            show a4 = b4 from h4, show a5 = b5 from h5, show a6 = b6 from h6,
            show a7 = b7 from h7]

/-- remove_unchecked in the reuse case where the merged block is the
single index: empty the slot, merge the skipfield, push the singleton
block, decrement len. -/
theorem removeUnchecked_reuse_hop [Inhabited T] (c : Colony S T) (i : Nat)
    (her : (S.gempty ((c.slots i).g)).2 = true)
    (hstart : (sfSkip c.sf i).1.1 = i) (hstop : (sfSkip c.sf i).1.2 = i) :
    (removeUnchecked c i).2 =
      { addSkipblockToSkiplist
          { setSlot c i ⟨(S.gempty ((c.slots i).g)).1, .unoccupied none none⟩
            with sf := (sfSkip c.sf i).2 } i i
        with len :=
          (addSkipblockToSkiplist
            { setSlot c i ⟨(S.gempty ((c.slots i).g)).1, .unoccupied none none⟩
              with sf := (sfSkip c.sf i).2 } i i).len - 1 } := by
  simp only [removeUnchecked, setSlot]
  rw [her, hstart, hstop]
  simp

/-- add_skipblock_to_skiplist on an empty free-list. -/
theorem addSkipblock_hop_none (c : Colony S T) (s e : Nat)
    (hnf : c.nextFree = none) :
    addSkipblockToSkiplist c s e =
      { setNext (setPrev c s none) e none with nextFree := some s } := by
  simp only [addSkipblockToSkiplist]
  rw [(setPrev_fields c s none).2.2.2.2.1, hnf]
  have hnf2 : (setNext (setPrev c s none) e none).nextFree = none := by
    rw [(setNext_fields _ e none).2.2.2.2.1,
      (setPrev_fields c s none).2.2.2.2.1, hnf]
  rw [hnf2]

/-- The all-zero skipfield. -/
def sfZero : Skipfield := ⟨fun _ => 0, fun _ => 0, fun _ => 0⟩

/-- The steady cycle state's slots: slot 0 carries the cycled
generation, slots 1 and 2 hold the other two values, everything else is
untouched. -/
def cycleSlots (g : Nat) : Nat → MSlot generationSig Nat := fun m =>
  if m = 2 then ⟨(0 : Nat), .occupied 30⟩
  else if m = 1 then ⟨(0 : Nat), .occupied 20⟩
  else if m = 0 then ⟨g, .occupied 10⟩
  else ⟨(0 : Nat), .unoccupied none none⟩

/-- The steady state of the generation-driving cycle: three occupied
slots, slot 0 at generation g. -/
def cycleColony (g : Nat) : Colony generationSig Nat :=
  { slots := cycleSlots g, sf := sfZero, capacity := 4, touched := 3,
    len := 3, nextFree := none, id := (1 : Nat) }

/-- The mid-cycle state, after removing slot 0 at generation g. -/
def midSlots (g : Nat) : Nat → MSlot generationSig Nat := fun m =>
  if m = 0 then ⟨g + 1, .unoccupied none none⟩ else cycleSlots g m

/-- The mid-cycle skipfield: the singleton block at 0. -/
def sfMid : Skipfield :=
  ⟨fun i => if i = 0 then 1 else 0, fun _ => 0, fun _ => 0⟩

/-- The mid-cycle colony. -/
def midColony (g : Nat) : Colony generationSig Nat :=
  { slots := midSlots g, sf := sfMid, capacity := 4, touched := 3,
    len := 2, nextFree := some 0, id := (1 : Nat) }

/-- Merging the singleton block at 0 into the all-zero skipfield yields
the mid-cycle skipfield. -/
theorem sfSkip_zero : (sfSkip sfZero 0).2 = sfMid := by
  refine skipfield_eq ?_ rfl rfl
  funext i
  show (if i = ((0 : Nat) : Int) then 1
    else if i = ((0 : Nat) : Int) then 1 else sfZero.cell i) = sfMid.cell i
  by_cases h : i = ((0 : Nat) : Int)
  · rw [if_pos h]
    have h0 : i = (0 : Int) := by exact_mod_cast h
    subst h0
    rfl
  · rw [if_neg h, if_neg h]
    have h0 : ¬ i = (0 : Int) := by
      intro hx
      exact h (by exact_mod_cast hx)
    show (0 : Nat) = (if (i : Int) = 0 then 1 else 0)
    rw [if_neg h0]

/-- The cycled slot functions agree away from slot 0. -/
theorem cycleSlots_ne (g g' : Nat) {m : Nat} (h : ¬ m = 0) :
    cycleSlots g m = cycleSlots g' m := by
  unfold cycleSlots
  by_cases h2 : m = 2
  · subst h2
    rfl
  · by_cases h1 : m = 1
    · subst h1
      rfl
    · rw [if_neg h2, if_neg h1, if_neg h, if_neg h2, if_neg h1, if_neg h]

/-- One cycle, first half: removing slot 0 at generation g (still below
the retirement bound) yields the mid-cycle state. -/
theorem cycle_remove (g : Nat) (hg : ¬ g + 1 = MAX_GENERATION) :
    (removeUnchecked (cycleColony g) 0).2 = midColony g := by
  have her : (generationSig.gempty (((cycleColony g).slots 0)).g).2 = true :=
    decide_eq_true hg
  rw [removeUnchecked_reuse_hop (cycleColony g) 0 her rfl rfl]
  refine colony_eq ?_ ?_ rfl rfl rfl rfl rfl
  · funext m
    by_cases h : m = 0
    · subst h
      rfl
    · show (addSkipblockToSkiplist
          { setSlot (cycleColony g) 0
              ⟨(generationSig.gempty (((cycleColony g).slots 0)).g).1,
                .unoccupied none none⟩
            with sf := (sfSkip (cycleColony g).sf 0).2 } 0 0).slots m =
        midSlots g m
      rw [addSkipblock_hop_none _ 0 0 rfl]
      show (setNext (setPrev
          ({ setSlot (cycleColony g) 0
              ⟨(generationSig.gempty (((cycleColony g).slots 0)).g).1,
                .unoccupied none none⟩
            with sf := (sfSkip (cycleColony g).sf 0).2 }) 0 none) 0 none).slots m =
        midSlots g m
      rw [setNext_slots_other _ _ h, setPrev_slots_other _ _ h]
      show (setSlot (cycleColony g) 0
          ⟨(generationSig.gempty (((cycleColony g).slots 0)).g).1,
            .unoccupied none none⟩).slots m = midSlots g m
      rw [setSlot_slots_other _ _ h]
      show cycleSlots g m = midSlots g m
      unfold midSlots
      rw [if_neg h]
  · show (sfSkip sfZero 0).2 = sfMid
    exact sfSkip_zero

/-- Unskipping the head of the singleton block restores the all-zero
skipfield. -/
theorem sfUnskip_mid : sfUnskipLeftmost sfMid 0 = sfZero := by
  refine skipfield_eq ?_ rfl rfl
  funext i
  show (if i = ((0 : Nat) : Int) then 0 else sfMid.cell i) = 0
  by_cases h : i = ((0 : Nat) : Int)
  · rw [if_pos h]
  · rw [if_neg h]
    have h0 : ¬ i = (0 : Int) := by exact_mod_cast h
    show (if i = (0 : Int) then 1 else 0) = 0
    rw [if_neg h0]

/-- One cycle, second half: inserting into the mid-cycle state reuses
slot 0 and advances its generation by two. -/
theorem cycle_insert (g : Nat) :
    insertOp 8 (midColony g) 2 (10 : Nat) =
      some (cycleColony (g + 2), 2,
        generationSig.mkHandle (g + 2) 0 (1 : Nat)) := by
  have h1 : insertOp 8 (midColony g) 2 (10 : Nat) =
      some ((insertIntoFree (midColony g) 0 (10 : Nat)).1, 2,
        (insertIntoFree (midColony g) 0 (10 : Nat)).2) := rfl
  rw [h1]
  have hrm : removeSkipblockFromSkiplist
      { midColony g with sf := sfUnskipLeftmost (midColony g).sf 0 } 0 0 =
      { { midColony g with sf := sfUnskipLeftmost (midColony g).sf 0 }
        with nextFree := none } := by
    unfold removeSkipblockFromSkiplist
    rw [show slotPrev
        { midColony g with sf := sfUnskipLeftmost (midColony g).sf 0 } 0 =
        none from rfl,
      show slotNext
        { midColony g with sf := sfUnskipLeftmost (midColony g).sf 0 } 0 =
        none from rfl]
  have h2 : (insertIntoFree (midColony g) 0 (10 : Nat)).1 =
      cycleColony (g + 2) := by
    refine colony_eq ?_ ?_ rfl rfl rfl rfl rfl
    · funext m
      simp only [insertIntoFree]
      by_cases h : m = 0
      · subst h
        rfl
      · rw [setSlot_slots_other _ _ h, hrm]
        show midSlots g m = cycleSlots (g + 2) m
        unfold midSlots
        rw [if_neg h]
        exact cycleSlots_ne g (g + 2) h
    · show sfUnskipLeftmost sfMid 0 = sfZero
      exact sfUnskip_mid
  rw [h2]
  rfl

/-- The fresh generation-guarded colony of the retirement trace. -/
def retA0 : Colony generationSig Nat := initColony generationSig Nat

/-- After the first insert of the retirement trace. -/
def retW1 : Colony generationSig Nat × Nat × generationSig.Handle :=
  (insertOp 8 retA0 1 (10 : Nat)).getD (retA0, 0, GenHandle.mk 0 0)

/-- After the second insert. -/
def retW2 : Colony generationSig Nat × Nat × generationSig.Handle :=
  (insertOp 8 retW1.1 retW1.2.1 (20 : Nat)).getD (retA0, 0, GenHandle.mk 0 0)

/-- After the third insert. -/
def retW3 : Colony generationSig Nat × Nat × generationSig.Handle :=
  (insertOp 8 retW2.1 retW2.2.1 (30 : Nat)).getD (retA0, 0, GenHandle.mk 0 0)

/-- Three inserts from fresh reach the cycle's steady state at
generation zero. -/
theorem stageA_eq : retW3.1 = cycleColony 0 := by
  refine colony_eq rfl ?_ rfl rfl rfl rfl rfl
  refine skipfield_eq ?_ rfl rfl
  funext i
  show (if i ≤ ((0 : Nat) : Int) then (0 : Nat) else 0) = 0
  by_cases h : i ≤ ((0 : Nat) : Int)
  · rw [if_pos h]
  · rw [if_neg h]

/-- The cycle state is reachable at every generation below the
retirement bound. -/
theorem reach_cycle (n : Nat) : 2 * n + 1 ≤ MAX_GENERATION →
    Reach generationSig Nat 8 1 (cycleColony (2 * n), 2) := by
  induction n with
  | zero =>
      intro _
      have he1 : insertOp 8 retA0 1 (10 : Nat) =
          some (retW1.1, retW1.2.1, retW1.2.2) := rfl
      have he2 : insertOp 8 retW1.1 retW1.2.1 (20 : Nat) =
          some (retW2.1, retW2.2.1, retW2.2.2) := rfl
      have he3 : insertOp 8 retW2.1 retW2.2.1 (30 : Nat) =
          some (retW3.1, retW3.2.1, retW3.2.2) := rfl
      have r3 : Reach generationSig Nat 8 1 (retW3.1, retW3.2.1) :=
        Relation.ReflTransGen.tail (Relation.ReflTransGen.tail
          (Relation.ReflTransGen.single (StepR.insert he1)) (StepR.insert he2))
          (StepR.insert he3)
      have hk : retW3.2.1 = 2 := rfl
      rw [show (2 * 0 : Nat) = 0 from rfl, ← stageA_eq, ← hk]
      exact r3
  | succ m ih =>
      intro hb
      have hr := ih (by omega)
      have hg : ¬ (2 * m + 1 = MAX_GENERATION) := by omega
      have s1 : StepR generationSig Nat 8 (cycleColony (2 * m), 2)
          (midColony (2 * m), 2) := by
        have hstep := @StepR.remove generationSig Nat _ 8 (cycleColony (2 * m))
          2 0 (Nat.succ_pos 2) rfl
        rw [cycle_remove (2 * m) hg] at hstep
        exact hstep
      have s2 : StepR generationSig Nat 8 (midColony (2 * m), 2)
          (cycleColony (2 * m + 2), 2) :=
        StepR.insert (cycle_insert (2 * m))
      rw [show 2 * (m + 1) = 2 * m + 2 from by omega]
      exact Relation.ReflTransGen.tail (Relation.ReflTransGen.tail hr s1) s2

/-- The steady state with slot 0 one fill short of retirement. -/
def retCg : Colony generationSig Nat := cycleColony (MAX_GENERATION - 1)

/-- After removing slot 1 (an ordinary reuse removal). -/
def retE1 : Colony generationSig Nat := (removeUnchecked retCg 1).2

/-- After removing slot 0: the guard retires, the skipfield merges the
block [0, 1], and the free-list is left pointing at the stale head 1. -/
def retE2 : Colony generationSig Nat := (removeUnchecked retE1 0).2

/-- After the next insert, which unskips the stale non-head 1 and
corrupts the skipfield. -/
def retW4 : Colony generationSig Nat × Nat × generationSig.Handle :=
  (insertOp 8 retE2 2 (40 : Nat)).getD (retE2, 0, GenHandle.mk 0 0)

/-- C2 counterexample: a reachable colony (three inserts, half a
million reuse cycles on slot 0, a removal of slot 1, the retiring
removal of slot 0, one more insert) whose occupied pairs are
[(1, 40), (2, 30)] while a full iterator run yields [(2, 30), (3, 0)]:
iteration misses the occupied index 1 and emits the junk index 3. -/
theorem C2_retirement_cex :
    ∃ w : Colony generationSig Nat × Nat, Reach generationSig Nat 8 1 w ∧
      occFrom w.1 0 = [(1, 40), (2, 30)] ∧
      iterRun (rawIterInit w.1) = [(2, 30), (3, 0)] ∧
      iterRun (rawIterInit w.1) ≠ occFrom w.1 0 := by
  have h0 : Reach generationSig Nat 8 1 (retCg, 2) := by
    have hre := reach_cycle 524287 (by norm_num [MAX_GENERATION, GENERATION_BITS])
    have he : (2 * 524287 : Nat) = MAX_GENERATION - 1 := by
      norm_num [MAX_GENERATION, GENERATION_BITS]
    rw [he] at hre
    exact hre
  have s1 : StepR generationSig Nat 8 (retCg, 2) (retE1, 2) :=
    @StepR.remove generationSig Nat _ 8 retCg 2 1 (by decide) rfl
  have s2 : StepR generationSig Nat 8 (retE1, 2) (retE2, 2) :=
    @StepR.remove generationSig Nat _ 8 retE1 2 0 (by decide) rfl
  have he4 : insertOp 8 retE2 2 (40 : Nat) =
      some (retW4.1, retW4.2.1, retW4.2.2) := rfl
  have s3 : StepR generationSig Nat 8 (retE2, 2) (retW4.1, retW4.2.1) :=
    StepR.insert he4
  have ho : occFrom retW4.1 0 = [(1, 40), (2, 30)] := rfl
  have hi : iterRun (rawIterInit retW4.1) = [(2, 30), (3, 0)] := rfl
  refine ⟨(retW4.1, retW4.2.1), ?_, ho, hi, ?_⟩
  · exact Relation.ReflTransGen.tail (Relation.ReflTransGen.tail
      (Relation.ReflTransGen.tail h0 s1) s2) s3
  · show iterRun (rawIterInit retW4.1) ≠ occFrom retW4.1 0
    rw [ho, hi]
    decide
